import Mathlib

/-!
# GoMapViewer: archive reader (`mpq`), archive stack (`vfs`), texture codec (`blp`)

A shallow embedding of the Go sources `mpq/mpq.go`, `vfs/mpqstack.go`, `vfs/fs.go`,
`vfs/memfile.go`, `blp/blp.go`, `blp/dxt.go` and `blp/helpers.go`.

* Go `uint32`/`uint16`/`byte` values are natural numbers; every operation that can
  leave the 32-bit range is followed by an explicit `% 2 ^ 32`.
* Go `[]byte` and `string` values are lists of bytes (`List Nat`, each element `< 256`).
* A Go function returning `(T, error)` returns `Result T`; a run-time panic (index out of
  range, integer division by zero) is the separate outcome `Failure.fault`.
* The contents of the archive file take the place of the `*os.File` handle.
* Functions of the Go standard library with no source in the repository
  (`unicode.ToUpper` on non-ASCII text, `compress/zlib`) are fields of `Lib`.
-/

namespace GoMapViewer

/-! ## Outcomes -/

/-- The `error` values the embedded functions return. -/
inductive GoError where
  /-- The error `errors.New("not an MPQ archive")`. -/
  | notAnMPQ
  /-- The error `errors.New("file not found")`. -/
  | fileNotFound
  /-- The error `fmt.Errorf("unsupported compression: 0x%02X", b)`. -/
  | unsupportedCompression (b : Nat)
  /-- An error of `os.File.ReadAt` or `binary.Read` (short read, negative offset). -/
  | io
  /-- An error of `zlib.NewReader` or of `io.ReadAll` on a zlib stream. -/
  | zlib
  /-- The error `errors.New("no MPQs loaded")`. -/
  | noMPQsLoaded
  /-- The error `fs.ErrNotExist`. -/
  | notExist
  /-- The error `io.EOF`. -/
  | eof
  /-- The error `ErrBadBLP = errors.New("blp: bad file")`. -/
  | errBadBLP
  /-- The error `ErrUnsupportedBLP = errors.New("blp: unsupported format")`. -/
  | errUnsupportedBLP
  /-- The error `fmt.Errorf("%w: file too small (%d bytes)", ErrBadBLP, n)`. -/
  | blpTooSmall (n : Nat)
  /-- The error `fmt.Errorf("%w: bad magic %q", ErrBadBLP, magic)`. -/
  | blpBadMagic (magic : List Nat)
  /-- The error `fmt.Errorf("%w: %s", err, path)` of `wrapErr`. -/
  | withPath (err : GoError) (path : List Nat)
  deriving DecidableEq, Repr

/-- How a call can end without a value: with a returned `error`, or with a run-time panic. -/
inductive Failure where
  | error (e : GoError)
  | fault
  deriving DecidableEq, Repr

/-- Outcome of a Go function returning `(T, error)`. -/
abbrev Result (α : Type) := Except Failure α

instance {α : Type} [DecidableEq α] : DecidableEq (Result α)
  | .ok a, .ok b =>
    if h : a = b then isTrue (congrArg Except.ok h)
    else isFalse (fun h2 => h (Except.ok.inj h2))
  | .error a, .error b =>
    if h : a = b then isTrue (congrArg Except.error h)
    else isFalse (fun h2 => h (Except.error.inj h2))
  | .ok _, .error _ => isFalse (fun h => Except.noConfusion h)
  | .error _, .ok _ => isFalse (fun h => Except.noConfusion h)

/-- Standard-library functions the repository calls but does not define. -/
structure Lib where
  /-- The function `strings.Map(unicode.ToUpper, s)`, which `strings.ToUpper` applies to a
  string holding a byte `>= 0x80`. -/
  mapUpper : List Nat → List Nat
  /-- The composition `zlib.NewReader` then `io.ReadAll`; `none` is an error of either. -/
  inflate : List Nat → Option (List Nat)

/-- Bytes of an ASCII string literal. -/
def ascii (s : String) : List Nat := s.toList.map Char.toNat

/-! ## Crypto (`mpq.go`, lines 18-64) -/

/-- One update `seed = (seed*125 + 3) % 0x2AAAAB` in `uint32` arithmetic. -/
def cryptStep (seed : Nat) : Nat := ((seed * 125 + 3) % 2 ^ 32) % 0x2AAAAB

/-- Body of the inner loop of `init`, on the state `(seed, cryptTable)`; the array
`[0x500]uint32` is a function of the index. -/
def initBody (i j : Nat) (st : Nat × (Nat → Nat)) : Nat × (Nat → Nat) :=
  let seed := cryptStep st.1
  let temp1 := ((seed &&& 0xFFFF) <<< 16) % 2 ^ 32
  let seed := cryptStep seed
  let temp2 := seed &&& 0xFFFF
  (seed, Function.update st.2 (i + j * 0x100) (temp1 ||| temp2))

/-- The function `init`: both loops, from the zeroed table and the start seed. -/
def cryptInit : Nat × (Nat → Nat) :=
  (List.range 0x100).foldl
    (fun st i => (List.range 5).foldl (fun st j => initBody i j st) st)
    (0x00100001, fun _ => 0)

/-- Number of elements of the array `cryptTable`. -/
def cryptTableLen : Nat := 0x500

/-- The global `cryptTable` after `init`; the sources read it at indices below `0x500` only. -/
def cryptTable : Nat → Nat := cryptInit.2

/-- Element `cryptTable[i]`. -/
def cryptAt (i : Nat) : Nat := cryptTable i

def MPQ_HASH_TABLE_OFFSET : Nat := 0
def MPQ_HASH_NAME_A : Nat := 1
def MPQ_HASH_NAME_B : Nat := 2
def MPQ_HASH_FILE_KEY : Nat := 3

/-- ASCII branch of `strings.ToUpper` on one byte. -/
def upperByte (c : Nat) : Nat := if 0x61 ≤ c ∧ c ≤ 0x7A then c - 0x20 else c

/-- The function `strings.ToUpper`: bytewise on ASCII strings, `strings.Map(unicode.ToUpper, s)`
otherwise. -/
def toUpper (lib : Lib) (s : List Nat) : List Nat :=
  if s.all (fun c => decide (c < 0x80)) then s.map upperByte else lib.mapUpper s

/-- The function `strings.ReplaceAll(name, "/", "\\")`. -/
def replaceSlash (s : List Nat) : List Nat := s.map (fun c => if c = 0x2F then 0x5C else c)

/-- Body of the loop of `mpqHashString` on `(seed1, seed2)`. -/
def hashStep (hashType : Nat) (st : Nat × Nat) (ch : Nat) : Nat × Nat :=
  let value := cryptAt (((hashType <<< 8) % 2 ^ 32 + ch) % 2 ^ 32)
  let seed1 := value ^^^ ((st.1 + st.2) % 2 ^ 32)
  let seed2 := (ch + seed1 + st.2 + (st.2 <<< 5) % 2 ^ 32 + 3) % 2 ^ 32
  (seed1, seed2)

/-- The function `mpqHashString`. -/
def mpqHashString (lib : Lib) (str : List Nat) (hashType : Nat) : Nat :=
  ((toUpper lib str).foldl (hashStep hashType) (0x7FED7FED, 0xEEEEEEEE)).1

/-- The function `binary.LittleEndian.Uint32` on four bytes. -/
def le32 (b0 b1 b2 b3 : Nat) : Nat := b0 ||| (b1 <<< 8) ||| (b2 <<< 16) ||| (b3 <<< 24)

/-- The function `binary.LittleEndian.Uint16` on two bytes. -/
def le16 (b0 b1 : Nat) : Nat := b0 ||| (b1 <<< 8)

/-- The function `binary.LittleEndian.PutUint32`. -/
def putLe32 (v : Nat) : List Nat :=
  [v % 256, (v >>> 8) % 256, (v >>> 16) % 256, (v >>> 24) % 256]

/-- The key update `key = ((^key << 21) + 0x11111111) | (key >> 11)`. -/
def nextKey (key : Nat) : Nat :=
  ((((key ^^^ 0xFFFFFFFF) <<< 21) % 2 ^ 32 + 0x11111111) % 2 ^ 32) ||| (key >>> 11)

/-- The loop of `mpqDecrypt`: one iteration per whole 4-byte word, fewer than 4 remaining
bytes are left as they are. -/
def decryptLoop : List Nat → Nat → Nat → List Nat
  | b0 :: b1 :: b2 :: b3 :: rest, key, seed =>
    let seed := (seed + cryptAt (0x400 + (key &&& 0xFF))) % 2 ^ 32
    let value := le32 b0 b1 b2 b3 ^^^ ((key + seed) % 2 ^ 32)
    putLe32 value ++
      decryptLoop rest (nextKey key) ((value + seed + (seed <<< 5) % 2 ^ 32 + 3) % 2 ^ 32)
  | data, _, _ => data

/-- The function `mpqDecrypt`; the buffer it overwrites is returned. -/
def mpqDecrypt (data : List Nat) (key : Nat) : List Nat := decryptLoop data key 0xEEEEEEEE

/-- The matching encryption, written from the description of the cipher: word `i` is XORed with
`key_i + seed_i` under the same key rotation, and the running seed advances from the plaintext
word. -/
def encryptLoop : List Nat → Nat → Nat → List Nat
  | b0 :: b1 :: b2 :: b3 :: rest, key, seed =>
    let seed := (seed + cryptAt (0x400 + (key &&& 0xFF))) % 2 ^ 32
    let plain := le32 b0 b1 b2 b3
    putLe32 (plain ^^^ ((key + seed) % 2 ^ 32)) ++
      encryptLoop rest (nextKey key) ((plain + seed + (seed <<< 5) % 2 ^ 32 + 3) % 2 ^ 32)
  | data, _, _ => data

/-- Encryption with the start seed of `mpqDecrypt`. -/
def mpqEncrypt (data : List Nat) (key : Nat) : List Nat := encryptLoop data key 0xEEEEEEEE

/-! ## Structures (`mpq.go`, lines 66-119) -/

def MPQ_FILE_COMPRESS_MASK : Nat := 0x0000FF00
def MPQ_FILE_ENCRYPTED : Nat := 0x00010000
def MPQ_FILE_FIX_KEY : Nat := 0x00020000
def MPQ_FILE_SINGLE_UNIT : Nat := 0x01000000
def MPQ_FILE_SECTOR_CRC : Nat := 0x04000000
def MPQ_COMPRESSION_ZLIB : Nat := 0x02

structure Header where
  ID : Nat
  HeaderSize : Nat
  ArchiveSize : Nat
  FormatVersion : Nat
  SectorSizeShift : Nat
  HashTableOffset : Nat
  BlockTableOffset : Nat
  HashTableEntries : Nat
  BlockTableEntries : Nat
  deriving DecidableEq, Repr

structure HashEntry where
  NameA : Nat
  NameB : Nat
  Locale : Nat
  Platform : Nat
  BlockIdx : Nat
  deriving DecidableEq, Repr

structure BlockEntry where
  Offset : Nat
  CompressedSize : Nat
  UncompressedSize : Nat
  Flags : Nat
  deriving DecidableEq, Repr

/-- The struct `MPQ`; the field `f` holds the bytes of the open file. -/
structure MPQ where
  f : List Nat
  header : Header
  hashTable : List HashEntry
  blockTable : List BlockEntry
  archivePos : Int
  deriving DecidableEq, Repr

/-! ## File access -/

/-- The method `os.File.ReadAt` with a buffer of `n` bytes: the `n` bytes at offset `off`, or
`none` for the error of a negative offset or of a read past the end of the file. A buffer of
length zero is read without error at every offset that is not negative. -/
def readAt (f : List Nat) (n : Nat) (off : Int) : Option (List Nat) :=
  if off < 0 then none
  else if n = 0 then some []
  else if off.toNat + n ≤ f.length then some ((f.drop off.toNat).take n)
  else none

/-- Little-endian `uint32` at position `i` of a buffer. -/
def u32At (b : List Nat) (i : Nat) : Nat :=
  le32 (b.getD i 0) (b.getD (i + 1) 0) (b.getD (i + 2) 0) (b.getD (i + 3) 0)

/-- Little-endian `uint16` at position `i` of a buffer. -/
def u16At (b : List Nat) (i : Nat) : Nat := le16 (b.getD i 0) (b.getD (i + 1) 0)

/-- The call `binary.Read` into a `Header`, on its 32 bytes. -/
def parseHeader (b : List Nat) : Header where
  ID := u32At b 0
  HeaderSize := u32At b 4
  ArchiveSize := u32At b 8
  FormatVersion := u16At b 12
  SectorSizeShift := u16At b 14
  HashTableOffset := u32At b 16
  BlockTableOffset := u32At b 20
  HashTableEntries := u32At b 24
  BlockTableEntries := u32At b 28

/-- One `HashEntry` decoded by `binary.Read` from 16 bytes at position `i`. -/
def parseHashEntry (b : List Nat) (i : Nat) : HashEntry where
  NameA := u32At b i
  NameB := u32At b (i + 4)
  Locale := u16At b (i + 8)
  Platform := u16At b (i + 10)
  BlockIdx := u32At b (i + 12)

/-- One `BlockEntry` decoded by `binary.Read` from 16 bytes at position `i`. -/
def parseBlockEntry (b : List Nat) (i : Nat) : BlockEntry where
  Offset := u32At b i
  CompressedSize := u32At b (i + 4)
  UncompressedSize := u32At b (i + 8)
  Flags := u32At b (i + 12)

/-! ## Open (`mpq.go`, lines 125-195) -/

/-- The method `readEncryptedTable`: `count` entries of 16 bytes at `offset`, decrypted. -/
def readEncryptedTable (f : List Nat) (offset : Nat) (count : Nat) (key : Nat) :
    Result (List Nat) :=
  match readAt f (16 * count) (offset : Int) with
  | none => .error (.error .io)
  | some buf => .ok (mpqDecrypt buf key)

/-- The function `Open` on the contents of the file at `path`. -/
def Open (lib : Lib) (file : List Nat) : Result MPQ :=
  match readAt file 32 0 with
  | none => .error (.error .io)
  | some hb =>
    let header := parseHeader hb
    if header.ID ≠ 0x1A51504D then .error (.error .notAnMPQ)
    else
      let archivePos : Int := 32 - (header.HeaderSize : Int)
      let hashKey := mpqHashString lib (ascii "(hash table)") MPQ_HASH_FILE_KEY
      let blockKey := mpqHashString lib (ascii "(block table)") MPQ_HASH_FILE_KEY
      match readEncryptedTable file header.HashTableOffset header.HashTableEntries hashKey with
      | .error e => .error e
      | .ok hbuf =>
        match readEncryptedTable file header.BlockTableOffset header.BlockTableEntries
            blockKey with
        | .error e => .error e
        | .ok bbuf =>
          .ok {
            f := file
            header := header
            hashTable := (List.range header.HashTableEntries).map
              (fun k => parseHashEntry hbuf (16 * k))
            blockTable := (List.range header.BlockTableEntries).map
              (fun k => parseBlockEntry bbuf (16 * k))
            archivePos := archivePos }

/-! ## File lookup (`mpq.go`, lines 201-223) -/

/-- The loop of `findHashEntries`: `n` iterations remain, `i` is the loop counter. -/
def probeLoop (m : MPQ) (start hashA hashB : Nat) :
    Nat → Nat → List HashEntry → Result (List HashEntry)
  | 0, _, found => .ok found
  | n + 1, i, found =>
    match m.hashTable[((start + i) % 2 ^ 32) % m.header.HashTableEntries]? with
    | none => .error .fault
    | some h =>
      if h.BlockIdx = 0xFFFFFFFF then .ok found
      else if h.BlockIdx = 0xFFFFFFFE then probeLoop m start hashA hashB n (i + 1) found
      else if h.NameA = hashA ∧ h.NameB = hashB then
        probeLoop m start hashA hashB n (i + 1) (found ++ [h])
      else probeLoop m start hashA hashB n (i + 1) found

/-- The method `findHashEntries`; the remainder by a zero `HashTableEntries` is a run-time
panic. -/
def MPQ.findHashEntries (lib : Lib) (m : MPQ) (name : List Nat) : Result (List HashEntry) :=
  let name := replaceSlash name
  let hashA := mpqHashString lib name MPQ_HASH_NAME_A
  let hashB := mpqHashString lib name MPQ_HASH_NAME_B
  if m.header.HashTableEntries = 0 then .error .fault
  else
    let start := mpqHashString lib name MPQ_HASH_TABLE_OFFSET % m.header.HashTableEntries
    probeLoop m start hashA hashB m.header.HashTableEntries 0 []

/-! ## ReadFile (`mpq.go`, lines 229-389) -/

/-- The function `baseNameForKey`. -/
def baseNameForKey (name : List Nat) : List Nat :=
  let name := replaceSlash name
  match name.reverse.indexOf? 0x5C with
  | some k => name.drop (name.length - k)
  | none => name

/-- The method `fileKey`. -/
def MPQ.fileKey (lib : Lib) (m : MPQ) (name : List Nat) (block : BlockEntry)
    (absOffset : Int) : Nat :=
  let key := mpqHashString lib (baseNameForKey name) MPQ_HASH_FILE_KEY
  if block.Flags &&& MPQ_FILE_FIX_KEY ≠ 0 then
    ((key + ((absOffset - m.archivePos) % 2 ^ 32).toNat) % 2 ^ 32) ^^^ block.UncompressedSize
  else key

/-- The function `decompressSingleUnit`; `data[0]` on an empty buffer is a run-time panic. -/
def decompressSingleUnit (lib : Lib) (data : List Nat) (_expected : Nat) : Result (List Nat) :=
  match data with
  | [] => .error .fault
  | tag :: rest =>
    if tag = MPQ_COMPRESSION_ZLIB then
      match lib.inflate rest with
      | none => .error (.error .zlib)
      | some out => .ok out
    else .error (.error (.unsupportedCompression tag))

/-- The conversion `int64(int32(x))` of a `uint32`. -/
def toInt32 (x : Nat) : Int := if x < 2 ^ 31 then (x : Int) else (x : Int) - 2 ^ 32

/-- The value `sectorSize` of `readSectorCompressedFile` (line 283); the shift of a `uint32`
by 32 or more gives 0. -/
def MPQ.sectorSize (m : MPQ) : Nat := (512 <<< m.header.SectorSizeShift) % 2 ^ 32

/-- The value `sectorCount` (line 284), computed when `sectorSize` is not zero. -/
def MPQ.sectorCount (m : MPQ) (block : BlockEntry) : Nat :=
  ((block.UncompressedSize + m.sectorSize + 2 ^ 32 - 1) % 2 ^ 32) / m.sectorSize

/-- The value `tableDWORDs` (lines 286-289). -/
def MPQ.tableDWORDs (m : MPQ) (block : BlockEntry) : Nat :=
  let t := (m.sectorCount block + 1) % 2 ^ 32
  if block.Flags &&& MPQ_FILE_SECTOR_CRC ≠ 0 then (t + 1) % 2 ^ 32 else t

/-- The slice `offsets` (lines 291-304): the offset table is read, decrypted with `key-1` when
the file is encrypted, and decoded. -/
def MPQ.sectorOffsets (lib : Lib) (m : MPQ) (offset : Int) (block : BlockEntry)
    (name : List Nat) : Result (List Nat) :=
  match readAt m.f ((m.tableDWORDs block * 4) % 2 ^ 32) offset with
  | none => .error (.error .io)
  | some raw =>
    let key := m.fileKey lib name block offset
    let table :=
      if block.Flags &&& MPQ_FILE_ENCRYPTED ≠ 0 then mpqDecrypt raw ((key + 2 ^ 32 - 1) % 2 ^ 32)
      else raw
    if table.length < m.tableDWORDs block * 4 then .error .fault
    else .ok ((List.range (m.tableDWORDs block)).map (fun i => u32At table (i * 4)))

/-- The value `expected` for sector `i` (lines 322-326). -/
def sectorExpected (block : BlockEntry) (sectorSize i : Nat) : Nat :=
  let remain := (block.UncompressedSize + 2 ^ 32 - (i * sectorSize) % 2 ^ 32) % 2 ^ 32
  if remain < sectorSize then remain else sectorSize

/-- The body of the sector loop (lines 309-347) for sector `i`: the bytes it appends to `out`.
The access `sector[0]` to an empty sector is a run-time panic. -/
def MPQ.sectorStep (lib : Lib) (m : MPQ) (offset : Int) (block : BlockEntry) (key : Nat)
    (offsets : List Nat) (i : Nat) : Result (List Nat) :=
  match offsets[i]?, offsets[i + 1]? with
  | some start, some stop =>
    let size := (stop + 2 ^ 32 - start) % 2 ^ 32
    match readAt m.f size (offset + toInt32 start) with
    | none => .error (.error .io)
    | some raw =>
      let sector :=
        if block.Flags &&& MPQ_FILE_ENCRYPTED ≠ 0 then mpqDecrypt raw ((key + i) % 2 ^ 32)
        else raw
      if size = sectorExpected block m.sectorSize i then .ok sector
      else
        match sector with
        | [] => .error .fault
        | tag :: rest =>
          if tag = MPQ_COMPRESSION_ZLIB then
            match lib.inflate rest with
            | none => .error (.error .zlib)
            | some data => .ok data
          else .error (.error (.unsupportedCompression tag))
  | _, _ => .error .fault

/-- The sector loop of `readSectorCompressedFile` (line 308): `n` iterations remain, `i` is
the loop counter, `out` the bytes appended so far. -/
def MPQ.sectorLoop (lib : Lib) (m : MPQ) (offset : Int) (block : BlockEntry) (key : Nat)
    (offsets : List Nat) : Nat → Nat → List Nat → Result (List Nat)
  | 0, _, out => .ok out
  | n + 1, i, out =>
    match m.sectorStep lib offset block key offsets i with
    | .error e => .error e
    | .ok data => MPQ.sectorLoop lib m offset block key offsets n (i + 1) (out ++ data)

/-- The slice expression `out[:n]` for a slice whose capacity is at least `n`: the bytes past
the length of `out` are the zero bytes of the allocation. -/
def resliceTo (out : List Nat) (n : Nat) : List Nat :=
  (out ++ List.replicate (n - out.length) 0).take n

/-- The method `readSectorCompressedFile`; a zero `sectorSize` (shift of 23 or more) makes the
division of line 284 a run-time panic. An error of the offset table or of a sector is
returned (`Except.bind`), otherwise the result is `out[:block.UncompressedSize]`. -/
def MPQ.readSectorCompressedFile (lib : Lib) (m : MPQ) (offset : Int) (block : BlockEntry)
    (name : List Nat) : Result (List Nat) :=
  if m.sectorSize = 0 then .error .fault
  else
    (m.sectorOffsets lib offset block name).bind fun offsets =>
      (m.sectorLoop lib offset block (m.fileKey lib name block offset) offsets
          (m.sectorCount block) 0 []).bind fun out =>
        .ok (resliceTo out block.UncompressedSize)

/-- The entry `ReadFile` uses among the candidates `c :: cs`: the first of locale 0, else the
first. -/
def selectEntry (c : HashEntry) (cs : List HashEntry) : HashEntry :=
  match (c :: cs).find? (fun e => decide (e.Locale = 0)) with
  | some e => e
  | none => c

/-- The part of `ReadFile` after the block entry is fetched (lines 249-276). -/
def MPQ.readBlock (lib : Lib) (m : MPQ) (name : List Nat) (block : BlockEntry) :
    Result (List Nat) :=
  let fileOffset : Int := (block.Offset : Int)
  if block.Flags &&& MPQ_FILE_SINGLE_UNIT ≠ 0 then
    match readAt m.f block.CompressedSize fileOffset with
    | none => .error (.error .io)
    | some raw =>
      let raw :=
        if block.Flags &&& MPQ_FILE_ENCRYPTED ≠ 0 then
          mpqDecrypt raw (m.fileKey lib name block fileOffset)
        else raw
      if block.Flags &&& MPQ_FILE_COMPRESS_MASK = 0 then .ok raw
      else decompressSingleUnit lib raw block.UncompressedSize
  else if block.Flags &&& MPQ_FILE_COMPRESS_MASK ≠ 0 then
    m.readSectorCompressedFile lib fileOffset block name
  else
    match readAt m.f block.UncompressedSize fileOffset with
    | none => .error (.error .io)
    | some out => .ok out

/-- The method `ReadFile`; `m.blockTable[h.BlockIdx]` out of range is a run-time panic. -/
def MPQ.ReadFile (lib : Lib) (m : MPQ) (name : List Nat) : Result (List Nat) :=
  match m.findHashEntries lib name with
  | .error e => .error e
  | .ok [] => .error (.error .fileNotFound)
  | .ok (c :: cs) =>
    match m.blockTable[(selectEntry c cs).BlockIdx]? with
    | none => .error .fault
    | some block => m.readBlock lib name block

/-! ## Archive stack (`vfs/mpqstack.go`) -/

structure FileSource where
  Archive : MPQ
  Path : List Nat
  Order : Nat
  deriving DecidableEq, Repr

structure MPQStack where
  archives : List MPQ
  paths : List (List Nat)
  loadOrder : Nat
  deriving DecidableEq, Repr

/-- The function `New`. -/
def New : MPQStack := { archives := [], paths := [], loadOrder := 0 }

/-- The method `Add`; `*mpq.MPQ` has no `Path` method, so the empty string is recorded. -/
def MPQStack.Add (s : MPQStack) (a : MPQ) : MPQStack :=
  { archives := s.archives ++ [a], paths := s.paths ++ [[]], loadOrder := s.loadOrder + 1 }

/-- The loop of `MPQStack.ReadFile` with `i + 1` the number of archives still to probe. -/
def readLoop (lib : Lib) (s : MPQStack) (mpqPath : List Nat) : Nat → Result (List Nat)
  | 0 => .error (.error .fileNotFound)
  | i + 1 =>
    match s.archives[i]? with
    | none => .error .fault
    | some a =>
      match a.ReadFile lib mpqPath with
      | .ok data => .ok data
      | .error (.error _) => readLoop lib s mpqPath i
      | .error .fault => .error .fault

/-- The method `MPQStack.ReadFile`. -/
def MPQStack.ReadFile (lib : Lib) (s : MPQStack) (name : List Nat) : Result (List Nat) :=
  if s.archives.length = 0 then .error (.error .noMPQsLoaded)
  else readLoop lib s (replaceSlash name) s.archives.length

/-- The loop of `MPQStack.SourceOf`. -/
def sourceLoop (lib : Lib) (s : MPQStack) (mpqPath : List Nat) : Nat → Result (Option FileSource)
  | 0 => .ok none
  | i + 1 =>
    match s.archives[i]? with
    | none => .error .fault
    | some a =>
      match a.ReadFile lib mpqPath with
      | .ok _ =>
        match s.paths[i]? with
        | none => .error .fault
        | some p => .ok (some { Archive := a, Path := p, Order := i + 1 })
      | .error (.error _) => sourceLoop lib s mpqPath i
      | .error .fault => .error .fault

/-- The method `MPQStack.SourceOf`; `.ok none` is the result `(nil, false)`. -/
def MPQStack.SourceOf (lib : Lib) (s : MPQStack) (name : List Nat) : Result (Option FileSource) :=
  sourceLoop lib s (replaceSlash name) s.archives.length

/-- The stack after `New()` and `Add(a_1)`, ..., `Add(a_n)`. -/
def buildStack (as : List MPQ) : MPQStack := as.foldl MPQStack.Add New

/-! ## Filesystem adapter (`vfs/fs.go`, `vfs/memfile.go`) -/

/-- The type `bytes.Reader`: the bytes and the read position. -/
structure Reader where
  s : List Nat
  i : Nat
  deriving DecidableEq, Repr

/-- The method `(*bytes.Reader).Read` with a buffer of `n` bytes: the bytes copied into the
buffer, the error (`io.EOF` once the position is at the end) and the reader after the call. -/
def Reader.Read (r : Reader) (n : Nat) : (List Nat × Option GoError) × Reader :=
  if r.i ≥ r.s.length then (([], some .eof), r)
  else ((((r.s.drop r.i).take n), none), { r with i := r.i + ((r.s.drop r.i).take n).length })

/-- The struct `memFile`. -/
structure memFile where
  r : Reader
  size : Nat
  name : List Nat
  deriving DecidableEq, Repr

/-- The method `memFile.Read`. -/
def memFile.Read (f : memFile) (n : Nat) : (List Nat × Option GoError) × memFile :=
  ((f.r.Read n).1, { f with r := (f.r.Read n).2 })

/-- The struct `fileInfo`. -/
structure fileInfo where
  name : List Nat
  size : Nat
  deriving DecidableEq, Repr

/-- The method `memFile.Stat`. -/
def memFile.Stat (f : memFile) : fileInfo := { name := f.name, size := f.size }

/-- The method `fileInfo.Size`. -/
def fileInfo.Size (fi : fileInfo) : Nat := fi.size

/-- A sequence of `Read` calls with buffers of the given sizes: the bytes they return, one
after the other, and the file after the last call. -/
def memFile.readSeq (f : memFile) : List Nat → List Nat × memFile
  | [] => ([], f)
  | n :: ns =>
    (((f.Read n).1.1 ++ (memFile.readSeq (f.Read n).2 ns).1),
      (memFile.readSeq (f.Read n).2 ns).2)

/-- The struct `FS`. -/
structure FS where
  stack : MPQStack
  deriving DecidableEq, Repr

/-- The function `NewFS`. -/
def NewFS (stack : MPQStack) : FS := { stack := stack }

/-- The call `strings.TrimPrefix(name, "/")`. -/
def trimPrefixSlash (name : List Nat) : List Nat :=
  match name with
  | 0x2F :: rest => rest
  | _ => name

/-- The function `path.Base`. -/
def pathBase (path : List Nat) : List Nat :=
  if path = [] then ascii "."
  else
    let path := (path.reverse.dropWhile (fun c => decide (c = 0x2F))).reverse
    let path :=
      match path.reverse.indexOf? 0x2F with
      | some k => path.drop (path.length - k)
      | none => path
    if path = [] then ascii "/" else path

/-- The method `FS.Open`: every error of the stack becomes `fs.ErrNotExist`. -/
def FS.Open (lib : Lib) (f : FS) (name : List Nat) : Result memFile :=
  let mpqPath := replaceSlash (trimPrefixSlash name)
  match f.stack.ReadFile lib mpqPath with
  | .ok data => .ok { r := { s := data, i := 0 }, size := data.length, name := pathBase mpqPath }
  | .error (.error _) => .error (.error .notExist)
  | .error .fault => .error .fault

/-! ## Texture codec (`blp/blp.go`, `blp/dxt.go`, `blp/helpers.go`)

Go `int` values are natural numbers. The panic of `image.NewRGBA` for a rectangle whose buffer
length does not fit an `int`, and the limits of allocation, are not modelled. -/

namespace blp

/-- The struct `image.RGBA` for the rectangle `image.Rect(0, 0, Width, Height)`. -/
structure RGBA where
  Pix : List Nat
  Stride : Nat
  Width : Nat
  Height : Nat
  deriving DecidableEq, Repr

/-- The call `image.NewRGBA(image.Rect(0, 0, w, h))`. -/
def NewRGBA (w h : Nat) : RGBA :=
  { Pix := List.replicate (4 * w * h) 0, Stride := 4 * w, Width := w, Height := h }

/-- The method `(*image.RGBA).RGBAAt`, as the list `[R, G, B, A]`. -/
def RGBAAt (img : RGBA) (x y : Nat) : List Nat :=
  [img.Pix.getD (y * img.Stride + x * 4) 0, img.Pix.getD (y * img.Stride + x * 4 + 1) 0,
    img.Pix.getD (y * img.Stride + x * 4 + 2) 0, img.Pix.getD (y * img.Stride + x * 4 + 3) 0]

/-- The function `set`. -/
def set (img : RGBA) (x y r g b a : Nat) : RGBA :=
  { img with
    Pix := (((img.Pix.set (y * img.Stride + x * 4 + 0) r).set (y * img.Stride + x * 4 + 1) g).set
      (y * img.Stride + x * 4 + 2) b).set (y * img.Stride + x * 4 + 3) a }

/-- The function `rgb565`, in `uint8` arithmetic. -/
def rgb565 (c : Nat) : Nat × Nat × Nat :=
  let r := ((c >>> 11) &&& 0x1F) % 256
  let g := ((c >>> 5) &&& 0x3F) % 256
  let b := (c &&& 0x1F) % 256
  (((r <<< 3) % 256) ||| (r >>> 2), ((g <<< 2) % 256) ||| (g >>> 4),
    ((b <<< 3) % 256) ||| (b >>> 2))

/-- The function `colorPalette`: four rows `[r, g, b]`. -/
def colorPalette (c0 c1 : Nat) : List (List Nat) :=
  let p0 := rgb565 c0
  let p1 := rgb565 c1
  [[p0.1, p0.2.1, p0.2.2],
   [p1.1, p1.2.1, p1.2.2],
   [((2 * p0.1 + p1.1) / 3) % 256, ((2 * p0.2.1 + p1.2.1) / 3) % 256,
     ((2 * p0.2.2 + p1.2.2) / 3) % 256],
   [((p0.1 + 2 * p1.1) / 3) % 256, ((p0.2.1 + 2 * p1.2.1) / 3) % 256,
     ((p0.2.2 + 2 * p1.2.2) / 3) % 256]]

/-- The function `alphaPalette`: the array `p` after the loops. -/
def alphaPalette (a0 a1 : Nat) : List Nat :=
  let p := ((List.replicate 8 0).set 0 a0).set 1 a1
  if a0 > a1 then
    (List.range' 2 6).foldl (fun p i => p.set i ((((8 - i) * a0 + (i - 1) * a1) / 7) % 256)) p
  else
    (((List.range' 2 4).foldl
      (fun p i => p.set i ((((6 - i) * a0 + (i - 1) * a1) / 5) % 256)) p).set 6 0).set 7 255

/-- The two inner loops of `decodeDXT1` (over `py` and `px`) for the block `(bx, by)`. -/
def dxt1Pixels (w h bx by_ : Nat) (colors : List (List Nat)) (indices : Nat) (img : RGBA) :
    RGBA :=
  (List.range 4).foldl
    (fun img py =>
      (List.range 4).foldl
        (fun img px =>
          if bx * 4 + px ≥ w ∨ by_ * 4 + py ≥ h then img
          else
            let c := colors.getD ((indices >>> (2 * (py * 4 + px))) &&& 0x03) []
            set img (bx * 4 + px) (by_ * 4 + py) (c.getD 0 0) (c.getD 1 0) (c.getD 2 0) 255)
        img)
    img

/-- The loop over `bx` of `decodeDXT1` in block row `by`: `n` iterations remain; the state is
the image and the read position `offset`. Reading a block of 8 bytes past the end of `data` is
a run-time panic. -/
def dxt1Row (w h : Nat) (data : List Nat) (by_ : Nat) :
    Nat → Nat → RGBA × Nat → Result (RGBA × Nat)
  | 0, _, st => .ok st
  | n + 1, bx, st =>
    if st.2 + 8 ≤ data.length then
      dxt1Row w h data by_ n (bx + 1)
        (dxt1Pixels w h bx by_
          (colorPalette (u16At data st.2) (u16At data (st.2 + 2))) (u32At data (st.2 + 4)) st.1,
          st.2 + 8)
    else .error .fault

/-- The loop over `by` of `decodeDXT1`: `n` iterations remain. -/
def dxt1Rows (w h : Nat) (data : List Nat) (bw : Nat) :
    Nat → Nat → RGBA × Nat → Result (RGBA × Nat)
  | 0, _, st => .ok st
  | n + 1, by_, st =>
    (dxt1Row w h data by_ bw 0 st).bind fun st2 => dxt1Rows w h data bw n (by_ + 1) st2

/-- The function `decodeDXT1`. -/
def decodeDXT1 (w h : Nat) (data : List Nat) : Result RGBA :=
  (dxt1Rows w h data ((w + 3) / 4) ((h + 3) / 4) 0 (NewRGBA w h, 0)).bind fun st => .ok st.1

/-- The value `alphaBits` of `decodeDXT5`: six bytes from `offset + 2`, little-endian, in
`uint64` arithmetic. -/
def alphaBitsAt (data : List Nat) (offset : Nat) : Nat :=
  (List.range 6).foldl
    (fun bits i => bits ||| ((data.getD (offset + 2 + i) 0) <<< (8 * i)) % 2 ^ 64) 0

/-- The two inner loops of `decodeDXT5` for the block `(bx, by)`. -/
def dxt5Pixels (w h bx by_ : Nat) (alpha : List Nat) (alphaBits : Nat)
    (colors : List (List Nat)) (indices : Nat) (img : RGBA) : RGBA :=
  (List.range 4).foldl
    (fun img py =>
      (List.range 4).foldl
        (fun img px =>
          if bx * 4 + px ≥ w ∨ by_ * 4 + py ≥ h then img
          else
            let p := py * 4 + px
            let a := alpha.getD ((alphaBits >>> (3 * p)) &&& 0x07) 0
            let c := colors.getD ((indices >>> (2 * p)) &&& 0x03) []
            set img (bx * 4 + px) (by_ * 4 + py) (c.getD 0 0) (c.getD 1 0) (c.getD 2 0) a)
        img)
    img

/-- The loop over `bx` of `decodeDXT5` in block row `by`; a block has 16 bytes. -/
def dxt5Row (w h : Nat) (data : List Nat) (by_ : Nat) :
    Nat → Nat → RGBA × Nat → Result (RGBA × Nat)
  | 0, _, st => .ok st
  | n + 1, bx, st =>
    if st.2 + 16 ≤ data.length then
      dxt5Row w h data by_ n (bx + 1)
        (dxt5Pixels w h bx by_
          (alphaPalette (data.getD st.2 0) (data.getD (st.2 + 1) 0)) (alphaBitsAt data st.2)
          (colorPalette (u16At data (st.2 + 8)) (u16At data (st.2 + 10)))
          (u32At data (st.2 + 12)) st.1,
          st.2 + 16)
    else .error .fault

/-- The loop over `by` of `decodeDXT5`. -/
def dxt5Rows (w h : Nat) (data : List Nat) (bw : Nat) :
    Nat → Nat → RGBA × Nat → Result (RGBA × Nat)
  | 0, _, st => .ok st
  | n + 1, by_, st =>
    (dxt5Row w h data by_ bw 0 st).bind fun st2 => dxt5Rows w h data bw n (by_ + 1) st2

/-- The function `decodeDXT5`. -/
def decodeDXT5 (w h : Nat) (data : List Nat) : Result RGBA :=
  (dxt5Rows w h data ((w + 3) / 4) ((h + 3) / 4) 0 (NewRGBA w h, 0)).bind fun st => .ok st.1

/-- The loop of `decodeARGB`: `n` iterations remain, `i` is the loop counter. Reading the four
bytes of pixel `i` past the end of `data` is a run-time panic. -/
def argbLoop (w : Nat) (data : List Nat) : Nat → Nat → RGBA → Result RGBA
  | 0, _, img => .ok img
  | n + 1, i, img =>
    if i * 4 + 4 ≤ data.length then
      argbLoop w data n (i + 1)
        (set img (i % w) (i / w) (data.getD (i * 4 + 1) 0) (data.getD (i * 4 + 2) 0)
          (data.getD (i * 4 + 3) 0) (data.getD (i * 4 + 0) 0))
    else .error .fault

/-- The function `decodeARGB`. -/
def decodeARGB (w h : Nat) (data : List Nat) : Result RGBA :=
  argbLoop w data (w * h) 0 (NewRGBA w h)

/-- The struct `blpHeader`. -/
structure blpHeader where
  Magic : List Nat
  Version : Nat
  ColorEncoding : Nat
  AlphaDepth : Nat
  Format : Nat
  Mips : Nat
  Width : Nat
  Height : Nat
  Offsets : List Nat
  Sizes : List Nat
  Palette : List Nat
  deriving DecidableEq, Repr

/-- One of the three loops of `parseHeader`: `n` words are read from position `o`, which
advances by 4 for each; the words and the position after the loop. -/
def readWords (b : List Nat) : Nat → Nat → List Nat × Nat
  | 0, o => ([], o)
  | n + 1, o => (u32At b o :: (readWords b n (o + 4)).1, (readWords b n (o + 4)).2)

/-- The field reads of `parseHeader`, which follow its two checks. -/
def headerFields (b : List Nat) : blpHeader :=
  let offsets := readWords b 16 20
  let sizes := readWords b 16 offsets.2
  let palette := readWords b 256 sizes.2
  { Magic := b.take 4
    Version := u32At b 4
    ColorEncoding := b.getD 8 0
    AlphaDepth := b.getD 9 0
    Format := b.getD 10 0
    Mips := b.getD 11 0
    Width := u32At b 12
    Height := u32At b 16
    Offsets := offsets.1
    Sizes := sizes.1
    Palette := palette.1 }

/-- The function `parseHeader`. -/
def parseHeader (b : List Nat) : Result blpHeader :=
  if b.length < 1172 then .error (.error (.blpTooSmall b.length))
  else if b.take 4 ≠ ascii "BLP2" then .error (.error (.blpBadMagic (b.take 4)))
  else .ok (headerFields b)

/-- The function `wrapErr`. -/
def wrapErr (err : GoError) (path : List Nat) : GoError :=
  if path = [] then err else .withPath err path

/-- The test `errors.Is(err, ErrBadBLP)`. -/
def isBadBLP : GoError → Bool
  | .errBadBLP => true
  | .blpTooSmall _ => true
  | .blpBadMagic _ => true
  | .withPath err _ => isBadBLP err
  | _ => false

/-- The function `decodeBLP`. -/
def decodeBLP (data : List Nat) (path : List Nat) : Result RGBA :=
  match parseHeader data with
  | .error (.error err) => .error (.error (wrapErr err path))
  | .error .fault => .error .fault
  | .ok h =>
    if h.Offsets.getD 0 0 ≤ 0 ∨ h.Sizes.getD 0 0 ≤ 0 ∨
        h.Offsets.getD 0 0 + h.Sizes.getD 0 0 > data.length then
      .error (.error (wrapErr .errBadBLP path))
    else if h.ColorEncoding = 2 then
      if h.Format = 7 then
        decodeDXT5 h.Width h.Height ((data.drop (h.Offsets.getD 0 0)).take (h.Sizes.getD 0 0))
      else
        decodeDXT1 h.Width h.Height ((data.drop (h.Offsets.getD 0 0)).take (h.Sizes.getD 0 0))
    else if h.ColorEncoding = 3 ∨ h.ColorEncoding = 4 then
      decodeARGB h.Width h.Height ((data.drop (h.Offsets.getD 0 0)).take (h.Sizes.getD 0 0))
    else .error (.error (wrapErr .errUnsupportedBLP path))

/-- The function `DecodeBLPFromBytes`. -/
def DecodeBLPFromBytes (data : List Nat) : Result RGBA := decodeBLP data []

end blp

/-! ## The probe as it is described -/

/-- The candidate list in the words of the description of the probe: the entries at the slots
`(start + j) % N` for `j = 0, 1, ..., N - 1` in this order, cut before the first slot whose
block index is `0xFFFFFFFF`, of which those are kept whose block index is not `0xFFFFFFFE`
and whose two name hashes are the hashes of the name. -/
def probeSpec (table : List HashEntry) (start hashA hashB : Nat) : List HashEntry :=
  (((List.range table.length).filterMap
      (fun j => table[(start + j) % table.length]?)).takeWhile
      (fun h => decide (h.BlockIdx ≠ 0xFFFFFFFF))).filter
    (fun h => decide (h.BlockIdx ≠ 0xFFFFFFFE ∧ h.NameA = hashA ∧ h.NameB = hashB))


/-! ## The palettes as they are described -/

namespace blp

/-- Expansion of a 5-bit channel by bit replication, in the words of the description:
`(v << 3) | (v >> 2)`, without truncation. -/
def expand5 (v : Nat) : Nat := (v <<< 3) ||| (v >>> 2)

/-- Expansion of a 6-bit channel by bit replication: `(v << 2) | (v >> 4)`. -/
def expand6 (v : Nat) : Nat := (v <<< 2) ||| (v >>> 4)

/-- The expanded endpoint `[red, green, blue]` of a 16-bit colour in the words of the
description: red is bits 15..11, green is bits 10..5, blue is bits 4..0. -/
def endpointSpec (c : Nat) : List Nat :=
  [expand5 ((c / 2 ^ 11) % 2 ^ 5), expand6 ((c / 2 ^ 5) % 2 ^ 6), expand5 (c % 2 ^ 5)]

/-- The reference palette in the words of the description: slots 0 and 1 are the expanded
endpoints, slot 2 is per channel `floor((2*e0 + e1)/3)`, slot 3 is `floor((e0 + 2*e1)/3)`. -/
def colorPaletteSpec (c0 c1 : Nat) : List (List Nat) :=
  [endpointSpec c0, endpointSpec c1,
   List.zipWith (fun e0 e1 => (2 * e0 + e1) / 3) (endpointSpec c0) (endpointSpec c1),
   List.zipWith (fun e0 e1 => (e0 + 2 * e1) / 3) (endpointSpec c0) (endpointSpec c1)]

/-- The entries of an alpha palette in ramp order: slots 0, 2, 3, 4, 5, 6, 7, 1. -/
def ramp8 (p : List Nat) : List Nat :=
  [p.getD 0 0, p.getD 2 0, p.getD 3 0, p.getD 4 0, p.getD 5 0, p.getD 6 0, p.getD 7 0,
    p.getD 1 0]

/-- The entries of an alpha palette in the order of the short ramp: slots 0, 2, 3, 4, 5, 1. -/
def ramp6 (p : List Nat) : List Nat :=
  [p.getD 0 0, p.getD 2 0, p.getD 3 0, p.getD 4 0, p.getD 5 0, p.getD 1 0]

/-- The pixel `[R, G, B, A]` that the description of DXT1 gives for `(x, y)` in an image of
width `w`: the 8-byte block at the byte offset `8 * ((y div 4) * ceil(w/4) + (x div 4))` holds
`c0` at +0, `c1` at +2 and the index word at +4; the colour is the palette entry selected by
the two bits at `2 * (4 * (y mod 4) + (x mod 4))` of the index word, and alpha is 255. -/
def dxt1PixelSpec (w : Nat) (data : List Nat) (x y : Nat) : List Nat :=
  let o := 8 * ((y / 4) * ((w + 3) / 4) + x / 4)
  let c := (colorPalette (u16At data o) (u16At data (o + 2))).getD
    ((u32At data (o + 4) >>> (2 * (4 * (y % 4) + x % 4))) &&& 3) []
  [c.getD 0 0, c.getD 1 0, c.getD 2 0, 255]

/-- An image buffer of `w` x `h` pixels in which every pixel `(x, y)` of the set `S` has the
value `F x y`. -/
def Painted (w h : Nat) (F : Nat → Nat → List Nat) (S : Nat → Nat → Prop) (img : RGBA) :
    Prop :=
  img.Stride = 4 * w ∧ img.Pix.length = 4 * w * h ∧ img.Width = w ∧ img.Height = h ∧
    ∀ x y, x < w → y < h → S x y → RGBAAt img x y = F x y

end blp

/-! ## The cipher table as it is described -/

/-- The seed sequence in the words of the description, over the unbounded integers:
`s_0 = 0x00100001` and `s_(k+1) = (125 * s_k + 3) mod 0x2AAAAB`. -/
def cryptSeedSpec : Nat → Nat
  | 0 => 0x00100001
  | k + 1 => (125 * cryptSeedSpec k + 3) % 0x2AAAAB

/-- The table entry at `i + 256 * j` in the words of the description:
`((s_(2n+1) mod 2^16) << 16) | (s_(2n+2) mod 2^16)` with `n = 5 * i + j`. -/
def cryptEntrySpec (i j : Nat) : Nat :=
  ((cryptSeedSpec (2 * (5 * i + j) + 1) % 2 ^ 16) <<< 16) |||
    (cryptSeedSpec (2 * (5 * i + j) + 2) % 2 ^ 16)

/-! ## The DXT5 and raw pixels as they are described -/

namespace blp

/-- The 48-bit little-endian value of the six bytes at position `o`. -/
def le48At (data : List Nat) (o : Nat) : Nat :=
  data.getD o 0 + 2 ^ 8 * data.getD (o + 1) 0 + 2 ^ 16 * data.getD (o + 2) 0 +
    2 ^ 24 * data.getD (o + 3) 0 + 2 ^ 32 * data.getD (o + 4) 0 + 2 ^ 40 * data.getD (o + 5) 0

/-- The pixel `[R, G, B, A]` that the description of DXT5 gives for `(x, y)` in an image of
width `w`, with `p = 4 * (y mod 4) + (x mod 4)` and `B` the 16-byte block at the byte offset
`16 * ((y div 4) * ceil(w/4) + (x div 4))`: alpha is the entry of `alphaPalette(B[0], B[1])`
selected by the three bits at `3 * p` of the 48-bit value of `B[2..8]`, the colour is the
entry of `colorPalette(LE16 B[8..10], LE16 B[10..12])` selected by the two bits at `2 * p` of
`LE32 B[12..16]`. -/
def dxt5PixelSpec (w : Nat) (data : List Nat) (x y : Nat) : List Nat :=
  let o := 16 * ((y / 4) * ((w + 3) / 4) + x / 4)
  let p := 4 * (y % 4) + x % 4
  let a := (alphaPalette (data.getD o 0) (data.getD (o + 1) 0)).getD
    ((le48At data (o + 2) >>> (3 * p)) &&& 7) 0
  let c := (colorPalette (u16At data (o + 8)) (u16At data (o + 10))).getD
    ((u32At data (o + 12) >>> (2 * p)) &&& 3) []
  [c.getD 0 0, c.getD 1 0, c.getD 2 0, a]

/-- The concatenation of the colour halves (bytes 8..16) of the first `n` blocks of 16
bytes. -/
def colourHalves (data : List Nat) (n : Nat) : List Nat :=
  (List.range n).flatMap fun k => (data.drop (16 * k + 8)).take 8

/-- The pixel `[R, G, B, A]` that the description of raw data gives for `(x, y)` in an image
of width `w`: with `i = y * w + x`, the four bytes at `4 * i` are alpha, red, green, blue. -/
def argbPixelSpec (w : Nat) (data : List Nat) (x y : Nat) : List Nat :=
  [data.getD (4 * (y * w + x) + 1) 0, data.getD (4 * (y * w + x) + 2) 0,
    data.getD (4 * (y * w + x) + 3) 0, data.getD (4 * (y * w + x)) 0]

end blp

/-! ## Example archives

Small archive files in the on-disk layout `Open` reads (32-byte header, file data, then
the hash table and the block table encrypted with the keys of `readTables`). -/

/-- A library for the examples: their names are ASCII, and none of them holds a valid zlib
stream. -/
def exampleLib : Lib := { mapUpper := fun s => s, inflate := fun _ => none }

/-- An archive of 289 bytes with a hash table of 8 slots and six files:
`x.txt` (single unit, holds `"1"`), `bad\unit.bin` (single unit, compression flag, payload
`08 00`), `bad\first.bin` (one sector `08 00` of a 5-byte file), `bad\second.bin` (two sectors
`02 00 00` and `08 00` of a 513-byte file), `odd.bin` (single unit without compression, sizes
1 and 2), `plain.bin` (no flag, holds `"abc"`). -/
def sampleFile : List Nat :=
  [77, 80, 81, 26, 32, 0, 0, 0, 33, 1, 0, 0, 0, 0, 0, 0, 65, 0, 0, 0, 193, 0, 0, 0, 8, 0, 0, 0, 6,
   0, 0, 0, 49, 8, 0, 8, 0, 0, 0, 10, 0, 0, 0, 8, 0, 12, 0, 0, 0, 15, 0, 0, 0, 17, 0, 0, 0, 2, 0,
   0, 8, 0, 97, 98, 99, 98, 147, 101, 112, 19, 91, 79, 246, 104, 87, 127, 202, 23, 167, 121, 190,
   94, 155, 158, 23, 169, 201, 63, 99, 211, 90, 206, 130, 10, 122, 115, 6, 19, 39, 122, 51, 165,
   34, 54, 206, 106, 122, 87, 141, 119, 35, 109, 254, 118, 248, 229, 65, 127, 66, 203, 84, 0, 117,
   144, 246, 50, 46, 22, 244, 153, 150, 223, 22, 34, 59, 142, 172, 222, 107, 37, 236, 115, 172,
   172, 154, 101, 116, 206, 133, 70, 94, 107, 100, 146, 219, 167, 10, 36, 242, 124, 153, 182, 47,
   135, 16, 207, 132, 169, 84, 47, 82, 11, 214, 253, 126, 254, 107, 98, 24, 13, 133, 203, 66, 223,
   191, 237, 192, 163, 136, 101, 163, 245, 198, 171, 103, 72, 61, 160, 211, 8, 202, 213, 186, 53,
   248, 235, 113, 51, 233, 99, 151, 162, 179, 157, 156, 152, 14, 116, 247, 180, 198, 242, 124, 255,
   167, 41, 4, 73, 194, 101, 63, 21, 133, 201, 20, 198, 252, 77, 201, 171, 12, 241, 253, 45, 135,
   22, 83, 153, 246, 209, 90, 29, 4, 211, 44, 116, 129, 134, 242, 2, 133, 131, 100, 132, 28, 176,
   187, 25, 146, 114, 203, 252, 223, 180, 222, 239, 249, 9, 106, 151, 177, 195, 146, 141, 185, 191,
   7, 99, 98]

/-- The archive `Open` returns for `sampleFile`. -/
def sampleArchive : MPQ where
  f := sampleFile
  header :=
    { ID := 0x1A51504D, HeaderSize := 32, ArchiveSize := 289, FormatVersion := 0,
      SectorSizeShift := 0, HashTableOffset := 65, BlockTableOffset := 193,
      HashTableEntries := 8, BlockTableEntries := 6 }
  hashTable :=
    [{ NameA := 4133051566, NameB := 2825509013, Locale := 0, Platform := 0, BlockIdx := 4 },
     { NameA := 190258477, NameB := 2551504893, Locale := 0, Platform := 0, BlockIdx := 1 },
     { NameA := 0xFFFFFFFF, NameB := 0xFFFFFFFF, Locale := 0xFFFF, Platform := 0xFFFF,
       BlockIdx := 0xFFFFFFFF },
     { NameA := 0xFFFFFFFF, NameB := 0xFFFFFFFF, Locale := 0xFFFF, Platform := 0xFFFF,
       BlockIdx := 0xFFFFFFFF },
     { NameA := 2249760497, NameB := 3306447759, Locale := 0, Platform := 0, BlockIdx := 5 },
     { NameA := 1646996702, NameB := 2133843374, Locale := 0, Platform := 0, BlockIdx := 2 },
     { NameA := 1136787292, NameB := 2098542225, Locale := 0, Platform := 0, BlockIdx := 3 },
     { NameA := 1987855327, NameB := 2922248539, Locale := 0, Platform := 0, BlockIdx := 0 }]
  blockTable :=
    [{ Offset := 32, CompressedSize := 1, UncompressedSize := 1, Flags := 0x81000000 },
     { Offset := 33, CompressedSize := 2, UncompressedSize := 4, Flags := 0x81000200 },
     { Offset := 35, CompressedSize := 10, UncompressedSize := 5, Flags := 0x80000200 },
     { Offset := 45, CompressedSize := 17, UncompressedSize := 513, Flags := 0x80000200 },
     { Offset := 32, CompressedSize := 1, UncompressedSize := 2, Flags := 0x81000000 },
     { Offset := 62, CompressedSize := 3, UncompressedSize := 3, Flags := 0x80000000 }]
  archivePos := 0

/-- An archive of 65 bytes with one file, `x.txt`, holding `"2"`. -/
def patchFile : List Nat :=
  [77, 80, 81, 26, 32, 0, 0, 0, 65, 0, 0, 0, 0, 0, 0, 0, 33, 0, 0, 0, 49, 0, 0, 0, 1, 0, 0, 0, 1,
   0, 0, 0, 50, 19, 140, 64, 240, 236, 147, 100, 112, 127, 69, 195, 84, 10, 88, 59, 145, 171, 103,
   72, 61, 160, 211, 8, 202, 213, 186, 53, 248, 235, 113, 51, 233]

/-- The archive `Open` returns for `patchFile`. -/
def patchArchive : MPQ where
  f := patchFile
  header :=
    { ID := 0x1A51504D, HeaderSize := 32, ArchiveSize := 65, FormatVersion := 0,
      SectorSizeShift := 0, HashTableOffset := 33, BlockTableOffset := 49,
      HashTableEntries := 1, BlockTableEntries := 1 }
  hashTable :=
    [{ NameA := 1987855327, NameB := 2922248539, Locale := 0, Platform := 0, BlockIdx := 0 }]
  blockTable := [{ Offset := 32, CompressedSize := 1, UncompressedSize := 1, Flags := 0x81000000 }]
  archivePos := 0

/-- An archive of 32 bytes: a header that declares a hash table and a block table of zero
entries. -/
def emptyFile : List Nat :=
  [77, 80, 81, 26, 32, 0, 0, 0, 32, 0, 0, 0, 0, 0, 0, 0, 32, 0, 0, 0, 32, 0, 0, 0, 0, 0, 0, 0, 0,
   0, 0, 0]

/-- The archive `Open` returns for `emptyFile`. -/
def emptyArchive : MPQ where
  f := emptyFile
  header :=
    { ID := 0x1A51504D, HeaderSize := 32, ArchiveSize := 32, FormatVersion := 0,
      SectorSizeShift := 0, HashTableOffset := 32, BlockTableOffset := 32,
      HashTableEntries := 0, BlockTableEntries := 0 }
  hashTable := []
  blockTable := []
  archivePos := 0

/-- An archive of 130 bytes with a hash table of 4 slots in which `x.txt` has two entries: the
one probed first (slot 3) has locale `0x409` and holds `"1"`, the one probed second (slot 0,
after the wrap) has locale 0 and holds `"2"`. -/
def localeFile : List Nat :=
  [77, 80, 81, 26, 32, 0, 0, 0, 130, 0, 0, 0, 0, 0, 0, 0, 34, 0, 0, 0, 98, 0, 0, 0, 4, 0, 0, 0, 2,
   0, 0, 0, 49, 50, 19, 140, 64, 240, 236, 147, 100, 112, 127, 69, 195, 84, 11, 88, 59, 145, 184,
   169, 62, 184, 133, 60, 58, 134, 68, 51, 86, 195, 13, 215, 66, 4, 78, 155, 250, 148, 64, 30, 197,
   95, 101, 233, 197, 80, 210, 113, 169, 47, 17, 174, 47, 19, 30, 73, 10, 30, 201, 203, 238, 90,
   184, 178, 81, 141, 171, 103, 72, 61, 160, 211, 8, 202, 213, 186, 53, 248, 235, 113, 51, 233, 99,
   151, 162, 179, 158, 156, 152, 14, 110, 247, 180, 198, 206, 126, 255, 167]

/-- The archive `Open` returns for `localeFile`. -/
def localeArchive : MPQ where
  f := localeFile
  header :=
    { ID := 0x1A51504D, HeaderSize := 32, ArchiveSize := 130, FormatVersion := 0,
      SectorSizeShift := 0, HashTableOffset := 34, BlockTableOffset := 98,
      HashTableEntries := 4, BlockTableEntries := 2 }
  hashTable :=
    [{ NameA := 1987855327, NameB := 2922248539, Locale := 0, Platform := 0, BlockIdx := 1 },
     { NameA := 0xFFFFFFFF, NameB := 0xFFFFFFFF, Locale := 0xFFFF, Platform := 0xFFFF,
       BlockIdx := 0xFFFFFFFF },
     { NameA := 0xFFFFFFFF, NameB := 0xFFFFFFFF, Locale := 0xFFFF, Platform := 0xFFFF,
       BlockIdx := 0xFFFFFFFF },
     { NameA := 1987855327, NameB := 2922248539, Locale := 0x409, Platform := 0, BlockIdx := 0 }]
  blockTable :=
    [{ Offset := 32, CompressedSize := 1, UncompressedSize := 1, Flags := 0x81000000 },
     { Offset := 33, CompressedSize := 1, UncompressedSize := 1, Flags := 0x81000000 }]
  archivePos := 0

/-- The hash entry of `x.txt` (locale 0, block 0). -/
def wrapEntry : HashEntry :=
  { NameA := 1987855327, NameB := 2922248539, Locale := 0, Platform := 0, BlockIdx := 0 }

/-- A free slot: the terminator of a probe. -/
def freeEntry : HashEntry :=
  { NameA := 0xFFFFFFFF, NameB := 0xFFFFFFFF, Locale := 0xFFFF, Platform := 0xFFFF,
    BlockIdx := 0xFFFFFFFF }

/-- An archive whose hash table has `2^32 - 1` slots: slot 3881622942 is free, every other
slot holds the entry of `x.txt`, whose start slot is 3881622943. -/
def wrapArchive : MPQ where
  f := []
  header :=
    { ID := 0x1A51504D, HeaderSize := 32, ArchiveSize := 0, FormatVersion := 0,
      SectorSizeShift := 0, HashTableOffset := 32, BlockTableOffset := 32,
      HashTableEntries := 4294967295, BlockTableEntries := 1 }
  hashTable :=
    List.replicate 3881622942 wrapEntry ++ freeEntry :: List.replicate 413344352 wrapEntry
  blockTable := [{ Offset := 32, CompressedSize := 1, UncompressedSize := 1, Flags := 0x81000000 }]
  archivePos := 0


/-! ## Example textures -/

/-- An example header of 1172 bytes: magic "BLP2", version 1, the given colour encoding,
format byte, width and height, mip level 0 at `off` with `sz` bytes, no other mip level and a
palette of zeros. -/
def sampleHeader (enc fmt w h off sz : Nat) : List Nat :=
  ascii "BLP2" ++ putLe32 1 ++ [enc, 0, fmt, 1] ++ putLe32 w ++ putLe32 h ++
    (putLe32 off ++ List.replicate 60 0) ++ (putLe32 sz ++ List.replicate 60 0) ++
    List.replicate 1024 0

/-- An example DXT1 texture of 4 x 4 pixels: one block with the endpoints `0xF800` (red) and
`0x001F` (blue) and the index word `0xE4E4E4E4` (each row uses the slots 0, 1, 2, 3). -/
def dxt1Texture : List Nat :=
  sampleHeader 2 0 4 4 1172 8 ++ [0x00, 0xF8, 0x1F, 0x00, 0xE4, 0xE4, 0xE4, 0xE4]

/-- An example DXT5 texture of 4 x 4 pixels: one block of 16 bytes. -/
def dxt5Texture : List Nat :=
  sampleHeader 2 7 4 4 1172 16 ++
    [0xFF, 0x00, 0x88, 0xC6, 0xFA, 0x88, 0xC6, 0xFA, 0x00, 0xF8, 0x1F, 0x00, 0xE4, 0xE4, 0xE4,
      0xE4]

/-- An example raw texture of 2 x 1 pixels, stored as A, R, G, B. -/
def argbTexture : List Nat :=
  sampleHeader 3 0 2 1 1172 8 ++ [0xFF, 1, 2, 3, 0x80, 4, 5, 6]

/-- A texture whose header declares DXT1 data of 4 x 4 pixels and a mip level 0 of one byte,
which lies within the file. -/
def shortDxt1Texture : List Nat := sampleHeader 2 0 4 4 1172 1 ++ [0xAA]

/-- A texture whose header declares DXT5 data of 4 x 4 pixels and a mip level 0 of 8 bytes. -/
def shortDxt5Texture : List Nat :=
  sampleHeader 2 7 4 4 1172 8 ++ [0xFF, 0x00, 0, 0, 0, 0, 0, 0]

/-- A texture whose header declares raw data of 1 x 1 pixel and a mip level 0 of one byte. -/
def shortArgbTexture : List Nat := sampleHeader 3 0 1 1 1172 1 ++ [0xFF]

/-- A texture with the colour encoding 1 (palettised), which is not decoded. -/
def palettedTexture : List Nat := sampleHeader 1 0 1 1 1172 1 ++ [0]

/-- A texture whose mip level 0 ends past the end of the file. -/
def truncatedTexture : List Nat := sampleHeader 2 0 4 4 1172 8 ++ [0, 0, 0, 0]

/-! ## Example archives for paths and sectors -/

/-- An archive of 66 bytes with a hash table of one slot and the file `a\b.txt` (single unit,
not compressed, not encrypted), which holds `"hi"`. -/
def pathFile : List Nat :=
  [77, 80, 81, 26, 32, 0, 0, 0, 66, 0, 0, 0, 0, 0, 0, 0, 34, 0, 0, 0, 50, 0, 0, 0, 1, 0, 0, 0, 1,
   0, 0, 0, 104, 105, 56, 43, 201, 255, 233, 147, 19, 201, 254, 167, 19, 66, 105, 10, 152, 40,
   171, 103, 72, 61, 163, 211, 8, 202, 215, 186, 53, 248, 13, 114, 51, 233]

/-- The archive `Open` returns for `pathFile`. -/
def pathArchive : MPQ where
  f := pathFile
  header :=
    { ID := 0x1A51504D, HeaderSize := 32, ArchiveSize := 66, FormatVersion := 0,
      SectorSizeShift := 0, HashTableOffset := 34, BlockTableOffset := 50,
      HashTableEntries := 1, BlockTableEntries := 1 }
  hashTable :=
    [{ NameA := 2046158068, NameB := 684759077, Locale := 0, Platform := 0, BlockIdx := 0 }]
  blockTable := [{ Offset := 32, CompressedSize := 2, UncompressedSize := 2, Flags := 0x81000000 }]
  archivePos := 0

/-- The zlib stream of 512 bytes `0x41`. -/
def zlibA : List Nat := [120, 218, 115, 116, 28, 5, 35, 25, 0, 0, 74, 158, 130, 1]

/-- The zlib stream of the single byte `0x43`. -/
def zlibC : List Nat := [120, 218, 115, 6, 0, 0, 68, 0, 68]

/-- A library that inflates the two zlib streams of the examples. -/
def sectorLib : Lib where
  mapUpper := fun s => s
  inflate := fun z =>
    if z = zlibA then some (List.replicate 512 0x41)
    else if z = zlibC then some [0x43]
    else none

/-- The 1025 bytes of the example file `data\big.bin`: 512 bytes `0x41`, 512 bytes `0x42` and
the byte `0x43`. -/
def sectorData : List Nat := List.replicate 512 0x41 ++ List.replicate 512 0x42 ++ [0x43]

/-- An archive of 617 bytes with sectors of 512 bytes and the file `data\big.bin` of 1025
bytes in three sectors: the offset table `16, 31, 543, 553` at position 32, then sector 0
compressed (the byte 0x02 and `zlibA`), sector 1 verbatim, sector 2 compressed (the byte 0x02
and `zlibC`), then the two encrypted tables. -/
def sectorFile : List Nat :=
  [77, 80, 81, 26, 32, 0, 0, 0, 105, 2, 0, 0, 0, 0, 0, 0, 73, 2, 0, 0, 89, 2, 0, 0, 1, 0, 0, 0, 1,
   0, 0, 0] ++
  [16, 0, 0, 0, 31, 0, 0, 0, 31, 2, 0, 0, 41, 2, 0, 0] ++
  (0x02 :: zlibA) ++ List.replicate 512 0x42 ++ (0x02 :: zlibC) ++
  [152, 79, 23, 44, 167, 107, 144, 185, 196, 227, 148, 248, 239, 190, 64, 175, 171, 103, 72, 61,
   136, 209, 8, 202, 253, 184, 53, 248, 19, 191, 51, 232]

/-- The block entry of `data\big.bin` in `sectorFile`: compressed, not a single unit. -/
def sectorBlock : BlockEntry :=
  { Offset := 32, CompressedSize := 553, UncompressedSize := 1025, Flags := 0x80000200 }

/-- The archive `Open` returns for `sectorFile`. -/
def sectorArchive : MPQ where
  f := sectorFile
  header :=
    { ID := 0x1A51504D, HeaderSize := 32, ArchiveSize := 617, FormatVersion := 0,
      SectorSizeShift := 0, HashTableOffset := 585, BlockTableOffset := 601,
      HashTableEntries := 1, BlockTableEntries := 1 }
  hashTable :=
    [{ NameA := 2854977620, NameB := 2825440395, Locale := 0, Platform := 0, BlockIdx := 0 }]
  blockTable := [sectorBlock]
  archivePos := 0

/-- The stored sectors of `data\big.bin`. -/
def sectorStored (i : Nat) : List Nat :=
  if i = 0 then 0x02 :: zlibA else if i = 1 then List.replicate 512 0x42 else 0x02 :: zlibC

/-- The offset table of `data\big.bin`. -/
def sectorOffs (i : Nat) : Nat := [16, 31, 543, 553].getD i 0

/-- An archive with the sector size shift 23, whose sector size `512 << 23` is zero in 32
bits, and its file of one byte `0x07`, stored verbatim at position 8 after the offset table
`8, 9`. -/
def zeroSectorArchive : MPQ where
  f := [8, 0, 0, 0, 9, 0, 0, 0, 7]
  header :=
    { ID := 0x1A51504D, HeaderSize := 32, ArchiveSize := 9, FormatVersion := 0,
      SectorSizeShift := 23, HashTableOffset := 0, BlockTableOffset := 0,
      HashTableEntries := 0, BlockTableEntries := 0 }
  hashTable := []
  blockTable := []
  archivePos := 0

/-- The block entry of the file of `zeroSectorArchive`. -/
def zeroSectorBlock : BlockEntry :=
  { Offset := 0, CompressedSize := 9, UncompressedSize := 1, Flags := 0x80000200 }

/-- A library in which the one-byte stream `00` stands for a zlib stream of `2^31` bytes
`0x41`. -/
def bigLib : Lib where
  mapUpper := fun s => s
  inflate := fun z => if z = [0] then some (List.replicate (2 ^ 31) 0x41) else none

/-- A file of `2^31 + 1` bytes: `2^31` bytes `0x41` and the byte `0x43`. -/
def wrapSectorData : List Nat := List.replicate (2 ^ 31) 0x41 ++ [0x43]

/-- An archive with the sector size shift 22 (sectors of `2^31` bytes) and the stored form of
`wrapSectorData` at position 0: the offset table `12, 14, 15`, sector 0 compressed (the byte
0x02 and the stream `00`), sector 1 verbatim (the byte `0x43`). -/
def wrapSectorArchive : MPQ where
  f := [12, 0, 0, 0, 14, 0, 0, 0, 15, 0, 0, 0, 0x02, 0x00, 0x43]
  header :=
    { ID := 0x1A51504D, HeaderSize := 32, ArchiveSize := 15, FormatVersion := 0,
      SectorSizeShift := 22, HashTableOffset := 0, BlockTableOffset := 0,
      HashTableEntries := 0, BlockTableEntries := 0 }
  hashTable := []
  blockTable := []
  archivePos := 0

/-- The block entry of the file of `wrapSectorArchive`. -/
def wrapSectorBlock : BlockEntry :=
  { Offset := 0, CompressedSize := 15, UncompressedSize := 2 ^ 31 + 1, Flags := 0x80000200 }

/-- An archive file of `2^31 + 1` bytes with sectors of 512 bytes: the offset table
`2^31, 2^31 + 1` at position 0 and, at position `2^31`, the only sector of a file of one byte
`0x07`, stored verbatim. -/
def farSectorFile : List Nat :=
  [0, 0, 0, 128, 1, 0, 0, 128] ++ (List.replicate (2 ^ 31 - 8) 0 ++ [7])

/-- The archive of `farSectorFile`. -/
def farSectorArchive : MPQ where
  f := farSectorFile
  header :=
    { ID := 0x1A51504D, HeaderSize := 32, ArchiveSize := 2 ^ 31 + 1, FormatVersion := 0,
      SectorSizeShift := 0, HashTableOffset := 0, BlockTableOffset := 0,
      HashTableEntries := 0, BlockTableEntries := 0 }
  hashTable := []
  blockTable := []
  archivePos := 0

/-- The block entry of the file of `farSectorArchive`. -/
def farSectorBlock : BlockEntry :=
  { Offset := 0, CompressedSize := 2 ^ 31 + 1, UncompressedSize := 1, Flags := 0x80000200 }

/-! ## Example archives for keys and tables -/

/-- An archive of 65 bytes with one file `x.txt` whose hash entry has the block index 5, while
the block table has one entry. -/
def badIndexFile : List Nat :=
  [77, 80, 81, 26, 32, 0, 0, 0, 65, 0, 0, 0, 0, 0, 0, 0, 33, 0, 0, 0, 49, 0, 0, 0, 1, 0, 0, 0, 1,
   0, 0, 0, 49, 19, 140, 64, 240, 236, 147, 100, 112, 127, 69, 195, 84, 15, 88, 59, 145, 171, 103,
   72, 61, 160, 211, 8, 202, 213, 186, 53, 248, 235, 113, 51, 233]

/-- The archive `Open` returns for `badIndexFile`. -/
def badIndexArchive : MPQ where
  f := badIndexFile
  header :=
    { ID := 0x1A51504D, HeaderSize := 32, ArchiveSize := 65, FormatVersion := 0,
      SectorSizeShift := 0, HashTableOffset := 33, BlockTableOffset := 49,
      HashTableEntries := 1, BlockTableEntries := 1 }
  hashTable :=
    [{ NameA := 1987855327, NameB := 2922248539, Locale := 0, Platform := 0, BlockIdx := 5 }]
  blockTable := [{ Offset := 32, CompressedSize := 1, UncompressedSize := 1, Flags := 0x81000000 }]
  archivePos := 0

/-- An archive of 80 bytes whose header declares the header size 44 (format version 1): the
32 bytes that `Open` reads, 12 more header bytes, the file `dir\x.txt` of four bytes at
position 44, then the two encrypted tables. -/
def v2File : List Nat :=
  [77, 80, 81, 26, 44, 0, 0, 0, 80, 0, 0, 0, 1, 0, 0, 0, 48, 0, 0, 0, 64, 0, 0, 0, 1, 0, 0, 0, 1,
   0, 0, 0, 0, 0, 0, 0, 0, 0, 0, 0, 0, 0, 0, 0, 49, 50, 51, 52, 164, 167, 116, 109, 201, 144, 143,
   31, 86, 33, 128, 1, 193, 174, 147, 213, 167, 103, 72, 61, 169, 211, 8, 202, 103, 188, 53, 248,
   93, 165, 49, 233]

/-- The block entry of `dir\x.txt` in `v2File`: single unit, with the fix-key flag. -/
def v2Block : BlockEntry :=
  { Offset := 44, CompressedSize := 4, UncompressedSize := 4, Flags := 0x81020000 }

/-- The archive `Open` returns for `v2File`. -/
def v2Archive : MPQ where
  f := v2File
  header :=
    { ID := 0x1A51504D, HeaderSize := 44, ArchiveSize := 80, FormatVersion := 1,
      SectorSizeShift := 0, HashTableOffset := 48, BlockTableOffset := 64,
      HashTableEntries := 1, BlockTableEntries := 1 }
  hashTable :=
    [{ NameA := 3947391080, NameB := 1285169033, Locale := 0, Platform := 0, BlockIdx := 0 }]
  blockTable := [v2Block]
  archivePos := -12

/-- The example archive `sampleArchive` with the encrypted flag added to the block entry of
the plain file `plain.bin`. -/
def plainEncryptedArchive : MPQ :=
  { sampleArchive with
    blockTable := sampleArchive.blockTable.set 5
      { Offset := 62, CompressedSize := 3, UncompressedSize := 3, Flags := 0x80010000 } }

/-! ## Example block data -/

namespace blp

/-- One DXT5 block: alpha endpoints 255 and 0, alpha indices 0, 1, 2, ... in the low bits,
colour endpoints `0xF800` and `0x001F`, colour indices all 2. -/
def dxt5Block : List Nat :=
  [0xFF, 0x00, 0x88, 0xC6, 0xFA, 0x88, 0xC6, 0xFA,
   0x00, 0xF8, 0x1F, 0x00, 0xAA, 0xAA, 0xAA, 0xAA]

/-- Four DXT1 blocks, the data of an image of 5 x 5 pixels, followed by eight more bytes. -/
def dxt1EdgeData : List Nat :=
  [0x00, 0xF8, 0x1F, 0x00, 0x00, 0x55, 0xAA, 0xFF,
   0xE0, 0x07, 0x1F, 0x00, 0x1B, 0x1B, 0x1B, 0x1B,
   0xFF, 0xFF, 0x00, 0x00, 0xE4, 0xE4, 0xE4, 0xE4,
   0x1F, 0x00, 0x00, 0xF8, 0xFF, 0xFF, 0xFF, 0xFF,
   1, 2, 3, 4, 5, 6, 7, 8]

/-- Four DXT5 blocks, the data of an image of 5 x 5 pixels, followed by eight more bytes. -/
def dxt5EdgeData : List Nat :=
  dxt5Block ++
  [0x10, 0xF0, 0x00, 0x00, 0x00, 0xFF, 0xFF, 0xFF,
   0xE0, 0x07, 0x1F, 0x00, 0x1B, 0x1B, 0x1B, 0x1B] ++
  [0x00, 0xFF, 0x49, 0x92, 0x24, 0x49, 0x92, 0x24,
   0xFF, 0xFF, 0x00, 0x00, 0xE4, 0xE4, 0xE4, 0xE4] ++
  [0x80, 0x80, 0x01, 0x23, 0x45, 0x67, 0x89, 0xAB,
   0x1F, 0x00, 0x00, 0xF8, 0xFF, 0xFF, 0xFF, 0xFF] ++
  [1, 2, 3, 4, 5, 6, 7, 8]

end blp
/-! ## Byte-level lemmas -/

theorem lor_shiftLeft_eq (x b i : Nat) (hx : x < 2 ^ i) : x ||| b <<< i = 2 ^ i * b + x := by
  rw [Nat.shiftLeft_eq, Nat.mul_comm b, Nat.lor_comm]
  exact (Nat.mul_add_lt_is_or hx b).symm

theorem le32_eq_sum (b0 b1 b2 b3 : Nat) (h0 : b0 < 256) (h1 : b1 < 256) (h2 : b2 < 256) :
    le32 b0 b1 b2 b3 = b0 + 256 * b1 + 65536 * b2 + 16777216 * b3 := by
  unfold le32
  rw [lor_shiftLeft_eq b0 b1 8 (by omega), lor_shiftLeft_eq _ b2 16 (by omega),
    lor_shiftLeft_eq _ b3 24 (by omega)]
  omega

theorem le32_lt (b0 b1 b2 b3 : Nat) (h0 : b0 < 256) (h1 : b1 < 256) (h2 : b2 < 256)
    (h3 : b3 < 256) : le32 b0 b1 b2 b3 < 2 ^ 32 := by
  rw [le32_eq_sum b0 b1 b2 b3 h0 h1 h2]
  omega

theorem putLe32_le32 (b0 b1 b2 b3 : Nat) (h0 : b0 < 256) (h1 : b1 < 256) (h2 : b2 < 256)
    (h3 : b3 < 256) : putLe32 (le32 b0 b1 b2 b3) = [b0, b1, b2, b3] := by
  rw [le32_eq_sum b0 b1 b2 b3 h0 h1 h2]
  simp only [putLe32, Nat.shiftRight_eq_div_pow]
  have a0 : (b0 + 256 * b1 + 65536 * b2 + 16777216 * b3) % 256 = b0 := by omega
  have a1 : (b0 + 256 * b1 + 65536 * b2 + 16777216 * b3) / 2 ^ 8 % 256 = b1 := by omega
  have a2 : (b0 + 256 * b1 + 65536 * b2 + 16777216 * b3) / 2 ^ 16 % 256 = b2 := by omega
  have a3 : (b0 + 256 * b1 + 65536 * b2 + 16777216 * b3) / 2 ^ 24 % 256 = b3 := by omega
  rw [a0, a1, a2, a3]

theorem le32_putLe32 (v : Nat) (hv : v < 2 ^ 32) :
    le32 (v % 256) ((v >>> 8) % 256) ((v >>> 16) % 256) ((v >>> 24) % 256) = v := by
  rw [le32_eq_sum _ _ _ _ (Nat.mod_lt _ (by decide)) (Nat.mod_lt _ (by decide))
    (Nat.mod_lt _ (by decide))]
  simp only [Nat.shiftRight_eq_div_pow]
  omega


/-! ## The cipher is symmetric -/

theorem putLe32_lt (v : Nat) : ∀ b ∈ putLe32 v, b < 256 := by
  intro b hb
  simp only [putLe32, List.mem_cons, List.mem_singleton, List.not_mem_nil, or_false] at hb
  rcases hb with h | h | h | h <;> subst h <;> exact Nat.mod_lt _ (by decide)

theorem xor_mask_lt (a m : Nat) (ha : a < 2 ^ 32) : a ^^^ (m % 2 ^ 32) < 2 ^ 32 :=
  Nat.xor_lt_two_pow ha (Nat.mod_lt _ (by decide))

theorem decryptLoop_cons4 (b0 b1 b2 b3 : Nat) (rest : List Nat) (key seed : Nat) :
    decryptLoop (b0 :: b1 :: b2 :: b3 :: rest) key seed =
      putLe32 (le32 b0 b1 b2 b3 ^^^
          ((key + (seed + cryptAt (0x400 + (key &&& 0xFF))) % 2 ^ 32) % 2 ^ 32)) ++
        decryptLoop rest (nextKey key)
          (((le32 b0 b1 b2 b3 ^^^
              ((key + (seed + cryptAt (0x400 + (key &&& 0xFF))) % 2 ^ 32) % 2 ^ 32)) +
            (seed + cryptAt (0x400 + (key &&& 0xFF))) % 2 ^ 32 +
            (((seed + cryptAt (0x400 + (key &&& 0xFF))) % 2 ^ 32) <<< 5) % 2 ^ 32 + 3) % 2 ^ 32) := by
  rw [decryptLoop]

theorem encryptLoop_cons4 (b0 b1 b2 b3 : Nat) (rest : List Nat) (key seed : Nat) :
    encryptLoop (b0 :: b1 :: b2 :: b3 :: rest) key seed =
      putLe32 (le32 b0 b1 b2 b3 ^^^
          ((key + (seed + cryptAt (0x400 + (key &&& 0xFF))) % 2 ^ 32) % 2 ^ 32)) ++
        encryptLoop rest (nextKey key)
          ((le32 b0 b1 b2 b3 +
            (seed + cryptAt (0x400 + (key &&& 0xFF))) % 2 ^ 32 +
            (((seed + cryptAt (0x400 + (key &&& 0xFF))) % 2 ^ 32) <<< 5) % 2 ^ 32 + 3) % 2 ^ 32) := by
  rw [encryptLoop]

theorem decryptLoop_short (data : List Nat) (key seed : Nat) (h : data.length < 4) :
    decryptLoop data key seed = data := by
  match data, h with
  | [], _ => simp [decryptLoop]
  | [_], _ => simp [decryptLoop]
  | [_, _], _ => simp [decryptLoop]
  | [_, _, _], _ => simp [decryptLoop]
  | _ :: _ :: _ :: _ :: _, h => simp at h; omega

theorem encryptLoop_short (data : List Nat) (key seed : Nat) (h : data.length < 4) :
    encryptLoop data key seed = data := by
  match data, h with
  | [], _ => simp [encryptLoop]
  | [_], _ => simp [encryptLoop]
  | [_, _], _ => simp [encryptLoop]
  | [_, _, _], _ => simp [encryptLoop]
  | _ :: _ :: _ :: _ :: _, h => simp at h; omega

theorem decryptLoop_encryptLoop : ∀ (n : Nat) (p : List Nat), p.length = n →
    (∀ b ∈ p, b < 256) → ∀ key seed, decryptLoop (encryptLoop p key seed) key seed = p := by
  intro n
  induction n using Nat.strong_induction_on with
  | _ n ih =>
    intro p hn hp key seed
    match p, hn, hp with
    | b0 :: b1 :: b2 :: b3 :: rest, hn, hp =>
      have h0 : b0 < 256 := hp b0 (by simp)
      have h1 : b1 < 256 := hp b1 (by simp)
      have h2 : b2 < 256 := hp b2 (by simp)
      have h3 : b3 < 256 := hp b3 (by simp)
      have hr : ∀ b ∈ rest, b < 256 := fun b hb => hp b (by simp [hb])
      rw [encryptLoop_cons4]
      simp only [putLe32, List.cons_append, List.nil_append]
      rw [decryptLoop_cons4]
      have hc := xor_mask_lt (le32 b0 b1 b2 b3)
        (key + (seed + cryptAt (0x400 + (key &&& 0xFF))) % 2 ^ 32) (le32_lt b0 b1 b2 b3 h0 h1 h2 h3)
      rw [le32_putLe32 _ hc, Nat.xor_cancel_right, putLe32_le32 b0 b1 b2 b3 h0 h1 h2 h3]
      rw [ih rest.length (by simp at hn; omega) rest rfl hr]
      rfl
    | [], _, _ => rw [encryptLoop_short _ _ _ (by simp), decryptLoop_short _ _ _ (by simp)]
    | [_], _, _ => rw [encryptLoop_short _ _ _ (by simp), decryptLoop_short _ _ _ (by simp)]
    | [_, _], _, _ => rw [encryptLoop_short _ _ _ (by simp), decryptLoop_short _ _ _ (by simp)]
    | [_, _, _], _, _ =>
      rw [encryptLoop_short _ _ _ (by simp), decryptLoop_short _ _ _ (by simp)]

theorem encryptLoop_decryptLoop : ∀ (n : Nat) (p : List Nat), p.length = n →
    (∀ b ∈ p, b < 256) → ∀ key seed, encryptLoop (decryptLoop p key seed) key seed = p := by
  intro n
  induction n using Nat.strong_induction_on with
  | _ n ih =>
    intro p hn hp key seed
    match p, hn, hp with
    | b0 :: b1 :: b2 :: b3 :: rest, hn, hp =>
      have h0 : b0 < 256 := hp b0 (by simp)
      have h1 : b1 < 256 := hp b1 (by simp)
      have h2 : b2 < 256 := hp b2 (by simp)
      have h3 : b3 < 256 := hp b3 (by simp)
      have hr : ∀ b ∈ rest, b < 256 := fun b hb => hp b (by simp [hb])
      rw [decryptLoop_cons4]
      simp only [putLe32, List.cons_append, List.nil_append]
      rw [encryptLoop_cons4]
      have hc := xor_mask_lt (le32 b0 b1 b2 b3)
        (key + (seed + cryptAt (0x400 + (key &&& 0xFF))) % 2 ^ 32) (le32_lt b0 b1 b2 b3 h0 h1 h2 h3)
      rw [le32_putLe32 _ hc, Nat.xor_cancel_right, putLe32_le32 b0 b1 b2 b3 h0 h1 h2 h3]
      rw [ih rest.length (by simp at hn; omega) rest rfl hr]
      rfl
    | [], _, _ => rw [decryptLoop_short _ _ _ (by simp), encryptLoop_short _ _ _ (by simp)]
    | [_], _, _ => rw [decryptLoop_short _ _ _ (by simp), encryptLoop_short _ _ _ (by simp)]
    | [_, _], _, _ => rw [decryptLoop_short _ _ _ (by simp), encryptLoop_short _ _ _ (by simp)]
    | [_, _, _], _, _ =>
      rw [decryptLoop_short _ _ _ (by simp), encryptLoop_short _ _ _ (by simp)]

theorem decryptLoop_length : ∀ (n : Nat) (p : List Nat), p.length = n →
    ∀ key seed, (decryptLoop p key seed).length = p.length := by
  intro n
  induction n using Nat.strong_induction_on with
  | _ n ih =>
    intro p hn key seed
    match p, hn with
    | b0 :: b1 :: b2 :: b3 :: rest, hn =>
      rw [decryptLoop_cons4]
      simp only [putLe32, List.cons_append, List.nil_append, List.length_cons]
      rw [ih rest.length (by simp at hn; omega) rest rfl]
    | [], _ => rw [decryptLoop_short _ _ _ (by simp)]
    | [_], _ => rw [decryptLoop_short _ _ _ (by simp)]
    | [_, _], _ => rw [decryptLoop_short _ _ _ (by simp)]
    | [_, _, _], _ => rw [decryptLoop_short _ _ _ (by simp)]

theorem decryptLoop_bytes : ∀ (n : Nat) (p : List Nat), p.length = n →
    (∀ b ∈ p, b < 256) → ∀ key seed, ∀ b ∈ decryptLoop p key seed, b < 256 := by
  intro n
  induction n using Nat.strong_induction_on with
  | _ n ih =>
    intro p hn hp key seed
    match p, hn, hp with
    | b0 :: b1 :: b2 :: b3 :: rest, hn, hp =>
      have hr : ∀ b ∈ rest, b < 256 := fun b hb => hp b (by simp [hb])
      rw [decryptLoop_cons4]
      intro b hb
      rcases List.mem_append.mp hb with h | h
      · exact putLe32_lt _ b h
      · exact ih rest.length (by simp at hn; omega) rest rfl hr _ _ b h
    | [], _, hp => rw [decryptLoop_short _ _ _ (by simp)]; exact hp
    | [_], _, hp => rw [decryptLoop_short _ _ _ (by simp)]; exact hp
    | [_, _], _, hp => rw [decryptLoop_short _ _ _ (by simp)]; exact hp
    | [_, _, _], _, hp => rw [decryptLoop_short _ _ _ (by simp)]; exact hp

theorem encryptLoop_length : ∀ (n : Nat) (p : List Nat), p.length = n →
    ∀ key seed, (encryptLoop p key seed).length = p.length := by
  intro n
  induction n using Nat.strong_induction_on with
  | _ n ih =>
    intro p hn key seed
    match p, hn with
    | b0 :: b1 :: b2 :: b3 :: rest, hn =>
      rw [encryptLoop_cons4]
      simp only [putLe32, List.cons_append, List.nil_append, List.length_cons]
      rw [ih rest.length (by simp at hn; omega) rest rfl]
    | [], _ => rw [encryptLoop_short _ _ _ (by simp)]
    | [_], _ => rw [encryptLoop_short _ _ _ (by simp)]
    | [_, _], _ => rw [encryptLoop_short _ _ _ (by simp)]
    | [_, _, _], _ => rw [encryptLoop_short _ _ _ (by simp)]

theorem encryptLoop_bytes : ∀ (n : Nat) (p : List Nat), p.length = n →
    (∀ b ∈ p, b < 256) → ∀ key seed, ∀ b ∈ encryptLoop p key seed, b < 256 := by
  intro n
  induction n using Nat.strong_induction_on with
  | _ n ih =>
    intro p hn hp key seed
    match p, hn, hp with
    | b0 :: b1 :: b2 :: b3 :: rest, hn, hp =>
      have hr : ∀ b ∈ rest, b < 256 := fun b hb => hp b (by simp [hb])
      rw [encryptLoop_cons4]
      intro b hb
      rcases List.mem_append.mp hb with h | h
      · exact putLe32_lt _ b h
      · exact ih rest.length (by simp at hn; omega) rest rfl hr _ _ b h
    | [], _, hp => rw [encryptLoop_short _ _ _ (by simp)]; exact hp
    | [_], _, hp => rw [encryptLoop_short _ _ _ (by simp)]; exact hp
    | [_, _], _, hp => rw [encryptLoop_short _ _ _ (by simp)]; exact hp
    | [_, _, _], _, hp => rw [encryptLoop_short _ _ _ (by simp)]; exact hp


/-! ## Archive stack lemmas -/

theorem getElem?_append_cons_length (older newer : List MPQ) (a : MPQ) :
    (older ++ a :: newer)[older.length]? = some a := by
  rw [List.getElem?_append_right (Nat.le_refl _), Nat.sub_self, List.getElem?_cons_zero]

theorem foldl_Add_archives (as : List MPQ) : ∀ s : MPQStack,
    (as.foldl MPQStack.Add s).archives = s.archives ++ as := by
  induction as with
  | nil => intro s; simp
  | cons a as ih => intro s; simp [ih, MPQStack.Add]

theorem foldl_Add_paths (as : List MPQ) : ∀ s : MPQStack,
    (as.foldl MPQStack.Add s).paths = s.paths ++ List.replicate as.length [] := by
  induction as with
  | nil => intro s; simp
  | cons a as ih => intro s; simp [ih, MPQStack.Add, List.replicate_succ]

theorem buildStack_archives (as : List MPQ) : (buildStack as).archives = as := by
  simp [buildStack, foldl_Add_archives, New]

theorem buildStack_paths (as : List MPQ) :
    (buildStack as).paths = List.replicate as.length [] := by
  simp [buildStack, foldl_Add_paths, New]

theorem readLoop_miss (lib : Lib) (s : MPQStack) (p : List Nat) (i : Nat) : ∀ k : Nat,
    (∀ j, i ≤ j → j < i + k →
      ∃ a e, s.archives[j]? = some a ∧ a.ReadFile lib p = .error (.error e)) →
    readLoop lib s p (i + k) = readLoop lib s p i := by
  intro k
  induction k with
  | zero => intro _; rfl
  | succ k ih =>
    intro h
    obtain ⟨a, e, ha, he⟩ := h (i + k) (by omega) (by omega)
    rw [← Nat.add_assoc, readLoop, ha]
    simp only [he]
    exact ih (fun j h1 h2 => h j h1 (by omega))

theorem readLoop_hit (lib : Lib) (s : MPQStack) (p : List Nat) (i : Nat) (a : MPQ)
    (d : List Nat) (ha : s.archives[i]? = some a) (hd : a.ReadFile lib p = .ok d) :
    readLoop lib s p (i + 1) = .ok d := by
  rw [readLoop, ha]
  simp only [hd]

theorem sourceLoop_miss (lib : Lib) (s : MPQStack) (p : List Nat) (i : Nat) : ∀ k : Nat,
    (∀ j, i ≤ j → j < i + k →
      ∃ a e, s.archives[j]? = some a ∧ a.ReadFile lib p = .error (.error e)) →
    sourceLoop lib s p (i + k) = sourceLoop lib s p i := by
  intro k
  induction k with
  | zero => intro _; rfl
  | succ k ih =>
    intro h
    obtain ⟨a, e, ha, he⟩ := h (i + k) (by omega) (by omega)
    rw [← Nat.add_assoc, sourceLoop, ha]
    simp only [he]
    exact ih (fun j h1 h2 => h j h1 (by omega))

theorem sourceLoop_hit (lib : Lib) (s : MPQStack) (p : List Nat) (i : Nat) (a : MPQ)
    (d q : List Nat) (ha : s.archives[i]? = some a) (hq : s.paths[i]? = some q)
    (hd : a.ReadFile lib p = .ok d) :
    sourceLoop lib s p (i + 1) = .ok (some { Archive := a, Path := q, Order := i + 1 }) := by
  rw [sourceLoop, ha]
  simp only [hd, hq]

/-- The two loops of the stack agree: `SourceOf` finds nothing exactly when the read loop
ends with an error, and the archive it reports is the one whose bytes the read loop returns. -/
theorem sourceLoop_readLoop (lib : Lib) (s : MPQStack) (p : List Nat)
    (hlen : s.paths.length = s.archives.length) : ∀ i : Nat, i ≤ s.archives.length →
    (sourceLoop lib s p i = .ok none ↔ ∃ e, readLoop lib s p i = .error (.error e)) ∧
    (∀ src, sourceLoop lib s p i = .ok (some src) →
      1 ≤ src.Order ∧ src.Order ≤ i ∧ s.archives[src.Order - 1]? = some src.Archive ∧
      readLoop lib s p i = src.Archive.ReadFile lib p ∧
      ∃ d, src.Archive.ReadFile lib p = .ok d) := by
  intro i
  induction i with
  | zero =>
    intro _
    simp [sourceLoop, readLoop]
  | succ i ih =>
    intro hi
    have hlt : i < s.archives.length := by omega
    have ha : s.archives[i]? = some s.archives[i] := List.getElem?_eq_getElem hlt
    have hlt2 : i < s.paths.length := by omega
    have hq : s.paths[i]? = some s.paths[i] := List.getElem?_eq_getElem hlt2
    rw [sourceLoop, readLoop, ha]
    simp only [hq]
    cases hr : s.archives[i].ReadFile lib p with
    | ok d =>
      simp only [hr]
      constructor
      · simp
      · intro src hsrc
        simp only [Except.ok.injEq, Option.some.injEq] at hsrc
        subst hsrc
        simp [ha, hr]
    | error f =>
      cases f with
      | error e =>
        simp only [hr]
        obtain ⟨h1, h2⟩ := ih (by omega)
        refine ⟨h1, ?_⟩
        intro src hsrc
        obtain ⟨a1, a2, a3, a4⟩ := h2 src hsrc
        exact ⟨a1, by omega, a3, a4⟩
      | fault =>
        simp only [hr]
        constructor
        · simp
        · intro src hsrc
          simp at hsrc


/-! ## The example archives open -/

theorem Open_sampleFile : Open exampleLib sampleFile = .ok sampleArchive := by decide!

theorem Open_patchFile : Open exampleLib patchFile = .ok patchArchive := by decide!

theorem Open_emptyFile : Open exampleLib emptyFile = .ok emptyArchive := by decide!

theorem sampleArchive_x : sampleArchive.ReadFile exampleLib (ascii "x.txt") = .ok (ascii "1") := by
  decide!

theorem patchArchive_x : patchArchive.ReadFile exampleLib (ascii "x.txt") = .ok (ascii "2") := by
  decide!

theorem emptyArchive_fault (name : List Nat) :
    emptyArchive.ReadFile exampleLib name = .error .fault := by
  rfl

theorem Open_localeFile : Open exampleLib localeFile = .ok localeArchive := by decide!


/-! ## Claims on the archive stack -/

/-- The read of a stack whose newer archives return: for the stack built by `Add(a_1)`, ...,
`Add(a_n)` and every name, if `a_k.ReadFile(name')` succeeds, where `name'` is the name with every `/` replaced by `\`,
and every archive added after `a_k` returns an error for `name'`, then `MPQStack.ReadFile(name)`
returns exactly the bytes of `a_k`: an error of any kind from a newer archive is a miss and
probing goes on with the older ones. If every archive returns an error, and in particular if
the stack is empty, `MPQStack.ReadFile` returns an error. -/
theorem MPQStack_ReadFile_newest_success (lib : Lib) (as : List MPQ) (name : List Nat) :
    (∀ (older newer : List MPQ) (a : MPQ) (data : List Nat),
      as = older ++ a :: newer →
      a.ReadFile lib (replaceSlash name) = .ok data →
      (∀ x ∈ newer, ∃ e, x.ReadFile lib (replaceSlash name) = .error (.error e)) →
      (buildStack as).ReadFile lib name = .ok data) ∧
    ((∀ x ∈ as, ∃ e, x.ReadFile lib (replaceSlash name) = .error (.error e)) →
      ∃ e, (buildStack as).ReadFile lib name = .error (.error e)) := by
  constructor
  · intro older newer a data has hok hnew
    subst has
    have hne : ¬ (buildStack (older ++ a :: newer)).archives.length = 0 := by
      simp [buildStack_archives]
    rw [MPQStack.ReadFile, if_neg hne, buildStack_archives]
    have hl : (older ++ a :: newer).length = (older.length + 1) + newer.length := by
      simp; omega
    rw [hl, readLoop_miss]
    · apply readLoop_hit lib _ _ older.length a data _ hok
      rw [buildStack_archives, getElem?_append_cons_length]
    · intro j h1 h2
      have hj : (older ++ a :: newer)[j]? = newer[j - (older.length + 1)]? := by
        rw [List.getElem?_append_right (by omega)]
        have : j - older.length = (j - (older.length + 1)) + 1 := by omega
        rw [this, List.getElem?_cons_succ]
      have hlt : j - (older.length + 1) < newer.length := by omega
      obtain ⟨e, he⟩ := hnew newer[j - (older.length + 1)] (List.getElem_mem hlt)
      exact ⟨newer[j - (older.length + 1)], e,
        by rw [buildStack_archives, hj, List.getElem?_eq_getElem hlt], he⟩
  · intro hall
    by_cases hz : (buildStack as).archives.length = 0
    · exact ⟨.noMPQsLoaded, by rw [MPQStack.ReadFile, if_pos hz]⟩
    · rw [MPQStack.ReadFile, if_neg hz]
      have h0 := readLoop_miss lib (buildStack as) (replaceSlash name) 0
        (buildStack as).archives.length (by
          intro j _ h2
          rw [buildStack_archives] at h2 ⊢
          have hlt : j < as.length := by omega
          obtain ⟨e, he⟩ := hall as[j] (List.getElem_mem hlt)
          exact ⟨as[j], e, List.getElem?_eq_getElem hlt, he⟩)
      rw [Nat.zero_add] at h0
      exact ⟨.fileNotFound, by rw [h0, readLoop]⟩

/-- Example of the read of a stack: archive A, added first, holds `x.txt` = "1"; archive B, added second, holds
`x.txt` = "2"; the stack returns "2". -/
theorem MPQStack_ReadFile_newest_success_witness :
    (buildStack [sampleArchive, patchArchive]).ReadFile exampleLib (ascii "x.txt")
      = .ok (ascii "2") :=
  (MPQStack_ReadFile_newest_success exampleLib [sampleArchive, patchArchive] (ascii "x.txt")).1
    [sampleArchive] [] patchArchive (ascii "2") rfl patchArchive_x (by simp)

/-- A panic of the archive probed by the loop of `MPQStack.ReadFile` leaves the loop. -/
theorem readLoop_fault (lib : Lib) (s : MPQStack) (p : List Nat) (i : Nat) (x : MPQ)
    (hx : s.archives[i]? = some x) (hf : x.ReadFile lib p = .error .fault) :
    readLoop lib s p (i + 1) = .error .fault := by
  rw [readLoop, hx]
  simp only [hf]

/-- C1 (failure of the code). `MPQStack.ReadFile` does not return the bytes of the newest
archive that can read the name when a newer archive panics: for every stack, if an archive `x`
panics on the name and every archive added after `x` returns an error, the panic leaves
`MPQStack.ReadFile`, whatever the archives added before `x` hold. An archive opened from a header
that declares a hash table of zero entries panics on every name (the division by zero of
`findHashEntries`): with `x.txt` = "1" in the archive added first and such an archive added
second, `MPQStack.ReadFile` of `x.txt` panics instead of returning "1". -/
theorem MPQStack_ReadFile_newer_fault (lib : Lib) :
    (∀ (older newer : List MPQ) (x : MPQ) (name : List Nat),
      x.ReadFile lib (replaceSlash name) = .error .fault →
      (∀ y ∈ newer, ∃ e, y.ReadFile lib (replaceSlash name) = .error (.error e)) →
      (buildStack (older ++ x :: newer)).ReadFile lib name = .error .fault) ∧
    (Open exampleLib sampleFile = .ok sampleArchive ∧
      Open exampleLib emptyFile = .ok emptyArchive ∧
      emptyArchive.header.HashTableEntries = 0 ∧
      sampleArchive.ReadFile exampleLib (replaceSlash (ascii "x.txt")) = .ok (ascii "1") ∧
      emptyArchive.ReadFile exampleLib (replaceSlash (ascii "x.txt")) = .error .fault ∧
      ((New.Add sampleArchive).Add emptyArchive).ReadFile exampleLib (ascii "x.txt")
        = .error .fault ∧
      ((New.Add sampleArchive).Add emptyArchive).ReadFile exampleLib (ascii "x.txt")
        ≠ .ok (ascii "1")) := by
  constructor
  · intro older newer x name hx hnew
    have hne : ¬ (buildStack (older ++ x :: newer)).archives.length = 0 := by
      simp [buildStack_archives]
    rw [MPQStack.ReadFile, if_neg hne, buildStack_archives]
    have hl : (older ++ x :: newer).length = (older.length + 1) + newer.length := by
      simp; omega
    rw [hl, readLoop_miss]
    · apply readLoop_fault lib _ _ older.length x _ hx
      rw [buildStack_archives, getElem?_append_cons_length]
    · intro j h1 h2
      have hj : (older ++ x :: newer)[j]? = newer[j - (older.length + 1)]? := by
        rw [List.getElem?_append_right (by omega)]
        have : j - older.length = (j - (older.length + 1)) + 1 := by omega
        rw [this, List.getElem?_cons_succ]
      have hlt : j - (older.length + 1) < newer.length := by omega
      obtain ⟨e, he⟩ := hnew newer[j - (older.length + 1)] (List.getElem_mem hlt)
      exact ⟨newer[j - (older.length + 1)], e,
        by rw [buildStack_archives, hj, List.getElem?_eq_getElem hlt], he⟩
  · have h1 : sampleArchive.ReadFile exampleLib (replaceSlash (ascii "x.txt"))
        = .ok (ascii "1") := by decide!
    have h2 : ((New.Add sampleArchive).Add emptyArchive).ReadFile exampleLib (ascii "x.txt")
        = .error .fault := by decide!
    refine ⟨Open_sampleFile, Open_emptyFile, rfl, h1, emptyArchive_fault _, h2, ?_⟩
    rw [h2]
    intro h
    cases h

/-- The source of a name in a stack whose newer archives return. Each `Add` appends one entry and leaves the earlier ones as they are, so
after `New()`, `Add(a_1)`, ..., `Add(a_n)` the stack holds `a_1..a_n` in order. If `a_k` can
read the name and every archive added after it returns an error, `SourceOf(name)` returns
`a_k` with priority `k` (1-based; a re-added archive is reported at its newer position).
`SourceOf` returns none exactly when `MPQStack.ReadFile(name)` returns an error (always on the
empty stack), and the archive it reports is the one whose bytes `MPQStack.ReadFile` returns. -/
theorem MPQStack_SourceOf_newest_success (lib : Lib) (as : List MPQ) (name : List Nat) :
    (∀ (s : MPQStack) (a : MPQ), (s.Add a).archives = s.archives ++ [a]) ∧
    (buildStack as).archives = as ∧
    (∀ (older newer : List MPQ) (a : MPQ) (data : List Nat),
      as = older ++ a :: newer →
      a.ReadFile lib (replaceSlash name) = .ok data →
      (∀ x ∈ newer, ∃ e, x.ReadFile lib (replaceSlash name) = .error (.error e)) →
      (buildStack as).SourceOf lib name
        = .ok (some { Archive := a, Path := [], Order := older.length + 1 })) ∧
    ((buildStack as).SourceOf lib name = .ok none ↔
      ∃ e, (buildStack as).ReadFile lib name = .error (.error e)) ∧
    (as = [] → (buildStack as).SourceOf lib name = .ok none) ∧
    (∀ src, (buildStack as).SourceOf lib name = .ok (some src) →
      as[src.Order - 1]? = some src.Archive ∧ 1 ≤ src.Order ∧
      ∃ data, src.Archive.ReadFile lib (replaceSlash name) = .ok data ∧
        (buildStack as).ReadFile lib name = .ok data) := by
  have hlen : (buildStack as).paths.length = (buildStack as).archives.length := by
    simp [buildStack_archives, buildStack_paths]
  refine ⟨fun s a => rfl, buildStack_archives as, ?_, ?_, ?_, ?_⟩
  · intro older newer a data has hok hnew
    subst has
    rw [MPQStack.SourceOf, buildStack_archives]
    have hl : (older ++ a :: newer).length = (older.length + 1) + newer.length := by
      simp; omega
    rw [hl, sourceLoop_miss]
    · apply sourceLoop_hit lib _ _ older.length a data [] _ _ hok
      · rw [buildStack_archives, getElem?_append_cons_length]
      · rw [buildStack_paths, List.getElem?_replicate]
        simp
    · intro j h1 h2
      have hj : (older ++ a :: newer)[j]? = newer[j - (older.length + 1)]? := by
        rw [List.getElem?_append_right (by omega)]
        have : j - older.length = (j - (older.length + 1)) + 1 := by omega
        rw [this, List.getElem?_cons_succ]
      have hlt : j - (older.length + 1) < newer.length := by omega
      obtain ⟨e, he⟩ := hnew newer[j - (older.length + 1)] (List.getElem_mem hlt)
      exact ⟨newer[j - (older.length + 1)], e,
        by rw [buildStack_archives, hj, List.getElem?_eq_getElem hlt], he⟩
  · rw [MPQStack.SourceOf, MPQStack.ReadFile]
    by_cases hz : (buildStack as).archives.length = 0
    · rw [if_pos hz, hz]
      simp [sourceLoop]
    · rw [if_neg hz]
      exact (sourceLoop_readLoop lib _ _ hlen _ (Nat.le_refl _)).1
  · intro has
    subst has
    rfl
  · intro src hsrc
    rw [MPQStack.SourceOf] at hsrc
    obtain ⟨h1, h2, h3, h4, d, hd⟩ :=
      (sourceLoop_readLoop lib _ _ hlen _ (Nat.le_refl _)).2 src hsrc
    rw [buildStack_archives] at h3
    refine ⟨h3, h1, d, hd, ?_⟩
    have hz : ¬ (buildStack as).archives.length = 0 := by omega
    rw [MPQStack.ReadFile, if_neg hz, h4, hd]

/-- Example of the source of a name: the archive holding `x.txt` is added, then another one without the name,
then the first one again; `SourceOf` reports it with priority 3. -/
theorem MPQStack_SourceOf_newest_success_witness :
    (buildStack [patchArchive, sampleArchive, patchArchive]).SourceOf exampleLib (ascii "x.txt")
      = .ok (some { Archive := patchArchive, Path := [], Order := 3 }) :=
  (MPQStack_SourceOf_newest_success exampleLib [patchArchive, sampleArchive, patchArchive]
    (ascii "x.txt")).2.2.1 [patchArchive, sampleArchive] [] patchArchive (ascii "2") rfl
    patchArchive_x (by simp)

/-- A panic of the archive probed by the loop of `MPQStack.SourceOf` leaves the loop. -/
theorem sourceLoop_fault (lib : Lib) (s : MPQStack) (p : List Nat) (i : Nat) (x : MPQ)
    (hx : s.archives[i]? = some x) (hf : x.ReadFile lib p = .error .fault) :
    sourceLoop lib s p (i + 1) = .error .fault := by
  rw [sourceLoop, hx]
  simp only [hf]

/-- C2 (failure of the code). `SourceOf` does not report the newest archive that can read the
name when a newer archive panics: for every stack, if an archive `x` panics on the name and
every archive added after `x` returns an error, the panic leaves `SourceOf`, which then returns
neither an archive nor none, whatever the archives added before `x` hold. With `x.txt` in the
archive added first and an archive whose header declares a hash table of zero entries added
second, `SourceOf` of `x.txt` panics instead of reporting the first archive with priority 1. -/
theorem MPQStack_SourceOf_newer_fault (lib : Lib) :
    (∀ (older newer : List MPQ) (x : MPQ) (name : List Nat),
      x.ReadFile lib (replaceSlash name) = .error .fault →
      (∀ y ∈ newer, ∃ e, y.ReadFile lib (replaceSlash name) = .error (.error e)) →
      (buildStack (older ++ x :: newer)).SourceOf lib name = .error .fault) ∧
    (Open exampleLib patchFile = .ok patchArchive ∧
      Open exampleLib emptyFile = .ok emptyArchive ∧
      emptyArchive.header.HashTableEntries = 0 ∧
      patchArchive.ReadFile exampleLib (replaceSlash (ascii "x.txt")) = .ok (ascii "2") ∧
      emptyArchive.ReadFile exampleLib (replaceSlash (ascii "x.txt")) = .error .fault ∧
      ((New.Add patchArchive).Add emptyArchive).SourceOf exampleLib (ascii "x.txt")
        = .error .fault ∧
      ((New.Add patchArchive).Add emptyArchive).SourceOf exampleLib (ascii "x.txt")
        ≠ .ok (some { Archive := patchArchive, Path := [], Order := 1 })) := by
  constructor
  · intro older newer x name hx hnew
    rw [MPQStack.SourceOf, buildStack_archives]
    have hl : (older ++ x :: newer).length = (older.length + 1) + newer.length := by
      simp; omega
    rw [hl, sourceLoop_miss]
    · apply sourceLoop_fault lib _ _ older.length x _ hx
      rw [buildStack_archives, getElem?_append_cons_length]
    · intro j h1 h2
      have hj : (older ++ x :: newer)[j]? = newer[j - (older.length + 1)]? := by
        rw [List.getElem?_append_right (by omega)]
        have : j - older.length = (j - (older.length + 1)) + 1 := by omega
        rw [this, List.getElem?_cons_succ]
      have hlt : j - (older.length + 1) < newer.length := by omega
      obtain ⟨e, he⟩ := hnew newer[j - (older.length + 1)] (List.getElem_mem hlt)
      exact ⟨newer[j - (older.length + 1)], e,
        by rw [buildStack_archives, hj, List.getElem?_eq_getElem hlt], he⟩
  · have h1 : patchArchive.ReadFile exampleLib (replaceSlash (ascii "x.txt"))
        = .ok (ascii "2") := by decide!
    have h2 : ((New.Add patchArchive).Add emptyArchive).SourceOf exampleLib (ascii "x.txt")
        = .error .fault := by decide!
    refine ⟨Open_patchFile, Open_emptyFile, rfl, h1, emptyArchive_fault _, h2, ?_⟩
    rw [h2]
    intro h
    cases h

/-! ## Claims on the hash and the cipher -/

/-- On an ASCII string `strings.ToUpper` is the bytewise map of `a..z` to `A..Z`, so two ASCII
strings that agree up to the case of their letters have the same upper-case form. -/
theorem toUpper_eq_of_ascii (lib : Lib) (s t : List Nat)
    (hs : ∀ c ∈ s, c < 0x80) (ht : ∀ c ∈ t, c < 0x80)
    (h : s.map upperByte = t.map upperByte) : toUpper lib s = toUpper lib t := by
  have h1 : (s.all fun c => decide (c < 0x80)) = true := by
    rw [List.all_eq_true]; intro c hc; exact decide_eq_true (hs c hc)
  have h2 : (t.all fun c => decide (c < 0x80)) = true := by
    rw [List.all_eq_true]; intro c hc; exact decide_eq_true (ht c hc)
  rw [toUpper, toUpper, if_pos h1, if_pos h2, h]

/-- The hash depends on the string through its upper-case form only. -/
theorem mpqHashString_hash_congr (lib : Lib) (k : Nat) (s t : List Nat)
    (h : toUpper lib s = toUpper lib t) : mpqHashString lib s k = mpqHashString lib t k := by
  unfold mpqHashString
  rw [h]

/-- C3. `mpqHashString` is case-insensitive: for every hash kind `k` (in particular 0, 1, 2
and 3) and all strings `s`, `t` that are equal after upper-casing, the hashes of `s` and `t`
are equal; for ASCII strings this is: `s` and `t` differ only in the case of the letters
`a..z`. -/
theorem mpqHashString_case_insensitive (lib : Lib) (k : Nat) :
    (∀ s t : List Nat, toUpper lib s = toUpper lib t →
      mpqHashString lib s k = mpqHashString lib t k) ∧
    (∀ s t : List Nat, (∀ c ∈ s, c < 0x80) → (∀ c ∈ t, c < 0x80) →
      s.map upperByte = t.map upperByte →
      mpqHashString lib s k = mpqHashString lib t k) := by
  exact ⟨mpqHashString_hash_congr lib k, fun s t hs ht h =>
    mpqHashString_hash_congr lib k s t (toUpper_eq_of_ascii lib s t hs ht h)⟩

/-- Witness of C3: `Hash("FOO.TXT", k) = Hash("foo.txt", k)` for the four kinds. -/
theorem mpqHashString_case_insensitive_witness :
    toUpper exampleLib (ascii "FOO.TXT") = toUpper exampleLib (ascii "foo.txt") ∧
    ∀ k ∈ [MPQ_HASH_TABLE_OFFSET, MPQ_HASH_NAME_A, MPQ_HASH_NAME_B, MPQ_HASH_FILE_KEY],
      mpqHashString exampleLib (ascii "FOO.TXT") k
        = mpqHashString exampleLib (ascii "foo.txt") k :=
  ⟨by decide, fun k _ =>
    (mpqHashString_case_insensitive exampleLib k).1 (ascii "FOO.TXT") (ascii "foo.txt")
      (by decide)⟩

/-- C4. The cipher is symmetric: for every key and every buffer of bytes `p` (whatever its
length, so in particular for a length that is a multiple of 4), encrypting `p` with the
matching word-wise cipher and applying `mpqDecrypt` with the same key gives `p` back, and so
does decrypting first and encrypting after. Both keep the length and produce bytes, hence for
a fixed key `mpqDecrypt` is injective and surjective on the buffers of a given length. -/
theorem mpqDecrypt_mpqEncrypt_symmetric (key : Nat) (p : List Nat) (hp : ∀ b ∈ p, b < 256) :
    mpqDecrypt (mpqEncrypt p key) key = p ∧
    mpqEncrypt (mpqDecrypt p key) key = p ∧
    (mpqDecrypt p key).length = p.length ∧ (∀ b ∈ mpqDecrypt p key, b < 256) ∧
    (mpqEncrypt p key).length = p.length ∧ (∀ b ∈ mpqEncrypt p key, b < 256) ∧
    (∀ q : List Nat, (∀ b ∈ q, b < 256) → mpqDecrypt p key = mpqDecrypt q key → p = q) ∧
    (∃ c : List Nat, c.length = p.length ∧ (∀ b ∈ c, b < 256) ∧ mpqDecrypt c key = p) := by
  refine ⟨decryptLoop_encryptLoop _ p rfl hp key _, encryptLoop_decryptLoop _ p rfl hp key _,
    decryptLoop_length _ p rfl key _, decryptLoop_bytes _ p rfl hp key _,
    encryptLoop_length _ p rfl key _, encryptLoop_bytes _ p rfl hp key _, ?_, ?_⟩
  · intro q hq h
    have h1 := encryptLoop_decryptLoop _ p rfl hp key 0xEEEEEEEE
    have h2 := encryptLoop_decryptLoop _ q rfl hq key 0xEEEEEEEE
    unfold mpqDecrypt at h
    rw [h] at h1
    rw [← h1, h2]
  · exact ⟨mpqEncrypt p key, encryptLoop_length _ p rfl key _,
      encryptLoop_bytes _ p rfl hp key _, decryptLoop_encryptLoop _ p rfl hp key _⟩

/-- Witness of C4: an 8-byte plaintext and the key `0x12345678`. -/
theorem mpqDecrypt_mpqEncrypt_symmetric_witness :
    (∀ b ∈ [1, 2, 3, 4, 250, 251, 252, 253], b < 256) ∧
    mpqDecrypt (mpqEncrypt [1, 2, 3, 4, 250, 251, 252, 253] 0x12345678) 0x12345678
      = [1, 2, 3, 4, 250, 251, 252, 253] :=
  ⟨by decide,
    (mpqDecrypt_mpqEncrypt_symmetric 0x12345678 [1, 2, 3, 4, 250, 251, 252, 253] (by decide)).1⟩


/-! ## Claims on the lookup -/

/-- On ASCII names, agreeing up to the case of letters and up to `/` versus `\` is agreeing
after `strings.ReplaceAll` and `strings.ToUpper`. -/
theorem normalized_eq_of_ascii (lib : Lib) (n1 n2 : List Nat)
    (h1 : ∀ c ∈ n1, c < 0x80) (h2 : ∀ c ∈ n2, c < 0x80)
    (h : (replaceSlash n1).map upperByte = (replaceSlash n2).map upperByte) :
    toUpper lib (replaceSlash n1) = toUpper lib (replaceSlash n2) := by
  apply toUpper_eq_of_ascii lib _ _ _ _ h
  · intro c hc
    simp only [replaceSlash, List.mem_map] at hc
    obtain ⟨d, hd, rfl⟩ := hc
    have := h1 d hd
    split <;> omega
  · intro c hc
    simp only [replaceSlash, List.mem_map] at hc
    obtain ⟨d, hd, rfl⟩ := hc
    have := h2 d hd
    split <;> omega

/-- C6. Lookup normalizes names: for every archive and all names `n1`, `n2` that are equal
after the replacement of `/` by `\` and upper-casing (they differ only in letter case and in
the separator), the three hashes (name A, name B, start slot) are equal and
`findHashEntries(n1) = findHashEntries(n2)`, so `MPQ.ReadFile` selects the same hash entry and
the same block for both. -/
theorem findHashEntries_normalizes (lib : Lib) (m : MPQ) (n1 n2 : List Nat)
    (h : toUpper lib (replaceSlash n1) = toUpper lib (replaceSlash n2)) :
    (∀ k, mpqHashString lib (replaceSlash n1) k = mpqHashString lib (replaceSlash n2) k) ∧
    m.findHashEntries lib n1 = m.findHashEntries lib n2 ∧
    (∀ c cs, m.findHashEntries lib n1 = .ok (c :: cs) →
      m.findHashEntries lib n2 = .ok (c :: cs) ∧
      m.ReadFile lib n1 = (match m.blockTable[(selectEntry c cs).BlockIdx]? with
        | none => .error .fault
        | some block => m.readBlock lib n1 block) ∧
      m.ReadFile lib n2 = (match m.blockTable[(selectEntry c cs).BlockIdx]? with
        | none => .error .fault
        | some block => m.readBlock lib n2 block)) := by
  have hk : ∀ k, mpqHashString lib (replaceSlash n1) k
      = mpqHashString lib (replaceSlash n2) k :=
    fun k => (mpqHashString_hash_congr lib k _ _ h)
  have hf : m.findHashEntries lib n1 = m.findHashEntries lib n2 := by
    unfold MPQ.findHashEntries
    simp only [hk]
  refine ⟨hk, hf, ?_⟩
  intro c cs hc
  have hc2 : m.findHashEntries lib n2 = .ok (c :: cs) := by rw [← hf]; exact hc
  refine ⟨hc2, ?_, ?_⟩
  · rw [MPQ.ReadFile, hc]
  · rw [MPQ.ReadFile, hc2]

/-- Witness of C6: `Bad/Unit.BIN` and `bad\unit.bin` in the sample archive. -/
theorem findHashEntries_normalizes_witness :
    sampleArchive.findHashEntries exampleLib (ascii "Bad/Unit.BIN")
      = sampleArchive.findHashEntries exampleLib (ascii "bad\\unit.bin") :=
  (findHashEntries_normalizes exampleLib sampleArchive (ascii "Bad/Unit.BIN")
    (ascii "bad\\unit.bin")
    (normalized_eq_of_ascii exampleLib _ _ (by decide) (by decide) (by decide))).2.1

/-- C7. Locale resolution in `MPQ.ReadFile`: when the probe returns the non-empty candidate
list `c :: cs`, the entry whose block `ReadFile` reads is `selectEntry c cs`; it is the first
candidate in probe order whose locale is 0 if some candidate has locale 0, and the first
probed candidate `c` otherwise. -/
theorem ReadFile_locale_resolution (lib : Lib) (m : MPQ) (name : List Nat) (c : HashEntry)
    (cs : List HashEntry) (hfind : m.findHashEntries lib name = .ok (c :: cs)) :
    m.ReadFile lib name = (match m.blockTable[(selectEntry c cs).BlockIdx]? with
      | none => .error .fault
      | some block => m.readBlock lib name block) ∧
    ((∃ e ∈ c :: cs, e.Locale = 0) →
      ∃ pre post, c :: cs = pre ++ selectEntry c cs :: post ∧
        (∀ x ∈ pre, x.Locale ≠ 0) ∧ (selectEntry c cs).Locale = 0) ∧
    ((∀ e ∈ c :: cs, e.Locale ≠ 0) → selectEntry c cs = c) := by
  refine ⟨by rw [MPQ.ReadFile, hfind], ?_, ?_⟩
  · intro hex
    unfold selectEntry
    cases hf : (c :: cs).find? (fun e => decide (e.Locale = 0)) with
    | none =>
      rw [List.find?_eq_none] at hf
      obtain ⟨e, he, h0⟩ := hex
      exact absurd (decide_eq_true h0) (hf e he)
    | some e =>
      rw [List.find?_eq_some] at hf
      obtain ⟨h0, pre, post, hsplit, hpre⟩ := hf
      refine ⟨pre, post, hsplit, ?_, of_decide_eq_true h0⟩
      intro x hx hx0
      have := hpre x hx
      simp [hx0] at this
  · intro hall
    unfold selectEntry
    cases hf : (c :: cs).find? (fun e => decide (e.Locale = 0)) with
    | none => rfl
    | some e =>
      have hmem := List.mem_of_find?_eq_some hf
      have h0 := List.find?_some hf
      exact absurd (of_decide_eq_true h0) (hall e hmem)

/-- Witness of C7: `x.txt` in the two-locale archive; the candidate of locale `0x409` is probed
first, the candidate of locale 0 is used, and the file read is `"2"`. -/
theorem ReadFile_locale_resolution_witness :
    localeArchive.findHashEntries exampleLib (ascii "x.txt")
      = .ok [{ NameA := 1987855327, NameB := 2922248539, Locale := 0x409, Platform := 0,
               BlockIdx := 0 },
             { NameA := 1987855327, NameB := 2922248539, Locale := 0, Platform := 0,
               BlockIdx := 1 }] ∧
    localeArchive.ReadFile exampleLib (ascii "x.txt") = .ok (ascii "2") :=
  ⟨by decide!,
    ((ReadFile_locale_resolution exampleLib localeArchive (ascii "x.txt")
      { NameA := 1987855327, NameB := 2922248539, Locale := 0x409, Platform := 0, BlockIdx := 0 }
      [{ NameA := 1987855327, NameB := 2922248539, Locale := 0, Platform := 0, BlockIdx := 1 }]
      (by decide!)).1).trans (by decide!)⟩

/-- C8 fails on the code. The 32-byte archive whose header declares a hash table of zero
entries opens, and `MPQ.ReadFile` of any name on it ends in a run-time panic (the remainder
`% m.header.HashTableEntries` of `findHashEntries` divides by zero) instead of returning the
"file not found" error. -/
theorem ReadFile_zero_entries_fault :
    Open exampleLib emptyFile = .ok emptyArchive ∧
    emptyArchive.header.HashTableEntries = 0 ∧
    (∀ name, emptyArchive.findHashEntries exampleLib name = .error .fault) ∧
    (∀ name, emptyArchive.ReadFile exampleLib name = .error .fault) ∧
    emptyArchive.ReadFile exampleLib (ascii "x.txt") ≠ .error (.error .fileNotFound) := by
  refine ⟨Open_emptyFile, rfl, fun _ => rfl, fun _ => rfl, ?_⟩
  intro h
  cases h


/-! ## The probe of `findHashEntries` -/

/-- Loop invariant of the probe while `start + i` stays below `2^32`: the loop returns what it
has found so far followed by the described candidate list of the slots still to visit. -/
theorem probeLoop_eq_spec (m : MPQ) (start hashA hashB : Nat)
    (hlen : m.hashTable.length = m.header.HashTableEntries)
    (hsmall : start + m.header.HashTableEntries ≤ 2 ^ 32) :
    ∀ (n i : Nat) (found : List HashEntry), i + n = m.header.HashTableEntries →
      probeLoop m start hashA hashB n i found = .ok (found ++
        ((((List.range' i n).filterMap
          (fun j => m.hashTable[(start + j) % m.header.HashTableEntries]?)).takeWhile
          (fun h => decide (h.BlockIdx ≠ 0xFFFFFFFF))).filter
          (fun h => decide (h.BlockIdx ≠ 0xFFFFFFFE ∧ h.NameA = hashA ∧ h.NameB = hashB)))) := by
  intro n
  induction n with
  | zero => intro i found _; simp [probeLoop]
  | succ n ih =>
    intro i found hin
    have hmod : (start + i) % 2 ^ 32 = start + i := Nat.mod_eq_of_lt (by omega)
    have hidx : (start + i) % m.header.HashTableEntries < m.hashTable.length := by
      rw [hlen]; exact Nat.mod_lt _ (by omega)
    rw [probeLoop, hmod, List.getElem?_eq_getElem hidx]
    simp only [List.range'_succ, List.filterMap_cons, List.getElem?_eq_getElem hidx]
    by_cases h1 : (m.hashTable[(start + i) % m.header.HashTableEntries]).BlockIdx = 0xFFFFFFFF
    · simp [h1]
    · by_cases h2 : (m.hashTable[(start + i) % m.header.HashTableEntries]).BlockIdx = 0xFFFFFFFE
      · rw [if_neg h1, if_pos h2, ih (i + 1) found (by omega)]
        simp [h1, h2]
      · by_cases h3 : (m.hashTable[(start + i) % m.header.HashTableEntries]).NameA = hashA ∧
            (m.hashTable[(start + i) % m.header.HashTableEntries]).NameB = hashB
        · rw [if_neg h1, if_neg h2, if_pos h3, ih (i + 1) _ (by omega)]
          simp [h1, h2, h3]
        · rw [if_neg h1, if_neg h2, if_neg h3, ih (i + 1) found (by omega)]
          simp [h1, h2, h3]

/-- C5 (as amended). Probe correctness of `findHashEntries` for a hash table of `N` entries
with `0 < N ≤ 2^31`: with `start = Hash(name, table-slot kind) mod N` the result is exactly the
list, in probe order, of the entries at slots `(start + j) mod N` for `j = 0, 1, ...` up to but
excluding the first slot whose block index is `0xFFFFFFFF` (or all `N` slots, each visited
once), keeping only the entries whose block index is not `0xFFFFFFFE` and whose two name
hashes are those of the name. -/
theorem findHashEntries_probe (lib : Lib) (m : MPQ) (name : List Nat)
    (hlen : m.hashTable.length = m.header.HashTableEntries)
    (hpos : 0 < m.header.HashTableEntries) (hsmall : m.header.HashTableEntries ≤ 2 ^ 31) :
    m.findHashEntries lib name = .ok (probeSpec m.hashTable
      (mpqHashString lib (replaceSlash name) MPQ_HASH_TABLE_OFFSET % m.header.HashTableEntries)
      (mpqHashString lib (replaceSlash name) MPQ_HASH_NAME_A)
      (mpqHashString lib (replaceSlash name) MPQ_HASH_NAME_B)) := by
  have hstart : mpqHashString lib (replaceSlash name) MPQ_HASH_TABLE_OFFSET
      % m.header.HashTableEntries < m.header.HashTableEntries := Nat.mod_lt _ hpos
  rw [MPQ.findHashEntries]
  simp only []
  rw [if_neg (by omega), probeLoop_eq_spec m _ _ _ hlen (by omega) _ 0 [] (by omega)]
  rw [probeSpec, hlen, List.range_eq_range', List.nil_append]

/-- Witness of C5: the probe for `x.txt` in the two-locale archive starts at slot 3, wraps to
slot 0 and stops at the free slot 1. -/
theorem findHashEntries_probe_witness :
    localeArchive.findHashEntries exampleLib (ascii "x.txt")
      = .ok (probeSpec localeArchive.hashTable 3 1987855327 2922248539) :=
  (findHashEntries_probe exampleLib localeArchive (ascii "x.txt") (by decide) (by decide)
    (by decide)).trans (by decide!)

/-- Lookup in a table that holds `e` in every slot but slot `a`. -/
theorem getElem?_replicate_cons_replicate (a b j : Nat) (e t : HashEntry) (hj : j < a + 1 + b)
    (hne : j ≠ a) : (List.replicate a e ++ t :: List.replicate b e)[j]? = some e := by
  by_cases hlt : j < a
  · rw [List.getElem?_append_left (by simpa using hlt), List.getElem?_replicate, if_pos hlt]
  · have h1 : j - (List.replicate a e).length = (j - a - 1) + 1 := by
      rw [List.length_replicate]; omega
    rw [List.getElem?_append_right (by rw [List.length_replicate]; omega), h1,
      List.getElem?_cons_succ, List.getElem?_replicate, if_pos (by omega)]

theorem getElem?_replicate_cons_self (a b : Nat) (e t : HashEntry) :
    (List.replicate a e ++ t :: List.replicate b e)[a]? = some t := by
  have h1 : a - (List.replicate a e).length = 0 := by rw [List.length_replicate]; omega
  rw [List.getElem?_append_right (by rw [List.length_replicate]), h1, List.getElem?_cons_zero]

/-- The probe loop over slots that all hold the matching entry `e` returns one copy of `e`
for each iteration. -/
theorem probeLoop_all_match (m : MPQ) (start : Nat) (e : HashEntry)
    (h1 : e.BlockIdx ≠ 0xFFFFFFFF) (h2 : e.BlockIdx ≠ 0xFFFFFFFE)
    (hall : ∀ i, i < m.header.HashTableEntries →
      m.hashTable[((start + i) % 2 ^ 32) % m.header.HashTableEntries]? = some e) :
    ∀ (n i : Nat) (found : List HashEntry), i + n = m.header.HashTableEntries →
      probeLoop m start e.NameA e.NameB n i found = .ok (found ++ List.replicate n e) := by
  intro n
  induction n with
  | zero => intro i found _; simp [probeLoop]
  | succ n ih =>
    intro i found hin
    rw [probeLoop, hall i (by omega)]
    simp [h1, h2, ih (i + 1) _ (by omega), List.replicate_succ]

theorem takeWhile_replicate_append (p : HashEntry → Bool) (e t : HashEntry) (he : p e = true)
    (ht : p t = false) : ∀ k, (List.replicate k e ++ [t]).takeWhile p = List.replicate k e := by
  intro k
  induction k with
  | zero => simp [ht]
  | succ k ih => rw [List.replicate_succ, List.cons_append, List.takeWhile_cons, he, ih]; rfl

/-- The described candidate list of a table whose slots `start, start + 1, ...` (cyclically)
hold the matching entry `e` `k` times and then a free slot. -/
theorem spec_prefix_all_match (table : List HashEntry) (start k n : Nat) (e t : HashEntry)
    (h1 : e.BlockIdx ≠ 0xFFFFFFFF) (h2 : e.BlockIdx ≠ 0xFFFFFFFE)
    (ht : t.BlockIdx = 0xFFFFFFFF) (hn : n = k + 1)
    (hpre : ∀ j, j < k → table[(start + j) % table.length]? = some e)
    (hk : table[(start + k) % table.length]? = some t) :
    ((((List.range n).filterMap (fun j => table[(start + j) % table.length]?)).takeWhile
        (fun h => decide (h.BlockIdx ≠ 0xFFFFFFFF))).filter
      (fun h => decide (h.BlockIdx ≠ 0xFFFFFFFE ∧ h.NameA = e.NameA ∧ h.NameB = e.NameB)))
      = List.replicate k e := by
  subst hn
  have hmap : ∀ k2, k2 ≤ k →
      (List.range k2).filterMap (fun j => table[(start + j) % table.length]?)
        = List.replicate k2 e := by
    intro k2
    induction k2 with
    | zero => intro _; rfl
    | succ k2 ih =>
      intro hle
      rw [List.range_succ, List.filterMap_append, ih (by omega)]
      simp only [List.filterMap_cons, List.filterMap_nil, hpre k2 (by omega)]
      rw [List.replicate_succ']
  rw [List.range_succ, List.filterMap_append, hmap k (Nat.le_refl _)]
  simp only [List.filterMap_cons, List.filterMap_nil, hk]
  have htw := takeWhile_replicate_append (fun h => decide (h.BlockIdx ≠ 0xFFFFFFFF)) e t
    (by simpa using h1) (by simpa using ht) k
  rw [htw]
  rw [List.filter_eq_self]
  intro a ha
  rw [List.eq_of_mem_replicate ha]
  simpa using h2


theorem wrapArchive_length : wrapArchive.hashTable.length = 4294967295 := by
  show (List.replicate 3881622942 wrapEntry ++ freeEntry ::
    List.replicate 413344352 wrapEntry).length = 4294967295
  rw [List.length_append, List.length_cons, List.length_replicate, List.length_replicate]

theorem wrapArchive_hashes :
    mpqHashString exampleLib (replaceSlash (ascii "x.txt")) MPQ_HASH_TABLE_OFFSET = 3881622943 ∧
    mpqHashString exampleLib (replaceSlash (ascii "x.txt")) MPQ_HASH_NAME_A = wrapEntry.NameA ∧
    mpqHashString exampleLib (replaceSlash (ascii "x.txt")) MPQ_HASH_NAME_B = wrapEntry.NameB := by
  decide!

/-- C5 as stated fails for a table of more than `2^31` entries, where the `uint32` sum
`start + i` wraps. In the table of `N = 2^32 - 1` entries of `wrapArchive` the probe for
`x.txt` starts at slot 3881622943; the only free slot is the one visited last, 3881622942.
The described probe visits every slot once and returns the `N - 1` entries before the free
slot; `findHashEntries` visits slot 0 twice, never reaches the free slot and returns `N`
entries. -/
theorem findHashEntries_wrap_counterexample :
    wrapArchive.hashTable.length = wrapArchive.header.HashTableEntries ∧
    0 < wrapArchive.header.HashTableEntries ∧
    wrapArchive.findHashEntries exampleLib (ascii "x.txt")
      = .ok (List.replicate 4294967295 wrapEntry) ∧
    probeSpec wrapArchive.hashTable
      (mpqHashString exampleLib (replaceSlash (ascii "x.txt")) MPQ_HASH_TABLE_OFFSET
        % wrapArchive.header.HashTableEntries)
      (mpqHashString exampleLib (replaceSlash (ascii "x.txt")) MPQ_HASH_NAME_A)
      (mpqHashString exampleLib (replaceSlash (ascii "x.txt")) MPQ_HASH_NAME_B)
      = List.replicate 4294967294 wrapEntry ∧
    wrapArchive.findHashEntries exampleLib (ascii "x.txt") ≠ .ok (probeSpec wrapArchive.hashTable
      (mpqHashString exampleLib (replaceSlash (ascii "x.txt")) MPQ_HASH_TABLE_OFFSET
        % wrapArchive.header.HashTableEntries)
      (mpqHashString exampleLib (replaceSlash (ascii "x.txt")) MPQ_HASH_NAME_A)
      (mpqHashString exampleLib (replaceSlash (ascii "x.txt")) MPQ_HASH_NAME_B)) := by
  obtain ⟨h0, hA, hB⟩ := wrapArchive_hashes
  have hN : wrapArchive.header.HashTableEntries = 4294967295 := rfl
  have hT : wrapArchive.hashTable = List.replicate 3881622942 wrapEntry ++ freeEntry ::
      List.replicate 413344352 wrapEntry := rfl
  have hstart : (3881622943 : Nat) % 4294967295 = 3881622943 := by decide
  have e1 : wrapEntry.BlockIdx ≠ 0xFFFFFFFF := by decide
  have e2 : wrapEntry.BlockIdx ≠ 0xFFFFFFFE := by decide
  have hcode : wrapArchive.findHashEntries exampleLib (ascii "x.txt")
      = .ok (List.replicate 4294967295 wrapEntry) := by
    rw [MPQ.findHashEntries]
    simp only [h0, hA, hB]
    rw [hN, if_neg (by decide), hstart]
    have hall : ∀ i, i < wrapArchive.header.HashTableEntries →
        wrapArchive.hashTable[((3881622943 + i) % 2 ^ 32)
          % wrapArchive.header.HashTableEntries]? = some wrapEntry := by
      intro i hi
      rw [hN] at hi ⊢
      rw [hT]
      exact getElem?_replicate_cons_replicate _ _ _ _ _ (by omega) (by omega)
    have := probeLoop_all_match wrapArchive 3881622943 wrapEntry e1 e2 hall 4294967295 0 []
      (by rw [hN])
    rw [this, List.nil_append]
  have hspec : probeSpec wrapArchive.hashTable
      (mpqHashString exampleLib (replaceSlash (ascii "x.txt")) MPQ_HASH_TABLE_OFFSET
        % wrapArchive.header.HashTableEntries)
      (mpqHashString exampleLib (replaceSlash (ascii "x.txt")) MPQ_HASH_NAME_A)
      (mpqHashString exampleLib (replaceSlash (ascii "x.txt")) MPQ_HASH_NAME_B)
      = List.replicate 4294967294 wrapEntry := by
    rw [h0, hA, hB, hN, hstart, probeSpec]
    apply spec_prefix_all_match wrapArchive.hashTable 3881622943 4294967294 _ wrapEntry freeEntry
      e1 e2 rfl (by rw [wrapArchive_length])
    · intro j hj
      rw [wrapArchive_length, hT]
      exact getElem?_replicate_cons_replicate _ _ _ _ _ (by omega) (by omega)
    · rw [wrapArchive_length, hT]
      have hidx : (3881622943 + 4294967294) % 4294967295 = 3881622942 := by decide
      rw [hidx]
      exact getElem?_replicate_cons_self _ _ _ _
  refine ⟨by rw [wrapArchive_length, hN], by rw [hN]; decide, hcode, hspec, ?_⟩
  rw [hcode, hspec]
  intro h
  have hl := congrArg List.length (Except.ok.inj h)
  rw [List.length_replicate, List.length_replicate] at hl
  omega


/-! ## Claims on `MPQ.ReadFile` -/

theorem readAt_length (f : List Nat) (n : Nat) (off : Int) (out : List Nat)
    (h : readAt f n off = some out) : out.length = n := by
  unfold readAt at h
  split at h
  · cases h
  · split at h
    · cases h; simp [*]
    · split at h
      · cases h
        rw [List.length_take, List.length_drop]
        omega
      · cases h

theorem resliceTo_length (out : List Nat) (n : Nat) : (resliceTo out n).length = n := by
  rw [resliceTo, List.length_take, List.length_append, List.length_replicate]
  omega

theorem mpqDecrypt_length (data : List Nat) (key : Nat) :
    (mpqDecrypt data key).length = data.length :=
  decryptLoop_length _ data rfl key _

/-- A sector loop that reaches a sector whose step fails returns the error of that sector. -/
theorem sectorLoop_error_at (lib : Lib) (m : MPQ) (offset : Int) (block : BlockEntry)
    (key : Nat) (offsets : List Nat) (i0 : Nat) (e : Failure)
    (hbad : m.sectorStep lib offset block key offsets i0 = .error e) :
    ∀ (n i : Nat) (out : List Nat), i ≤ i0 → i0 < i + n →
      (∀ j, i ≤ j → j < i0 → ∃ d, m.sectorStep lib offset block key offsets j = .ok d) →
      m.sectorLoop lib offset block key offsets n i out = .error e := by
  intro n
  induction n with
  | zero => intro i out h1 h2; omega
  | succ n ih =>
    intro i out h1 h2 hprev
    rw [MPQ.sectorLoop]
    by_cases hi : i = i0
    · subst hi
      rw [hbad]
    · obtain ⟨d, hd⟩ := hprev i (Nat.le_refl _) (by omega)
      rw [hd]
      exact ih (i + 1) _ (by omega) (by omega) (fun j hj1 hj2 => hprev j (by omega) hj2)

theorem bind_ok {α β : Type} (a : α) (f : α → Result β) :
    (Except.ok a : Result α).bind f = f a := rfl

theorem bind_error {α β : Type} (e : Failure) (f : α → Result β) :
    (Except.error e : Result α).bind f = .error e := rfl

theorem readSectorCompressedFile_length (lib : Lib) (m : MPQ) (offset : Int)
    (block : BlockEntry) (name data : List Nat)
    (h : m.readSectorCompressedFile lib offset block name = .ok data) :
    data.length = block.UncompressedSize := by
  unfold MPQ.readSectorCompressedFile at h
  by_cases hsize : m.sectorSize = 0
  · rewrite [if_pos hsize] at h
    cases h
  · rewrite [if_neg hsize] at h
    cases hoffs : m.sectorOffsets lib offset block name with
    | error e =>
      rewrite [hoffs, bind_error] at h
      cases h
    | ok offsets =>
      rewrite [hoffs, bind_ok] at h
      cases hloop : m.sectorLoop lib offset block (m.fileKey lib name block offset) offsets
          (m.sectorCount block) 0 [] with
      | error e =>
        rewrite [hloop, bind_error] at h
        cases h
      | ok out =>
        rewrite [hloop, bind_ok] at h
        cases h
        exact resliceTo_length _ _

/-- C9 (as amended). Unsupported compression is rejected per file. For the block entry that
`MPQ.ReadFile` resolves the name to: (1) if it is a single-unit file with a compression flag
whose payload (decrypted when flagged) starts with a byte other than `0x02`, `ReadFile` returns
the unsupported-compression error of that byte; (2) if it is a sector-compressed file (sector
size not zero, offset table read) with a sector `i0` whose stored size differs from its
expected size and whose first byte is not `0x02`, and every sector before `i0` is read and
decoded without error, `ReadFile` returns the unsupported-compression error of that byte.
In both cases no bytes are returned. -/
theorem ReadFile_unsupported_compression (lib : Lib) (m : MPQ) (name : List Nat)
    (c : HashEntry) (cs : List HashEntry) (block : BlockEntry)
    (hfind : m.findHashEntries lib name = .ok (c :: cs))
    (hblock : m.blockTable[(selectEntry c cs).BlockIdx]? = some block) :
    (∀ raw tag rest,
      block.Flags &&& MPQ_FILE_SINGLE_UNIT ≠ 0 →
      block.Flags &&& MPQ_FILE_COMPRESS_MASK ≠ 0 →
      readAt m.f block.CompressedSize (block.Offset : Int) = some raw →
      (if block.Flags &&& MPQ_FILE_ENCRYPTED ≠ 0 then
          mpqDecrypt raw (m.fileKey lib name block (block.Offset : Int))
        else raw) = tag :: rest →
      tag ≠ 0x02 →
      m.ReadFile lib name = .error (.error (.unsupportedCompression tag))) ∧
    (∀ offsets i0 start stop raw tag rest,
      block.Flags &&& MPQ_FILE_SINGLE_UNIT = 0 →
      block.Flags &&& MPQ_FILE_COMPRESS_MASK ≠ 0 →
      m.sectorSize ≠ 0 →
      m.sectorOffsets lib (block.Offset : Int) block name = .ok offsets →
      i0 < m.sectorCount block →
      (∀ i, i < i0 → ∃ d, m.sectorStep lib (block.Offset : Int) block
        (m.fileKey lib name block (block.Offset : Int)) offsets i = .ok d) →
      offsets[i0]? = some start → offsets[i0 + 1]? = some stop →
      readAt m.f ((stop + 2 ^ 32 - start) % 2 ^ 32) ((block.Offset : Int) + toInt32 start)
        = some raw →
      (if block.Flags &&& MPQ_FILE_ENCRYPTED ≠ 0 then
          mpqDecrypt raw ((m.fileKey lib name block (block.Offset : Int) + i0) % 2 ^ 32)
        else raw) = tag :: rest →
      (stop + 2 ^ 32 - start) % 2 ^ 32 ≠ sectorExpected block m.sectorSize i0 →
      tag ≠ 0x02 →
      m.ReadFile lib name = .error (.error (.unsupportedCompression tag))) := by
  have hread : m.ReadFile lib name = m.readBlock lib name block := by
    rw [MPQ.ReadFile, hfind]
    simp only [hblock]
  constructor
  · intro raw tag rest hsingle hmask hraw hpay htag
    rw [hread, MPQ.readBlock]
    simp only []
    rw [if_pos hsingle, hraw]
    simp only []
    rw [if_neg hmask, hpay, decompressSingleUnit]
    rw [if_neg (by simpa [MPQ_COMPRESSION_ZLIB] using htag)]
  · intro offsets i0 start stop raw tag rest hsingle hmask hsize hoffs hi0 hprev hstart hstop
      hraw hpay hstored htag
    have hstep : m.sectorStep lib (block.Offset : Int) block
        (m.fileKey lib name block (block.Offset : Int)) offsets i0
        = .error (.error (.unsupportedCompression tag)) := by
      rw [MPQ.sectorStep, hstart, hstop]
      simp only []
      rw [hraw]
      simp only []
      rw [if_neg hstored, hpay]
      simp only []
      rw [if_neg (by simpa [MPQ_COMPRESSION_ZLIB] using htag)]
    rw [hread, MPQ.readBlock]
    simp only []
    rewrite [if_neg (by simpa using hsingle), if_pos hmask, MPQ.readSectorCompressedFile,
      if_neg hsize, hoffs, bind_ok,
      sectorLoop_error_at lib m _ block _ offsets i0 _ hstep (m.sectorCount block) 0 []
        (Nat.zero_le _) (by rw [Nat.zero_add]; exact hi0) (fun j _ hj => hprev j hj),
      bind_error]
    exact Eq.refl _

/-- Witness of C9 in the sample archive: the single-unit file `bad\unit.bin` with payload
`08 00`, and the sector-compressed file `bad\first.bin` whose first sector is `08 00`. -/
theorem ReadFile_unsupported_compression_witness :
    sampleArchive.ReadFile exampleLib (ascii "bad\\unit.bin")
      = .error (.error (.unsupportedCompression 8)) ∧
    sampleArchive.ReadFile exampleLib (ascii "bad\\first.bin")
      = .error (.error (.unsupportedCompression 8)) :=
  ⟨(ReadFile_unsupported_compression exampleLib sampleArchive (ascii "bad\\unit.bin")
      { NameA := 190258477, NameB := 2551504893, Locale := 0, Platform := 0, BlockIdx := 1 } []
      { Offset := 33, CompressedSize := 2, UncompressedSize := 4, Flags := 0x81000200 }
      (by decide!) (by decide!)).1 [8, 0] 8 [0] (by decide) (by decide) (by decide!)
      (by decide!) (by decide),
   (ReadFile_unsupported_compression exampleLib sampleArchive (ascii "bad\\first.bin")
      { NameA := 1646996702, NameB := 2133843374, Locale := 0, Platform := 0, BlockIdx := 2 } []
      { Offset := 35, CompressedSize := 10, UncompressedSize := 5, Flags := 0x80000200 }
      (by decide!) (by decide!)).2 [8, 10] 0 8 10 [8, 0] 8 [0] (by decide) (by decide)
      (by decide) (by decide!) (by decide) (by intro i hi; omega) (by decide) (by decide)
      (by decide!) (by decide!) (by decide) (by decide)⟩

/-- C9 as stated fails: the sector-compressed file `bad\second.bin` of the sample archive has
a sector (the second, bytes `08 00`) whose stored size 2 differs from its expected size 1 and
whose first byte is not `0x02`, yet `ReadFile` returns the zlib error of the first sector
(`02 00 00`, not a zlib stream), not the unsupported-compression error. -/
theorem ReadFile_unsupported_compression_counterexample :
    Open exampleLib sampleFile = .ok sampleArchive ∧
    sampleArchive.findHashEntries exampleLib (ascii "bad\\second.bin")
      = .ok [{ NameA := 1136787292, NameB := 2098542225, Locale := 0, Platform := 0,
               BlockIdx := 3 }] ∧
    sampleArchive.blockTable[3]?
      = some { Offset := 45, CompressedSize := 17, UncompressedSize := 513,
               Flags := 0x80000200 } ∧
    sampleArchive.sectorOffsets exampleLib 45
      { Offset := 45, CompressedSize := 17, UncompressedSize := 513, Flags := 0x80000200 }
      (ascii "bad\\second.bin") = .ok [12, 15, 17] ∧
    readAt sampleArchive.f ((17 + 2 ^ 32 - 15) % 2 ^ 32) (45 + toInt32 15) = some [8, 0] ∧
    (17 + 2 ^ 32 - 15) % 2 ^ 32 ≠ sectorExpected
      { Offset := 45, CompressedSize := 17, UncompressedSize := 513, Flags := 0x80000200 }
      sampleArchive.sectorSize 1 ∧
    sampleArchive.ReadFile exampleLib (ascii "bad\\second.bin") = .error (.error .zlib) := by
  refine ⟨Open_sampleFile, ?_, ?_, ?_, ?_, ?_, ?_⟩ <;> decide!

theorem ReadFile_ok_inv (lib : Lib) (m : MPQ) (name data : List Nat)
    (h : m.ReadFile lib name = .ok data) :
    ∃ c cs block, m.findHashEntries lib name = .ok (c :: cs) ∧
      m.blockTable[(selectEntry c cs).BlockIdx]? = some block ∧
      m.readBlock lib name block = .ok data := by
  unfold MPQ.ReadFile at h
  split at h
  · cases h
  · cases h
  · rename_i c cs hfind
    split at h
    · cases h
    · rename_i block hblock
      exact ⟨c, cs, block, hfind, hblock, h⟩

/-- C10 (as amended). Whenever `MPQ.ReadFile` succeeds on a file that is not single-unit
(sector-compressed or plain), the returned byte sequence has length exactly the block entry's
`UncompressedSize`; on a single-unit file without compression it has length exactly the block
entry's `CompressedSize`. The decompressor is an arbitrary function. -/
theorem ReadFile_length (lib : Lib) (m : MPQ) (name data : List Nat)
    (h : m.ReadFile lib name = .ok data) :
    ∃ c cs block, m.findHashEntries lib name = .ok (c :: cs) ∧
      m.blockTable[(selectEntry c cs).BlockIdx]? = some block ∧
      (block.Flags &&& MPQ_FILE_SINGLE_UNIT = 0 → data.length = block.UncompressedSize) ∧
      (block.Flags &&& MPQ_FILE_SINGLE_UNIT ≠ 0 → block.Flags &&& MPQ_FILE_COMPRESS_MASK = 0 →
        data.length = block.CompressedSize) := by
  obtain ⟨c, cs, block, hfind, hblock, hrb⟩ := ReadFile_ok_inv lib m name data h
  refine ⟨c, cs, block, hfind, hblock, ?_, ?_⟩
  · intro hsingle
    rw [MPQ.readBlock] at hrb
    simp only [] at hrb
    rw [if_neg (by simpa using hsingle)] at hrb
    by_cases hmask : block.Flags &&& MPQ_FILE_COMPRESS_MASK ≠ 0
    · rw [if_pos hmask] at hrb
      exact readSectorCompressedFile_length lib m _ block name data hrb
    · rw [if_neg hmask] at hrb
      cases hout : readAt m.f block.UncompressedSize (block.Offset : Int) with
      | none =>
        rw [hout] at hrb
        cases hrb
      | some out =>
        rw [hout] at hrb
        cases hrb
        exact readAt_length _ _ _ _ hout
  · intro hsingle hmask
    rw [MPQ.readBlock] at hrb
    simp only [] at hrb
    rw [if_pos hsingle] at hrb
    cases hraw : readAt m.f block.CompressedSize (block.Offset : Int) with
    | none =>
      rw [hraw] at hrb
      cases hrb
    | some raw =>
      rw [hraw] at hrb
      simp only [] at hrb
      rw [if_pos hmask] at hrb
      cases hrb
      split
      · rw [mpqDecrypt_length]; exact readAt_length _ _ _ _ hraw
      · exact readAt_length _ _ _ _ hraw

/-- Witness of C10: the plain file `plain.bin` of the sample archive, 3 bytes. -/
theorem ReadFile_length_witness :
    sampleArchive.ReadFile exampleLib (ascii "plain.bin") = .ok (ascii "abc") ∧
    ∃ c cs block, sampleArchive.findHashEntries exampleLib (ascii "plain.bin") = .ok (c :: cs) ∧
      sampleArchive.blockTable[(selectEntry c cs).BlockIdx]? = some block ∧
      (block.Flags &&& MPQ_FILE_SINGLE_UNIT = 0 →
        (ascii "abc").length = block.UncompressedSize) ∧
      (block.Flags &&& MPQ_FILE_SINGLE_UNIT ≠ 0 → block.Flags &&& MPQ_FILE_COMPRESS_MASK = 0 →
        (ascii "abc").length = block.CompressedSize) :=
  ⟨by decide!, ReadFile_length exampleLib sampleArchive (ascii "plain.bin") (ascii "abc")
    (by decide!)⟩

/-- C10 as stated fails: `odd.bin` of the sample archive is a single-unit file without
compression whose block entry has `CompressedSize` 1 and `UncompressedSize` 2; `ReadFile`
succeeds and returns 1 byte. -/
theorem ReadFile_length_counterexample :
    Open exampleLib sampleFile = .ok sampleArchive ∧
    sampleArchive.findHashEntries exampleLib (ascii "odd.bin")
      = .ok [{ NameA := 4133051566, NameB := 2825509013, Locale := 0, Platform := 0,
               BlockIdx := 4 }] ∧
    sampleArchive.blockTable[4]?
      = some { Offset := 32, CompressedSize := 1, UncompressedSize := 2,
               Flags := 0x81000000 } ∧
    sampleArchive.ReadFile exampleLib (ascii "odd.bin") = .ok [0x31] ∧
    ([0x31] : List Nat).length ≠ 2 := by
  refine ⟨Open_sampleFile, ?_, ?_, ?_, ?_⟩ <;> decide!


/-! ## Opened archives and missing names -/

/-- The tables of an opened archive have the lengths its header declares. -/
theorem Open_tables_length (lib : Lib) (file : List Nat) (m : MPQ)
    (h : Open lib file = .ok m) :
    m.hashTable.length = m.header.HashTableEntries ∧
    m.blockTable.length = m.header.BlockTableEntries := by
  unfold Open at h
  cases h1 : readAt file 32 0 with
  | none => rewrite [h1] at h; cases h
  | some hb =>
    rewrite [h1] at h
    simp only [] at h
    by_cases hid : (parseHeader hb).ID ≠ 0x1A51504D
    · rewrite [if_pos hid] at h; cases h
    · rewrite [if_neg hid] at h
      cases h2 : readEncryptedTable file (parseHeader hb).HashTableOffset
          (parseHeader hb).HashTableEntries
          (mpqHashString lib (ascii "(hash table)") MPQ_HASH_FILE_KEY) with
      | error e => rewrite [h2] at h; cases h
      | ok hbuf =>
        rewrite [h2] at h
        simp only [] at h
        cases h3 : readEncryptedTable file (parseHeader hb).BlockTableOffset
            (parseHeader hb).BlockTableEntries
            (mpqHashString lib (ascii "(block table)") MPQ_HASH_FILE_KEY) with
        | error e => rewrite [h3] at h; cases h
        | ok bbuf =>
          rewrite [h3] at h
          cases h
          simp

/-- With a table of the declared, non-zero length the probe loop ends without a panic. -/
theorem probeLoop_ok (m : MPQ) (start hashA hashB : Nat)
    (hlen : m.hashTable.length = m.header.HashTableEntries)
    (hpos : 0 < m.header.HashTableEntries) :
    ∀ (n i : Nat) (found : List HashEntry),
      ∃ r, probeLoop m start hashA hashB n i found = .ok r := by
  intro n
  induction n with
  | zero => intro i found; exact ⟨found, rfl⟩
  | succ n ih =>
    intro i found
    have hidx : ((start + i) % 2 ^ 32) % m.header.HashTableEntries < m.hashTable.length := by
      rw [hlen]; exact Nat.mod_lt _ hpos
    rw [probeLoop, List.getElem?_eq_getElem hidx]
    simp only []
    split
    · exact ⟨found, rfl⟩
    · split
      · exact ih _ _
      · split
        · exact ih _ _
        · exact ih _ _


/-- A sector step never returns the "file not found" error. -/
theorem sectorStep_ne_notFound (lib : Lib) (m : MPQ) (offset : Int) (block : BlockEntry)
    (key : Nat) (offsets : List Nat) (i : Nat) :
    m.sectorStep lib offset block key offsets i ≠ .error (.error .fileNotFound) := by
  unfold MPQ.sectorStep
  cases h1 : offsets[i]? with
  | none => simp
  | some start =>
    cases h2 : offsets[i + 1]? with
    | none => simp
    | some stop =>
      simp only []
      cases h3 : readAt m.f ((stop + 2 ^ 32 - start) % 2 ^ 32) (offset + toInt32 start) with
      | none => simp
      | some raw =>
        simp only []
        split
        · simp
        · split
          · simp
          · split
            · split <;> simp
            · simp

theorem sectorLoop_ne_notFound (lib : Lib) (m : MPQ) (offset : Int) (block : BlockEntry)
    (key : Nat) (offsets : List Nat) : ∀ (n i : Nat) (out : List Nat),
    m.sectorLoop lib offset block key offsets n i out ≠ .error (.error .fileNotFound) := by
  intro n
  induction n with
  | zero => intro i out; simp [MPQ.sectorLoop]
  | succ n ih =>
    intro i out
    rw [MPQ.sectorLoop]
    cases hs : m.sectorStep lib offset block key offsets i with
    | error e =>
      simp only []
      intro h
      exact sectorStep_ne_notFound lib m offset block key offsets i (hs.trans h)
    | ok data => exact ih _ _


theorem readSectorCompressedFile_ne_notFound (lib : Lib) (m : MPQ) (offset : Int)
    (block : BlockEntry) (name : List Nat) :
    m.readSectorCompressedFile lib offset block name ≠ .error (.error .fileNotFound) := by
  unfold MPQ.readSectorCompressedFile
  by_cases hsize : m.sectorSize = 0
  · rewrite [if_pos hsize]
    intro h; cases h
  · rewrite [if_neg hsize]
    cases hoffs : m.sectorOffsets lib offset block name with
    | error e =>
      rewrite [bind_error]
      intro h
      cases h
      unfold MPQ.sectorOffsets at hoffs
      cases hr : readAt m.f ((m.tableDWORDs block * 4) % 2 ^ 32) offset with
      | none => rewrite [hr] at hoffs; cases hoffs
      | some raw =>
        rewrite [hr] at hoffs
        simp only [] at hoffs
        split at hoffs <;> split at hoffs <;> cases hoffs
    | ok offsets =>
      rewrite [bind_ok]
      cases hloop : m.sectorLoop lib offset block (m.fileKey lib name block offset) offsets
          (m.sectorCount block) 0 [] with
      | error e =>
        rewrite [bind_error]
        intro h
        exact sectorLoop_ne_notFound lib m offset block _ offsets _ 0 [] (hloop.trans h)
      | ok out =>
        rewrite [bind_ok]
        intro h; cases h

/-- Once a block entry is fetched, `ReadFile` never returns the "file not found" error. -/
theorem readBlock_ne_notFound (lib : Lib) (m : MPQ) (name : List Nat) (block : BlockEntry) :
    m.readBlock lib name block ≠ .error (.error .fileNotFound) := by
  unfold MPQ.readBlock
  simp only []
  by_cases hsingle : block.Flags &&& MPQ_FILE_SINGLE_UNIT ≠ 0
  · rewrite [if_pos hsingle]
    cases hraw : readAt m.f block.CompressedSize (block.Offset : Int) with
    | none => intro h; cases h
    | some raw =>
      simp only []
      by_cases hmask : block.Flags &&& MPQ_FILE_COMPRESS_MASK = 0
      · rewrite [if_pos hmask]
        intro h; cases h
      · rewrite [if_neg hmask]
        unfold decompressSingleUnit
        split
        · intro h; cases h
        · split
          · split <;> (intro h; cases h)
          · intro h; cases h
  · rewrite [if_neg hsingle]
    by_cases hmask : block.Flags &&& MPQ_FILE_COMPRESS_MASK ≠ 0
    · rewrite [if_pos hmask]
      exact readSectorCompressedFile_ne_notFound lib m _ block name
    · rewrite [if_neg hmask]
      cases hout : readAt m.f block.UncompressedSize (block.Offset : Int) with
      | none => intro h; cases h
      | some out => intro h; cases h

/-- On an archive whose hash table has the declared, non-zero number of entries, the probe
returns a candidate list, and `MPQ.ReadFile` returns the "file not found" error if and only if
that list is empty. -/
theorem ReadFile_notFound_iff (lib : Lib) (m : MPQ) (name : List Nat)
    (hlen : m.hashTable.length = m.header.HashTableEntries)
    (hpos : 0 < m.header.HashTableEntries) :
    (∃ found, m.findHashEntries lib name = .ok found) ∧
    (m.ReadFile lib name = .error (.error .fileNotFound) ↔
      m.findHashEntries lib name = .ok []) := by
  have hex : ∃ found, m.findHashEntries lib name = .ok found := by
    unfold MPQ.findHashEntries
    simp only []
    rw [if_neg (by omega)]
    exact probeLoop_ok m _ _ _ hlen hpos _ _ _
  refine ⟨hex, ?_⟩
  obtain ⟨found, hfound⟩ := hex
  unfold MPQ.ReadFile
  rw [hfound]
  cases found with
  | nil => simp
  | cons c cs =>
    simp only []
    constructor
    · intro h
      exfalso
      cases hb : m.blockTable[(selectEntry c cs).BlockIdx]? with
      | none => rw [hb] at h; cases h
      | some block =>
        rw [hb] at h
        exact readBlock_ne_notFound lib m name block h
    · intro h
      cases h


/-! ## Claims on the palettes of the texture codec -/

/-- A 5-bit value expands within a byte: the `uint8` arithmetic of `rgb565` truncates
nothing. -/
theorem expand5_uint8 (v : Nat) (h : v < 32) :
    ((v % 256) <<< 3) % 256 ||| (v % 256) >>> 2 = blp.expand5 v ∧ blp.expand5 v < 256 := by
  have h1 : v % 256 = v := Nat.mod_eq_of_lt (by omega)
  have h2 : (v <<< 3) % 256 = v <<< 3 := by
    rw [Nat.shiftLeft_eq]; exact Nat.mod_eq_of_lt (by omega)
  rw [h1, h2]
  refine ⟨rfl, ?_⟩
  unfold blp.expand5
  apply Nat.or_lt_two_pow (n := 8)
  · rw [Nat.shiftLeft_eq]; omega
  · rw [Nat.shiftRight_eq_div_pow]; omega

/-- A 6-bit value expands within a byte. -/
theorem expand6_uint8 (v : Nat) (h : v < 64) :
    ((v % 256) <<< 2) % 256 ||| (v % 256) >>> 4 = blp.expand6 v ∧ blp.expand6 v < 256 := by
  have h1 : v % 256 = v := Nat.mod_eq_of_lt (by omega)
  have h2 : (v <<< 2) % 256 = v <<< 2 := by
    rw [Nat.shiftLeft_eq]; exact Nat.mod_eq_of_lt (by omega)
  rw [h1, h2]
  refine ⟨rfl, ?_⟩
  unfold blp.expand6
  apply Nat.or_lt_two_pow (n := 8)
  · rw [Nat.shiftLeft_eq]; omega
  · rw [Nat.shiftRight_eq_div_pow]; omega

/-- The three channels that `rgb565` returns are the expanded bit fields of the colour. -/
theorem rgb565_eq_endpointSpec (c : Nat) :
    [(blp.rgb565 c).1, (blp.rgb565 c).2.1, (blp.rgb565 c).2.2] = blp.endpointSpec c := by
  have hr : (c >>> 11) &&& 0x1F = (c / 2 ^ 11) % 2 ^ 5 := by
    rw [Nat.shiftRight_eq_div_pow]; exact Nat.and_pow_two_sub_one_eq_mod _ 5
  have hg : (c >>> 5) &&& 0x3F = (c / 2 ^ 5) % 2 ^ 6 := by
    rw [Nat.shiftRight_eq_div_pow]; exact Nat.and_pow_two_sub_one_eq_mod _ 6
  have hb : c &&& 0x1F = c % 2 ^ 5 := Nat.and_pow_two_sub_one_eq_mod _ 5
  unfold blp.rgb565 blp.endpointSpec
  have lr : (c / 2 ^ 11) % 2 ^ 5 < 32 := Nat.mod_lt _ (by decide)
  have lg : (c / 2 ^ 5) % 2 ^ 6 < 64 := Nat.mod_lt _ (by decide)
  have lb : c % 2 ^ 5 < 32 := Nat.mod_lt _ (by decide)
  simp only [hr, hg, hb]
  rw [(expand5_uint8 _ lr).1, (expand6_uint8 _ lg).1, (expand5_uint8 _ lb).1]

/-- Every channel of an expanded endpoint is a byte. -/
theorem endpointSpec_lt (c : Nat) : ∀ v ∈ blp.endpointSpec c, v < 256 := by
  intro v hv
  unfold blp.endpointSpec at hv
  simp only [List.mem_cons, List.mem_singleton, List.not_mem_nil, or_false] at hv
  rcases hv with rfl | rfl | rfl
  · exact (expand5_uint8 _ (show (c / 2 ^ 11) % 2 ^ 5 < 32 from Nat.mod_lt _ (by decide))).2
  · exact (expand6_uint8 _ (show (c / 2 ^ 5) % 2 ^ 6 < 64 from Nat.mod_lt _ (by decide))).2
  · exact (expand5_uint8 _ (show c % 2 ^ 5 < 32 from Nat.mod_lt _ (by decide))).2

/-- C16 (as the code behaves). `rgb565(0xF800)` (red-max) is the bit-replicated triple
`(255, 0, 0)`: the five red bits `11111` are shifted to `11111000` and their top three bits
refill the low three bits. -/
theorem rgb565_red_max : blp.rgb565 0xF800 = (255, 0, 0) ∧
    (blp.rgb565 0xF800).1 = blp.expand5 0x1F := by
  decide

/-- Witness of C16: the value of `rgb565` at `0xF800`, channel by channel. -/
theorem rgb565_red_max_witness :
    (blp.rgb565 0xF800).1 = 255 ∧ (blp.rgb565 0xF800).2.1 = 0 ∧ (blp.rgb565 0xF800).2.2 = 0 :=
  ⟨congrArg Prod.fst rgb565_red_max.1, congrArg (fun t => t.2.1) rgb565_red_max.1,
    congrArg (fun t => t.2.2) rgb565_red_max.1⟩

/-- Counterexample to C16 as stated: `rgb565(0xF800)` is not `(248, 0, 0)`; the red channel
is 255, and 248 is the zero-filled value `11111000`. -/
theorem rgb565_red_max_counterexample :
    blp.rgb565 0xF800 ≠ (248, 0, 0) ∧ (blp.rgb565 0xF800).1 = 255 ∧ 0x1F <<< 3 = 248 := by
  decide

/-- C17. `colorPalette` equals the reference palette for every pair of endpoints `c0`, `c1`,
whatever their order: slots 0 and 1 are the endpoints with each channel expanded by bit
replication, slot 2 is per channel `floor((2*e0 + e1)/3)` and slot 3 is
`floor((e0 + 2*e1)/3)` of the expanded values, and every entry fits in 8 bits, so the `uint8`
conversions of the code truncate nothing. -/
theorem colorPalette_eq_reference (c0 c1 : Nat) :
    blp.colorPalette c0 c1 = blp.colorPaletteSpec c0 c1 ∧
    (blp.colorPaletteSpec c0 c1).length = 4 ∧
    (∀ row ∈ blp.colorPaletteSpec c0 c1, row.length = 3 ∧ ∀ v ∈ row, v < 256) := by
  have e0 := rgb565_eq_endpointSpec c0
  have e1 := rgb565_eq_endpointSpec c1
  have b0 := endpointSpec_lt c0
  have b1 := endpointSpec_lt c1
  unfold blp.colorPalette blp.colorPaletteSpec
  rw [← e0] at b0
  rw [← e1] at b1
  rw [← e0, ← e1]
  simp only [List.mem_cons, List.mem_singleton, List.not_mem_nil, or_false, forall_eq_or_imp,
    forall_eq] at b0 b1
  obtain ⟨hr0, hg0, hb0⟩ := b0
  obtain ⟨hr1, hg1, hb1⟩ := b1
  have m : ∀ a b : Nat, a < 256 → b < 256 → ((2 * a + b) / 3) % 256 = (2 * a + b) / 3 :=
    fun a b ha hb => Nat.mod_eq_of_lt (by omega)
  have n : ∀ a b : Nat, a < 256 → b < 256 → ((a + 2 * b) / 3) % 256 = (a + 2 * b) / 3 :=
    fun a b ha hb => Nat.mod_eq_of_lt (by omega)
  refine ⟨?_, rfl, ?_⟩
  · simp only [List.zipWith_cons_cons, List.zipWith_nil_right, m _ _ hr0 hr1, m _ _ hg0 hg1,
      m _ _ hb0 hb1, n _ _ hr0 hr1, n _ _ hg0 hg1, n _ _ hb0 hb1]
  · simp only [List.zipWith_cons_cons, List.zipWith_nil_right, List.mem_cons,
      List.mem_singleton, List.not_mem_nil, or_false, forall_eq_or_imp, forall_eq,
      List.length_cons, List.length_nil, true_and]
    refine ⟨⟨hr0, hg0, hb0⟩, ⟨hr1, hg1, hb1⟩, ⟨?_, ?_, ?_⟩, ⟨?_, ?_, ?_⟩⟩ <;> omega

/-- The array that `alphaPalette` returns, slot by slot. -/
theorem alphaPalette_eq_list (a0 a1 : Nat) (h0 : a0 < 256) (h1 : a1 < 256) :
    blp.alphaPalette a0 a1 =
      if a0 > a1 then
        [a0, a1, (6 * a0 + a1) / 7, (5 * a0 + 2 * a1) / 7, (4 * a0 + 3 * a1) / 7,
          (3 * a0 + 4 * a1) / 7, (2 * a0 + 5 * a1) / 7, (a0 + 6 * a1) / 7]
      else
        [a0, a1, (4 * a0 + a1) / 5, (3 * a0 + 2 * a1) / 5, (2 * a0 + 3 * a1) / 5,
          (a0 + 4 * a1) / 5, 0, 255] := by
  unfold blp.alphaPalette
  split
  · simp [List.range', List.replicate]
    refine ⟨?_, ?_, ?_, ?_, ?_, ?_⟩ <;> omega
  · simp [List.range', List.replicate]
    refine ⟨?_, ?_, ?_, ?_⟩ <;> omega

/-- C19. `alphaPalette` equals the reference for all bytes `a0`, `a1`: the array has eight
slots, slots 0 and 1 are `a0` and `a1`; if `a0 > a1` then slot `i` (`2 <= i <= 7`) is
`floor(((8-i)*a0 + (i-1)*a1)/7)`; otherwise (including `a0 = a1`) slot `i` (`2 <= i <= 5`) is
`floor(((6-i)*a0 + (i-1)*a1)/5)`, slot 6 is 0 and slot 7 is 255. -/
theorem alphaPalette_eq_reference (a0 a1 : Nat) (h0 : a0 < 256) (h1 : a1 < 256) :
    (blp.alphaPalette a0 a1).length = 8 ∧
    (blp.alphaPalette a0 a1)[0]? = some a0 ∧ (blp.alphaPalette a0 a1)[1]? = some a1 ∧
    (a0 > a1 → ∀ i, 2 ≤ i → i ≤ 7 →
      (blp.alphaPalette a0 a1)[i]? = some (((8 - i) * a0 + (i - 1) * a1) / 7)) ∧
    (a0 ≤ a1 →
      (∀ i, 2 ≤ i → i ≤ 5 →
        (blp.alphaPalette a0 a1)[i]? = some (((6 - i) * a0 + (i - 1) * a1) / 5)) ∧
      (blp.alphaPalette a0 a1)[6]? = some 0 ∧ (blp.alphaPalette a0 a1)[7]? = some 255) := by
  rw [alphaPalette_eq_list a0 a1 h0 h1]
  by_cases h : a0 > a1
  · rw [if_pos h]
    refine ⟨rfl, rfl, rfl, ?_, fun hle => absurd h (by omega)⟩
    intro _ i hi2 hi7
    interval_cases i <;> simp
  · rw [if_neg h]
    refine ⟨rfl, rfl, rfl, fun hgt => absurd hgt h, fun _ => ⟨?_, rfl, rfl⟩⟩
    intro i hi2 hi5
    interval_cases i <;> simp

/-- Witness of C19: the palettes of `(255, 0)`, of `(0, 255)` and of `(7, 7)`. -/
theorem alphaPalette_eq_reference_witness :
    blp.alphaPalette 255 0 = [255, 0, 218, 182, 145, 109, 72, 36] ∧
    blp.alphaPalette 0 255 = [0, 255, 51, 102, 153, 204, 0, 255] ∧
    blp.alphaPalette 7 7 = [7, 7, 7, 7, 7, 7, 0, 255] ∧
    (blp.alphaPalette 255 0)[2]? = some (((8 - 2) * 255 + (2 - 1) * 0) / 7) ∧
    (blp.alphaPalette 7 7)[6]? = some 0 :=
  ⟨by decide, by decide, by decide,
    (alphaPalette_eq_reference 255 0 (by decide) (by decide)).2.2.2.1 (by decide) 2
      (by decide) (by decide),
    ((alphaPalette_eq_reference 7 7 (by decide) (by decide)).2.2.2.2 (by decide)).2.1⟩

/-- C20. The ramp of `alphaPalette` is monotonic: for all bytes `a0 > a1` the eight entries
taken in the order slot 0, 2, 3, 4, 5, 6, 7, 1 are non-increasing and all lie in `[a1, a0]`;
for all bytes `a0 <= a1` the six entries in the order slot 0, 2, 3, 4, 5, 1 are
non-decreasing and lie in `[a0, a1]`, and slots 6 and 7 are 0 and 255. -/
theorem alphaPalette_ramp_monotonic (a0 a1 : Nat) (h0 : a0 < 256) (h1 : a1 < 256) :
    (a0 > a1 →
      List.Pairwise (fun u v => u ≥ v) (blp.ramp8 (blp.alphaPalette a0 a1)) ∧
      ∀ v ∈ blp.ramp8 (blp.alphaPalette a0 a1), a1 ≤ v ∧ v ≤ a0) ∧
    (a0 ≤ a1 →
      List.Pairwise (fun u v => u ≤ v) (blp.ramp6 (blp.alphaPalette a0 a1)) ∧
      (∀ v ∈ blp.ramp6 (blp.alphaPalette a0 a1), a0 ≤ v ∧ v ≤ a1) ∧
      (blp.alphaPalette a0 a1)[6]? = some 0 ∧ (blp.alphaPalette a0 a1)[7]? = some 255) := by
  rw [alphaPalette_eq_list a0 a1 h0 h1]
  constructor
  · intro h
    rw [if_pos h]
    simp only [blp.ramp8, List.getD_cons_zero, List.getD_cons_succ, List.pairwise_cons,
      List.mem_cons, List.mem_singleton, List.not_mem_nil, or_false, forall_eq_or_imp,
      forall_eq, List.Pairwise.nil, and_true, IsEmpty.forall_iff, implies_true]
    refine ⟨⟨⟨?_, ?_, ?_, ?_, ?_, ?_, ?_⟩, ⟨?_, ?_, ?_, ?_, ?_, ?_⟩, ⟨?_, ?_, ?_, ?_, ?_⟩,
      ⟨?_, ?_, ?_, ?_⟩, ⟨?_, ?_, ?_⟩, ⟨?_, ?_⟩, ?_⟩,
      ⟨?_, ?_⟩, ⟨?_, ?_⟩, ⟨?_, ?_⟩, ⟨?_, ?_⟩, ⟨?_, ?_⟩, ⟨?_, ?_⟩, ⟨?_, ?_⟩, ⟨?_, ?_⟩⟩ <;> omega
  · intro h
    rw [if_neg (by omega)]
    simp only [blp.ramp6, List.getD_cons_zero, List.getD_cons_succ, List.pairwise_cons,
      List.mem_cons, List.mem_singleton, List.not_mem_nil, or_false, forall_eq_or_imp,
      forall_eq, List.Pairwise.nil, and_true, IsEmpty.forall_iff, implies_true]
    refine ⟨⟨⟨?_, ?_, ?_, ?_, ?_⟩, ⟨?_, ?_, ?_, ?_⟩, ⟨?_, ?_, ?_⟩, ⟨?_, ?_⟩, ?_⟩,
      ⟨⟨?_, ?_⟩, ⟨?_, ?_⟩, ⟨?_, ?_⟩, ⟨?_, ?_⟩, ⟨?_, ?_⟩, ⟨?_, ?_⟩⟩, rfl, rfl⟩ <;> omega

/-- Witness of C20: the ramp of `(255, 0)` is 255, 218, 182, 145, 109, 72, 36, 0 and the ramp
of `(0, 255)` is 0, 51, 102, 153, 204, 255. -/
theorem alphaPalette_ramp_monotonic_witness :
    blp.ramp8 (blp.alphaPalette 255 0) = [255, 218, 182, 145, 109, 72, 36, 0] ∧
    blp.ramp6 (blp.alphaPalette 0 255) = [0, 51, 102, 153, 204, 255] ∧
    List.Pairwise (fun u v => u ≥ v) (blp.ramp8 (blp.alphaPalette 255 0)) ∧
    List.Pairwise (fun u v => u ≤ v) (blp.ramp6 (blp.alphaPalette 0 255)) :=
  ⟨by decide, by decide,
    ((alphaPalette_ramp_monotonic 255 0 (by decide) (by decide)).1 (by decide)).1,
    ((alphaPalette_ramp_monotonic 0 255 (by decide) (by decide)).2 (by decide)).1⟩

/-! ## Claims on the header of a texture -/

/-- The loop `readWords` advances the position by 4 for each word. -/
theorem readWords_snd (b : List Nat) (n o : Nat) : (blp.readWords b n o).2 = o + 4 * n := by
  induction n generalizing o with
  | zero => rfl
  | succ n ih => rw [blp.readWords, ih]; omega

/-- The loop `readWords` returns `n` words. -/
theorem readWords_length (b : List Nat) (n o : Nat) : (blp.readWords b n o).1.length = n := by
  induction n generalizing o with
  | zero => rfl
  | succ n ih => rw [blp.readWords, List.length_cons, ih]

/-- Word `i` of the loop `readWords` is the little-endian word at position `o + 4 * i`. -/
theorem readWords_getElem? (b : List Nat) (n o i : Nat) (hi : i < n) :
    (blp.readWords b n o).1[i]? = some (u32At b (o + 4 * i)) := by
  induction n generalizing o i with
  | zero => omega
  | succ n ih =>
    rw [blp.readWords]
    cases i with
    | zero => simp
    | succ i =>
      rw [List.getElem?_cons_succ, ih (o + 4) i (by omega)]
      congr 2
      omega

/-- The loop `readWords` depends on the bytes at the positions `o .. o + 4 * n - 1` only. -/
theorem readWords_congr (b c : List Nat) (n o : Nat)
    (h : ∀ i, o ≤ i → i < o + 4 * n → b.getD i 0 = c.getD i 0) :
    blp.readWords b n o = blp.readWords c n o := by
  induction n generalizing o with
  | zero => rfl
  | succ n ih =>
    rw [blp.readWords, blp.readWords, ih (o + 4) (fun i h1 h2 => h i (by omega) (by omega))]
    unfold u32At
    rw [h o (by omega) (by omega), h (o + 1) (by omega) (by omega),
      h (o + 2) (by omega) (by omega), h (o + 3) (by omega) (by omega)]

/-- A byte below position `k` is a byte of the prefix of length `k`. -/
theorem getD_take_of_lt (b : List Nat) (k i : Nat) (hi : i < k) :
    (b.take k).getD i 0 = b.getD i 0 := by
  rw [List.getD_eq_getElem?_getD, List.getD_eq_getElem?_getD, List.getElem?_take_of_lt hi]

/-- On a buffer of at least 1172 bytes `parseHeader` reads the first 1172 bytes only. -/
theorem blp_parseHeader_take (b : List Nat) (hb : 1172 ≤ b.length) :
    blp.parseHeader (b.take 1172) = blp.parseHeader b := by
  have hlen : (b.take 1172).length = 1172 := by rw [List.length_take]; omega
  have g : ∀ i, i < 1172 → (b.take 1172).getD i 0 = b.getD i 0 :=
    fun i hi => getD_take_of_lt b 1172 i hi
  have hmagic : (b.take 1172).take 4 = b.take 4 := by rw [List.take_take]; rfl
  have hw : ∀ o, o + 4 ≤ 1172 → u32At (b.take 1172) o = u32At b o := by
    intro o ho
    unfold u32At
    rw [g o (by omega), g (o + 1) (by omega), g (o + 2) (by omega), g (o + 3) (by omega)]
  have h1 : blp.readWords (b.take 1172) 16 20 = blp.readWords b 16 20 :=
    readWords_congr _ _ 16 20 (fun i _ h2 => g i (by omega))
  have h2 : blp.readWords (b.take 1172) 16 (20 + 4 * 16) = blp.readWords b 16 (20 + 4 * 16) :=
    readWords_congr _ _ 16 _ (fun i _ h2 => g i (by omega))
  have h3 : blp.readWords (b.take 1172) 256 (20 + 4 * 16 + 4 * 16)
      = blp.readWords b 256 (20 + 4 * 16 + 4 * 16) :=
    readWords_congr _ _ 256 _ (fun i _ h2 => g i (by omega))
  have hn : ¬ b.length < 1172 := by omega
  unfold blp.parseHeader blp.headerFields
  simp only [readWords_snd, hlen, hmagic, h1, h2, h3, hw 4 (by omega), hw 12 (by omega),
    hw 16 (by omega), g 8 (by omega), g 9 (by omega), g 10 (by omega), g 11 (by omega),
    lt_irrefl, if_false, hn]

/-- C13. `parseHeader(b)` succeeds if and only if `len(b) >= 1172` and the first four bytes are
the ASCII magic "BLP2", and fails with an error that is `ErrBadBLP` otherwise; on success
every field is the little-endian read at its fixed position (colour encoding `b[8]`, format
`b[10]`, width at 12, height at 16, `offsets[i]` at `20 + 4*i`, `sizes[i]` at `84 + 4*i`,
`palette[i]` at `148 + 4*i`), and no read goes past byte 1171: every buffer with the same
first 1172 bytes gives the same header. -/
theorem blp_parseHeader_spec (b : List Nat) :
    ((∃ h, blp.parseHeader b = .ok h) ↔ (1172 ≤ b.length ∧ b.take 4 = ascii "BLP2")) ∧
    (¬ (1172 ≤ b.length ∧ b.take 4 = ascii "BLP2") →
      ∃ e, blp.parseHeader b = .error (.error e) ∧ blp.isBadBLP e = true) ∧
    (∀ h, blp.parseHeader b = .ok h →
      h.Magic = ascii "BLP2" ∧ h.Version = u32At b 4 ∧
      h.ColorEncoding = b.getD 8 0 ∧ h.AlphaDepth = b.getD 9 0 ∧ h.Format = b.getD 10 0 ∧
      h.Mips = b.getD 11 0 ∧ h.Width = u32At b 12 ∧ h.Height = u32At b 16 ∧
      h.Offsets.length = 16 ∧ h.Sizes.length = 16 ∧ h.Palette.length = 256 ∧
      (∀ i, i < 16 → h.Offsets[i]? = some (u32At b (20 + 4 * i))) ∧
      (∀ i, i < 16 → h.Sizes[i]? = some (u32At b (84 + 4 * i))) ∧
      (∀ i, i < 256 → h.Palette[i]? = some (u32At b (148 + 4 * i)) ∧ 148 + 4 * i + 3 ≤ 1171) ∧
      (∀ c : List Nat, c.take 1172 = b.take 1172 → blp.parseHeader c = .ok h)) := by
  by_cases hlen : b.length < 1172
  · have e : blp.parseHeader b = .error (.error (.blpTooSmall b.length)) := by
      unfold blp.parseHeader; rw [if_pos hlen]
    refine ⟨⟨fun ⟨h, hh⟩ => ?_, fun ⟨h1, _⟩ => absurd hlen (by omega)⟩, fun _ => ⟨_, e, rfl⟩,
      fun h hh => ?_⟩
    · rw [e] at hh; cases hh
    · rw [e] at hh; cases hh
  · by_cases hmagic : b.take 4 ≠ ascii "BLP2"
    · have e : blp.parseHeader b = .error (.error (.blpBadMagic (b.take 4))) := by
        unfold blp.parseHeader; rw [if_neg hlen, if_pos hmagic]
      refine ⟨⟨fun ⟨h, hh⟩ => ?_, fun ⟨_, h2⟩ => absurd h2 hmagic⟩, fun _ => ⟨_, e, rfl⟩,
        fun h hh => ?_⟩
      · rw [e] at hh; cases hh
      · rw [e] at hh; cases hh
    · have hm : b.take 4 = ascii "BLP2" := not_not.mp hmagic
      have e : ∃ h, blp.parseHeader b = .ok h := by
        unfold blp.parseHeader; rw [if_neg hlen, if_neg hmagic]; exact ⟨_, rfl⟩
      refine ⟨⟨fun _ => ⟨by omega, hm⟩, fun _ => e⟩, fun hn => absurd ⟨by omega, hm⟩ hn,
        fun h hh => ?_⟩
      have hc : ∀ c : List Nat, c.take 1172 = b.take 1172 → blp.parseHeader c = .ok h := by
        intro c hcb
        have hcl : 1172 ≤ c.length := by
          have := congrArg List.length hcb
          rw [List.length_take, List.length_take] at this
          omega
        rw [← blp_parseHeader_take c hcl, hcb, blp_parseHeader_take b (by omega), hh]
      unfold blp.parseHeader at hh
      rw [if_neg hlen, if_neg hmagic] at hh
      injection hh with hh
      subst hh
      unfold blp.headerFields
      refine ⟨hm, rfl, rfl, rfl, rfl, rfl, rfl, rfl, readWords_length _ _ _,
        readWords_length _ _ _, readWords_length _ _ _, fun i hi => readWords_getElem? _ _ _ _ hi,
        fun i hi => ?_, fun i hi => ⟨?_, by omega⟩, hc⟩
      · exact (readWords_getElem? _ _ _ _ hi).trans (by rw [readWords_snd])
      · exact (readWords_getElem? _ _ _ _ hi).trans (by rw [readWords_snd, readWords_snd])

set_option maxRecDepth 100000 in
/-- Witness of C13: the example DXT1 texture has a header, whose width is the little-endian
word at position 12, and a buffer of four bytes is rejected with an error that is
`ErrBadBLP`. -/
theorem blp_parseHeader_spec_witness :
    (1172 ≤ dxt1Texture.length ∧ dxt1Texture.take 4 = ascii "BLP2") ∧
    (∃ h, blp.parseHeader dxt1Texture = .ok h) ∧
    (∃ e, blp.parseHeader (ascii "BLP2") = .error (.error e) ∧ blp.isBadBLP e = true) := by
  have h1 : 1172 ≤ dxt1Texture.length := by decide!
  have h2 : dxt1Texture.take 4 = ascii "BLP2" := by decide!
  have h3 : ¬ (1172 ≤ (ascii "BLP2").length ∧ (ascii "BLP2").take 4 = ascii "BLP2") := by
    decide
  exact ⟨⟨h1, h2⟩, (blp_parseHeader_spec dxt1Texture).1.2 ⟨h1, h2⟩,
    (blp_parseHeader_spec (ascii "BLP2")).2.1 h3⟩

/-! ## Claims on `DecodeBLPFromBytes` -/

/-- The loop over `bx` of `decodeDXT1` returns no error value. -/
theorem dxt1Row_ne_error (w h : Nat) (data : List Nat) (by_ n bx : Nat) (st : blp.RGBA × Nat)
    (e : GoError) : blp.dxt1Row w h data by_ n bx st ≠ .error (.error e) := by
  induction n generalizing bx st with
  | zero => intro h1; cases h1
  | succ n ih =>
    rw [blp.dxt1Row]
    split
    · exact ih _ _
    · intro h1; cases h1

/-- The loop over `by` of `decodeDXT1` returns no error value. -/
theorem dxt1Rows_ne_error (w h : Nat) (data : List Nat) (bw n by_ : Nat) (st : blp.RGBA × Nat)
    (e : GoError) : blp.dxt1Rows w h data bw n by_ st ≠ .error (.error e) := by
  induction n generalizing by_ st with
  | zero => intro h1; cases h1
  | succ n ih =>
    rw [blp.dxt1Rows]
    cases hr : blp.dxt1Row w h data by_ bw 0 st with
    | ok st2 => exact ih _ _
    | error f =>
      cases f with
      | error e2 => exact absurd hr (dxt1Row_ne_error _ _ _ _ _ _ _ _)
      | fault => intro h1; cases h1

/-- The function `decodeDXT1` returns an image or panics; it returns no error value. -/
theorem decodeDXT1_ne_error (w h : Nat) (data : List Nat) (e : GoError) :
    blp.decodeDXT1 w h data ≠ .error (.error e) := by
  unfold blp.decodeDXT1
  cases hr : blp.dxt1Rows w h data ((w + 3) / 4) ((h + 3) / 4) 0 (blp.NewRGBA w h, 0) with
  | ok st => intro h1; cases h1
  | error f =>
    cases f with
    | error e2 => exact absurd hr (dxt1Rows_ne_error _ _ _ _ _ _ _ _)
    | fault => intro h1; cases h1

/-- The loop over `bx` of `decodeDXT5` returns no error value. -/
theorem dxt5Row_ne_error (w h : Nat) (data : List Nat) (by_ n bx : Nat) (st : blp.RGBA × Nat)
    (e : GoError) : blp.dxt5Row w h data by_ n bx st ≠ .error (.error e) := by
  induction n generalizing bx st with
  | zero => intro h1; cases h1
  | succ n ih =>
    rw [blp.dxt5Row]
    split
    · exact ih _ _
    · intro h1; cases h1

/-- The loop over `by` of `decodeDXT5` returns no error value. -/
theorem dxt5Rows_ne_error (w h : Nat) (data : List Nat) (bw n by_ : Nat) (st : blp.RGBA × Nat)
    (e : GoError) : blp.dxt5Rows w h data bw n by_ st ≠ .error (.error e) := by
  induction n generalizing by_ st with
  | zero => intro h1; cases h1
  | succ n ih =>
    rw [blp.dxt5Rows]
    cases hr : blp.dxt5Row w h data by_ bw 0 st with
    | ok st2 => exact ih _ _
    | error f =>
      cases f with
      | error e2 => exact absurd hr (dxt5Row_ne_error _ _ _ _ _ _ _ _)
      | fault => intro h1; cases h1

/-- The function `decodeDXT5` returns an image or panics; it returns no error value. -/
theorem decodeDXT5_ne_error (w h : Nat) (data : List Nat) (e : GoError) :
    blp.decodeDXT5 w h data ≠ .error (.error e) := by
  unfold blp.decodeDXT5
  cases hr : blp.dxt5Rows w h data ((w + 3) / 4) ((h + 3) / 4) 0 (blp.NewRGBA w h, 0) with
  | ok st => intro h1; cases h1
  | error f =>
    cases f with
    | error e2 => exact absurd hr (dxt5Rows_ne_error _ _ _ _ _ _ _ _)
    | fault => intro h1; cases h1

/-- The loop of `decodeARGB` returns no error value. -/
theorem argbLoop_ne_error (w : Nat) (data : List Nat) (n i : Nat) (img : blp.RGBA)
    (e : GoError) : blp.argbLoop w data n i img ≠ .error (.error e) := by
  induction n generalizing i img with
  | zero => intro h1; cases h1
  | succ n ih =>
    rw [blp.argbLoop]
    split
    · exact ih _ _
    · intro h1; cases h1

/-- The function `decodeARGB` returns an image or panics; it returns no error value. -/
theorem decodeARGB_ne_error (w h : Nat) (data : List Nat) (e : GoError) :
    blp.decodeARGB w h data ≠ .error (.error e) :=
  argbLoop_ne_error _ _ _ _ _ _

/-- C14. Error classification of `DecodeBLPFromBytes` on a buffer whose header parses, with
`off = offsets[0]`, `sz = sizes[0]` and `mip = data[off : off+sz]`: the result is `ErrBadBLP`
if and only if `off = 0` or `sz = 0` or `off + sz > len(data)`, whatever the colour encoding;
otherwise the result is `ErrUnsupportedBLP` if and only if the colour encoding is not 2, 3 or
4; otherwise it is the result of `decodeDXT5` on `mip` for encoding 2 with format 7, of
`decodeDXT1` for encoding 2 with any other format, and of `decodeARGB` for encoding 3 or 4,
with the width and height of the header. -/
theorem DecodeBLPFromBytes_classification (data : List Nat) (h : blp.blpHeader)
    (hh : blp.parseHeader data = .ok h) :
    (blp.DecodeBLPFromBytes data = .error (.error .errBadBLP) ↔
      (h.Offsets.getD 0 0 = 0 ∨ h.Sizes.getD 0 0 = 0 ∨
        h.Offsets.getD 0 0 + h.Sizes.getD 0 0 > data.length)) ∧
    (¬ (h.Offsets.getD 0 0 = 0 ∨ h.Sizes.getD 0 0 = 0 ∨
        h.Offsets.getD 0 0 + h.Sizes.getD 0 0 > data.length) →
      (blp.DecodeBLPFromBytes data = .error (.error .errUnsupportedBLP) ↔
        (h.ColorEncoding ≠ 2 ∧ h.ColorEncoding ≠ 3 ∧ h.ColorEncoding ≠ 4)) ∧
      (h.ColorEncoding = 2 → h.Format = 7 →
        blp.DecodeBLPFromBytes data = blp.decodeDXT5 h.Width h.Height
          ((data.drop (h.Offsets.getD 0 0)).take (h.Sizes.getD 0 0))) ∧
      (h.ColorEncoding = 2 → h.Format ≠ 7 →
        blp.DecodeBLPFromBytes data = blp.decodeDXT1 h.Width h.Height
          ((data.drop (h.Offsets.getD 0 0)).take (h.Sizes.getD 0 0))) ∧
      (h.ColorEncoding = 3 ∨ h.ColorEncoding = 4 →
        blp.DecodeBLPFromBytes data = blp.decodeARGB h.Width h.Height
          ((data.drop (h.Offsets.getD 0 0)).take (h.Sizes.getD 0 0)))) := by
  have hw : ∀ err : GoError, blp.wrapErr err [] = err := fun err => by
    unfold blp.wrapErr; rw [if_pos rfl]
  unfold blp.DecodeBLPFromBytes blp.decodeBLP
  rw [hh]
  simp only [hw, Nat.le_zero]
  by_cases hbad : h.Offsets.getD 0 0 = 0 ∨ h.Sizes.getD 0 0 = 0 ∨
      h.Offsets.getD 0 0 + h.Sizes.getD 0 0 > data.length
  · rw [if_pos hbad]
    exact ⟨⟨fun _ => hbad, fun _ => rfl⟩, fun hn => absurd hbad hn⟩
  · rw [if_neg hbad]
    by_cases h2 : h.ColorEncoding = 2
    · rw [if_pos h2]
      by_cases h7 : h.Format = 7
      · rw [if_pos h7]
        refine ⟨⟨fun he => absurd he (decodeDXT5_ne_error _ _ _ _), fun hb => absurd hb hbad⟩,
          fun _ => ⟨⟨fun he => absurd he (decodeDXT5_ne_error _ _ _ _),
            fun hne => absurd h2 hne.1⟩, fun _ _ => rfl, fun _ hn => absurd h7 hn, ?_⟩⟩
        intro h34
        omega
      · rw [if_neg h7]
        refine ⟨⟨fun he => absurd he (decodeDXT1_ne_error _ _ _ _), fun hb => absurd hb hbad⟩,
          fun _ => ⟨⟨fun he => absurd he (decodeDXT1_ne_error _ _ _ _),
            fun hne => absurd h2 hne.1⟩, fun _ h7b => absurd h7b h7, fun _ _ => rfl, ?_⟩⟩
        intro h34
        omega
    · rw [if_neg h2]
      by_cases h34 : h.ColorEncoding = 3 ∨ h.ColorEncoding = 4
      · rw [if_pos h34]
        refine ⟨⟨fun he => absurd he (decodeARGB_ne_error _ _ _ _), fun hb => absurd hb hbad⟩,
          fun _ => ⟨⟨fun he => absurd he (decodeARGB_ne_error _ _ _ _), fun hne => ?_⟩,
            fun h2b => absurd h2b h2, fun h2b => absurd h2b h2, fun _ => rfl⟩⟩
        omega
      · rw [if_neg h34]
        refine ⟨⟨fun he => ?_, fun hb => absurd hb hbad⟩,
          fun _ => ⟨⟨fun _ => ⟨h2, fun h3 => h34 (Or.inl h3), fun h4 => h34 (Or.inr h4)⟩,
            fun _ => rfl⟩, fun h2b => absurd h2b h2, fun h2b => absurd h2b h2,
            fun h34b => absurd h34b h34⟩⟩
        cases he

/-- A buffer that passes the two checks of `parseHeader` has the header `headerFields`. -/
theorem parseHeader_eq_headerFields (b : List Nat) (hlen : 1172 ≤ b.length)
    (hmagic : b.take 4 = ascii "BLP2") : blp.parseHeader b = .ok (blp.headerFields b) := by
  unfold blp.parseHeader
  rw [if_neg (by omega), if_neg (not_not.mpr hmagic)]

set_option maxRecDepth 100000 in
/-- Witness of C14: a texture whose mip level 0 ends past the end of the file is rejected with
`ErrBadBLP`; the palettised example is rejected with `ErrUnsupportedBLP`; for the example
DXT1 texture the result is the result of `decodeDXT1` on its 8 bytes of mip level 0. -/
theorem DecodeBLPFromBytes_classification_witness :
    blp.parseHeader truncatedTexture = .ok (blp.headerFields truncatedTexture) ∧
    (blp.headerFields truncatedTexture).Offsets.getD 0 0 = 1172 ∧
    (blp.headerFields truncatedTexture).Sizes.getD 0 0 = 8 ∧
    truncatedTexture.length = 1176 ∧
    blp.DecodeBLPFromBytes truncatedTexture = .error (.error .errBadBLP) ∧
    blp.DecodeBLPFromBytes palettedTexture = .error (.error .errUnsupportedBLP) ∧
    blp.DecodeBLPFromBytes dxt1Texture =
      blp.decodeDXT1 4 4 [0x00, 0xF8, 0x1F, 0x00, 0xE4, 0xE4, 0xE4, 0xE4] := by
  have hp : blp.parseHeader truncatedTexture = .ok (blp.headerFields truncatedTexture) :=
    parseHeader_eq_headerFields _ (by decide!) (by decide!)
  have ho : (blp.headerFields truncatedTexture).Offsets.getD 0 0 = 1172 := by decide!
  have hs : (blp.headerFields truncatedTexture).Sizes.getD 0 0 = 8 := by decide!
  have hl : truncatedTexture.length = 1176 := by decide!
  have h1 : blp.DecodeBLPFromBytes palettedTexture = .error (.error .errUnsupportedBLP) := by
    decide!
  have h2 : blp.DecodeBLPFromBytes dxt1Texture =
      blp.decodeDXT1 4 4 [0x00, 0xF8, 0x1F, 0x00, 0xE4, 0xE4, 0xE4, 0xE4] := by
    decide!
  exact ⟨hp, ho, hs, hl,
    (DecodeBLPFromBytes_classification truncatedTexture _ hp).1.2
      (Or.inr (Or.inr (by rw [ho, hs, hl]; decide))), h1, h2⟩

set_option maxRecDepth 100000 in
/-- C15 (failure of the code). A texture whose header parses and whose mip level 0 lies within
the file, but holds fewer bytes than the declared width and height require, makes
`DecodeBLPFromBytes` panic with an out-of-range read instead of returning an error: one byte
for DXT1 data of 4 x 4 pixels (8 are required), 8 bytes for DXT5 data of 4 x 4 pixels (16 are
required), one byte for raw data of 1 x 1 pixel (4 are required). -/
theorem DecodeBLPFromBytes_short_mip_fault :
    blp.parseHeader shortDxt1Texture = .ok (blp.headerFields shortDxt1Texture) ∧
    (blp.headerFields shortDxt1Texture).ColorEncoding = 2 ∧
    (blp.headerFields shortDxt1Texture).Width = 4 ∧
    (blp.headerFields shortDxt1Texture).Height = 4 ∧
    (blp.headerFields shortDxt1Texture).Offsets.getD 0 0 = 1172 ∧
    (blp.headerFields shortDxt1Texture).Sizes.getD 0 0 = 1 ∧
    shortDxt1Texture.length = 1173 ∧
    blp.DecodeBLPFromBytes shortDxt1Texture = .error .fault ∧
    blp.DecodeBLPFromBytes shortDxt5Texture = .error .fault ∧
    blp.DecodeBLPFromBytes shortArgbTexture = .error .fault := by
  have h0 : blp.parseHeader shortDxt1Texture = .ok (blp.headerFields shortDxt1Texture) :=
    parseHeader_eq_headerFields _ (by decide!) (by decide!)
  have h1 : (blp.headerFields shortDxt1Texture).ColorEncoding = 2 := by decide!
  have h2 : (blp.headerFields shortDxt1Texture).Width = 4 := by decide!
  have h3 : (blp.headerFields shortDxt1Texture).Height = 4 := by decide!
  have h4 : (blp.headerFields shortDxt1Texture).Offsets.getD 0 0 = 1172 := by decide!
  have h5 : (blp.headerFields shortDxt1Texture).Sizes.getD 0 0 = 1 := by decide!
  have h6 : shortDxt1Texture.length = 1173 := by decide!
  have h7 : blp.DecodeBLPFromBytes shortDxt1Texture = .error .fault := by decide!
  have h8 : blp.DecodeBLPFromBytes shortDxt5Texture = .error .fault := by decide!
  have h9 : blp.DecodeBLPFromBytes shortArgbTexture = .error .fault := by decide!
  exact ⟨h0, h1, h2, h3, h4, h5, h6, h7, h8, h9⟩

/-! ## Claims on the DXT1 decoder -/

/-- The pixel index `y * w + x` determines `x` and `y`. -/
theorem pixel_index_inj (w x y x2 y2 : Nat) (hx : x < w) (hx2 : x2 < w)
    (h : y * w + x = y2 * w + x2) : x = x2 ∧ y = y2 := by
  have h1 : (y * w + x) % w = x := by
    rw [Nat.mul_comm, Nat.mul_add_mod]; exact Nat.mod_eq_of_lt hx
  have h2 : (y2 * w + x2) % w = x2 := by
    rw [Nat.mul_comm, Nat.mul_add_mod]; exact Nat.mod_eq_of_lt hx2
  have hxx : x = x2 := by rw [← h1, ← h2, h]
  subst hxx
  have hw : 0 < w := by omega
  exact ⟨rfl, Nat.eq_of_mul_eq_mul_right hw (Nat.add_right_cancel h)⟩

/-- The pixel index of a pixel of the image is below `w * h`. -/
theorem pixel_index_lt (w h x y : Nat) (hx : x < w) (hy : y < h) : y * w + x < w * h := by
  have : (y + 1) * w ≤ h * w := Nat.mul_le_mul_right w hy
  rw [Nat.mul_comm w h]
  rw [Nat.add_mul] at this
  omega

/-- Four consecutive writes at `4 * p`, read back at `4 * q`. -/
theorem getD_set4 (l : List Nat) (p q k r g b a : Nat) (hp : 4 * p + 3 < l.length)
    (hk : k < 4) :
    ((((l.set (4 * p + 0) r).set (4 * p + 1) g).set (4 * p + 2) b).set (4 * p + 3) a).getD
        (4 * q + k) 0 =
      if p = q then [r, g, b, a].getD k 0 else l.getD (4 * q + k) 0 := by
  simp only [List.getD_eq_getElem?_getD, List.getElem?_set]
  by_cases hpq : p = q
  · subst hpq
    rw [if_pos rfl]
    have h0 : 4 * p < l.length := by omega
    have h1 : 4 * p + 1 < l.length := by omega
    have h2 : 4 * p + 2 < l.length := by omega
    interval_cases k <;> simp [h0, h1, h2, hp]
  · rw [if_neg hpq]
    rw [if_neg (by omega), if_neg (by omega), if_neg (by omega), if_neg (by omega)]

/-- A pixel read after `set`: the written value at the written position, the old value at
every other position of the image. -/
theorem RGBAAt_set (w h : Nat) (img : blp.RGBA) (hS : img.Stride = 4 * w)
    (hL : img.Pix.length = 4 * w * h) (x y x2 y2 r g b a : Nat) (hx : x < w)
    (hx2 : x2 < w) (hy2 : y2 < h) :
    blp.RGBAAt (blp.set img x2 y2 r g b a) x y =
      if x2 = x ∧ y2 = y then [r, g, b, a] else blp.RGBAAt img x y := by
  have e1 : y2 * (4 * w) + x2 * 4 = 4 * (y2 * w + x2) := by ring
  have e2 : y * (4 * w) + x * 4 = 4 * (y * w + x) := by ring
  have hp : 4 * (y2 * w + x2) + 3 < img.Pix.length := by
    have := pixel_index_lt w h x2 y2 hx2 hy2
    rw [hL, Nat.mul_assoc]
    omega
  have k0 := getD_set4 img.Pix (y2 * w + x2) (y * w + x) 0 r g b a hp (by omega)
  have k1 := getD_set4 img.Pix (y2 * w + x2) (y * w + x) 1 r g b a hp (by omega)
  have k2 := getD_set4 img.Pix (y2 * w + x2) (y * w + x) 2 r g b a hp (by omega)
  have k3 := getD_set4 img.Pix (y2 * w + x2) (y * w + x) 3 r g b a hp (by omega)
  unfold blp.RGBAAt blp.set
  simp only [hS, e1, e2]
  rw [← Nat.add_zero (4 * (y * w + x)), k0, k1, k2, k3]
  by_cases hq : y2 * w + x2 = y * w + x
  · have := pixel_index_inj w x2 y2 x y hx2 hx hq
    rw [if_pos hq, if_pos hq, if_pos hq, if_pos hq, if_pos this]
    rfl
  · have hn : ¬ (x2 = x ∧ y2 = y) := fun ⟨h1, h2⟩ => hq (by rw [h1, h2])
    rw [if_neg hq, if_neg hq, if_neg hq, if_neg hq, if_neg hn]

/-- A painted image stays painted on a smaller set. -/
theorem Painted_mono (w h : Nat) (F : Nat → Nat → List Nat) (S T : Nat → Nat → Prop)
    (img : blp.RGBA) (hP : blp.Painted w h F S img)
    (hT : ∀ x y, x < w → y < h → T x y → S x y) : blp.Painted w h F T img :=
  ⟨hP.1, hP.2.1, hP.2.2.1, hP.2.2.2.1, fun x y hx hy ht => hP.2.2.2.2 x y hx hy (hT x y hx hy ht)⟩

/-- Writing the value `F x2 y2` at `(x2, y2)` adds this pixel to the painted set. -/
theorem Painted_set (w h : Nat) (F : Nat → Nat → List Nat) (S : Nat → Nat → Prop)
    (img : blp.RGBA) (hP : blp.Painted w h F S img) (x2 y2 r g b a : Nat) (hx2 : x2 < w)
    (hy2 : y2 < h) (hF : F x2 y2 = [r, g, b, a]) :
    blp.Painted w h F (fun x y => S x y ∨ (x = x2 ∧ y = y2)) (blp.set img x2 y2 r g b a) := by
  obtain ⟨hS, hL, hW, hH, hpix⟩ := hP
  refine ⟨hS, ?_, hW, hH, ?_⟩
  · unfold blp.set
    simp only [List.length_set]
    exact hL
  · intro x y hx hy hs
    rw [RGBAAt_set w h img hS hL x y x2 y2 r g b a hx hx2 hy2]
    by_cases heq : x2 = x ∧ y2 = y
    · rw [if_pos heq, ← heq.1, ← heq.2, hF]
    · rw [if_neg heq]
      rcases hs with hs | ⟨h1, h2⟩
      · exact hpix x y hx hy hs
      · exact absurd ⟨h1.symm, h2.symm⟩ heq

/-- The loop over `px` of `decodeDXT1` paints the pixels of one row of a block. -/
theorem dxt1_px_painted (w h bx by_ py : Nat) (colors : List (List Nat)) (indices : Nat)
    (F : Nat → Nat → List Nat) (L : List Nat) (S : Nat → Nat → Prop) (img : blp.RGBA)
    (hF : ∀ px ∈ L, bx * 4 + px < w → by_ * 4 + py < h →
      F (bx * 4 + px) (by_ * 4 + py) =
        [(colors.getD ((indices >>> (2 * (py * 4 + px))) &&& 0x03) []).getD 0 0,
          (colors.getD ((indices >>> (2 * (py * 4 + px))) &&& 0x03) []).getD 1 0,
          (colors.getD ((indices >>> (2 * (py * 4 + px))) &&& 0x03) []).getD 2 0, 255])
    (hP : blp.Painted w h F S img) :
    blp.Painted w h F (fun x y => S x y ∨ (y = by_ * 4 + py ∧ ∃ px ∈ L, x = bx * 4 + px))
      (L.foldl
        (fun img px =>
          if bx * 4 + px ≥ w ∨ by_ * 4 + py ≥ h then img
          else
            let c := colors.getD ((indices >>> (2 * (py * 4 + px))) &&& 0x03) []
            blp.set img (bx * 4 + px) (by_ * 4 + py) (c.getD 0 0) (c.getD 1 0) (c.getD 2 0) 255)
        img) := by
  induction L generalizing S img with
  | nil =>
    exact Painted_mono w h F _ _ img hP (fun x y _ _ ht => by simpa using ht)
  | cons px L ih =>
    rw [List.foldl_cons]
    have hstep : blp.Painted w h F (fun x y => S x y ∨ (x = bx * 4 + px ∧ y = by_ * 4 + py))
        (if bx * 4 + px ≥ w ∨ by_ * 4 + py ≥ h then img
          else
            let c := colors.getD ((indices >>> (2 * (py * 4 + px))) &&& 0x03) []
            blp.set img (bx * 4 + px) (by_ * 4 + py) (c.getD 0 0) (c.getD 1 0) (c.getD 2 0)
              255) := by
      by_cases hg : bx * 4 + px ≥ w ∨ by_ * 4 + py ≥ h
      · rw [if_pos hg]
        refine Painted_mono w h F _ _ img hP (fun x y hx hy ht => ?_)
        rcases ht with ht | ⟨h1, h2⟩
        · exact ht
        · omega
      · rw [if_neg hg]
        exact Painted_set w h F S img hP _ _ _ _ _ _ (by omega) (by omega)
          (hF px (List.mem_cons_self _ _) (by omega) (by omega))
    have := ih _ _ (fun px2 hpx2 => hF px2 (List.mem_cons_of_mem _ hpx2)) hstep
    refine Painted_mono w h F _ _ _ this (fun x y _ _ ht => ?_)
    rcases ht with ht | ⟨h1, px2, hpx2, h2⟩
    · exact Or.inl (Or.inl ht)
    · rcases List.mem_cons.mp hpx2 with rfl | hmem
      · exact Or.inl (Or.inr ⟨h2, h1⟩)
      · exact Or.inr ⟨h1, px2, hmem, h2⟩

/-- The two inner loops of `decodeDXT1` paint the pixels of one block. -/
theorem dxt1Pixels_painted (w h bx by_ : Nat) (colors : List (List Nat)) (indices : Nat)
    (F : Nat → Nat → List Nat) (S : Nat → Nat → Prop) (img : blp.RGBA)
    (hF : ∀ px py, px < 4 → py < 4 → bx * 4 + px < w → by_ * 4 + py < h →
      F (bx * 4 + px) (by_ * 4 + py) =
        [(colors.getD ((indices >>> (2 * (py * 4 + px))) &&& 0x03) []).getD 0 0,
          (colors.getD ((indices >>> (2 * (py * 4 + px))) &&& 0x03) []).getD 1 0,
          (colors.getD ((indices >>> (2 * (py * 4 + px))) &&& 0x03) []).getD 2 0, 255])
    (hP : blp.Painted w h F S img) :
    blp.Painted w h F (fun x y => S x y ∨ (x / 4 = bx ∧ y / 4 = by_))
      (blp.dxt1Pixels w h bx by_ colors indices img) := by
  have outer : ∀ (L : List Nat) (S : Nat → Nat → Prop) (img : blp.RGBA),
      (∀ py ∈ L, py < 4) → blp.Painted w h F S img →
      blp.Painted w h F
        (fun x y => S x y ∨ ((∃ py ∈ L, y = by_ * 4 + py) ∧ ∃ px ∈ List.range 4, x = bx * 4 + px))
        (L.foldl
          (fun img py =>
            (List.range 4).foldl
              (fun img px =>
                if bx * 4 + px ≥ w ∨ by_ * 4 + py ≥ h then img
                else
                  let c := colors.getD ((indices >>> (2 * (py * 4 + px))) &&& 0x03) []
                  blp.set img (bx * 4 + px) (by_ * 4 + py) (c.getD 0 0) (c.getD 1 0)
                    (c.getD 2 0) 255)
              img)
          img) := by
    intro L
    induction L with
    | nil =>
      intro S img _ hP
      exact Painted_mono w h F _ _ img hP (fun x y _ _ ht => by simpa using ht)
    | cons py L ih =>
      intro S img hL hP
      rw [List.foldl_cons]
      have h1 := dxt1_px_painted w h bx by_ py colors indices F (List.range 4) S img
        (fun px hpx hx hy => hF px py (List.mem_range.mp hpx) (hL py (List.mem_cons_self _ _))
          hx hy) hP
      have h2 := ih _ _ (fun py2 hpy2 => hL py2 (List.mem_cons_of_mem _ hpy2)) h1
      refine Painted_mono w h F _ _ _ h2 (fun x y _ _ ht => ?_)
      rcases ht with ht | ⟨⟨py2, hpy2, h3⟩, hpx⟩
      · exact Or.inl (Or.inl ht)
      · rcases List.mem_cons.mp hpy2 with rfl | hmem
        · exact Or.inl (Or.inr ⟨h3, hpx⟩)
        · exact Or.inr ⟨⟨py2, hmem, h3⟩, hpx⟩
  have := outer (List.range 4) S img (fun py hpy => List.mem_range.mp hpy) hP
  unfold blp.dxt1Pixels
  refine Painted_mono w h F _ _ _ this (fun x y _ _ ht => ?_)
  rcases ht with ht | ⟨h1, h2⟩
  · exact Or.inl ht
  · exact Or.inr ⟨⟨y % 4, List.mem_range.mpr (Nat.mod_lt _ (by decide)), by omega⟩,
      ⟨x % 4, List.mem_range.mpr (Nat.mod_lt _ (by decide)), by omega⟩⟩

/-- The value that `decodeDXT1` writes for the pixel `(px, py)` of the block `(bx, by)` read
at the offset `8 * (by * bw + bx)` is the value of the description. -/
theorem dxt1PixelSpec_block (w : Nat) (data : List Nat) (bw bx by_ px py : Nat)
    (hbw : bw = (w + 3) / 4) (hpx : px < 4) (hpy : py < 4) :
    blp.dxt1PixelSpec w data (bx * 4 + px) (by_ * 4 + py) =
      [((blp.colorPalette (u16At data (8 * (by_ * bw + bx)))
            (u16At data (8 * (by_ * bw + bx) + 2))).getD
          ((u32At data (8 * (by_ * bw + bx) + 4) >>> (2 * (py * 4 + px))) &&& 0x03) []).getD 0 0,
        ((blp.colorPalette (u16At data (8 * (by_ * bw + bx)))
            (u16At data (8 * (by_ * bw + bx) + 2))).getD
          ((u32At data (8 * (by_ * bw + bx) + 4) >>> (2 * (py * 4 + px))) &&& 0x03) []).getD 1 0,
        ((blp.colorPalette (u16At data (8 * (by_ * bw + bx)))
            (u16At data (8 * (by_ * bw + bx) + 2))).getD
          ((u32At data (8 * (by_ * bw + bx) + 4) >>> (2 * (py * 4 + px))) &&& 0x03) []).getD 2 0,
        255] := by
  have e1 : (by_ * 4 + py) / 4 = by_ := by omega
  have e2 : (bx * 4 + px) / 4 = bx := by omega
  have e3 : (by_ * 4 + py) % 4 = py := by omega
  have e4 : (bx * 4 + px) % 4 = px := by omega
  have e5 : 4 * py + px = py * 4 + px := by omega
  unfold blp.dxt1PixelSpec
  simp only [e1, e2, e3, e4, e5, ← hbw]

/-- The loop over `bx` of `decodeDXT1` reads the blocks of one block row in order and paints
their pixels; it ends at the offset of the next block row. -/
theorem dxt1Row_painted (w h : Nat) (data : List Nat) (bw by_ : Nat) (hbw : bw = (w + 3) / 4)
    (hlen : 8 * (by_ * bw + bw) ≤ data.length) (n : Nat) :
    ∀ (bx : Nat) (st : blp.RGBA × Nat) (S : Nat → Nat → Prop), bx + n = bw →
      st.2 = 8 * (by_ * bw + bx) → blp.Painted w h (blp.dxt1PixelSpec w data) S st.1 →
      ∃ img2, blp.dxt1Row w h data by_ n bx st = .ok (img2, 8 * (by_ * bw + bw)) ∧
        blp.Painted w h (blp.dxt1PixelSpec w data)
          (fun x y => S x y ∨ (y / 4 = by_ ∧ bx ≤ x / 4 ∧ x / 4 < bw)) img2 := by
  induction n with
  | zero =>
    intro bx st S hn hst hP
    have hbx : bx = bw := by omega
    subst hbx
    refine ⟨st.1, ?_, Painted_mono w h _ _ _ _ hP (fun x y _ _ ht => ?_)⟩
    · rw [blp.dxt1Row, ← hst]
    · rcases ht with ht | ht
      · exact ht
      · omega
  | succ n ih =>
    intro bx st S hn hst hP
    rw [blp.dxt1Row, if_pos (by omega)]
    have hblock := dxt1Pixels_painted w h bx by_
      (blp.colorPalette (u16At data st.2) (u16At data (st.2 + 2))) (u32At data (st.2 + 4))
      (blp.dxt1PixelSpec w data) S st.1
      (fun px py hpx hpy _ _ => by
        rw [hst]; exact dxt1PixelSpec_block w data bw bx by_ px py hbw hpx hpy) hP
    obtain ⟨img2, h1, h2⟩ := ih (bx + 1)
      (blp.dxt1Pixels w h bx by_ (blp.colorPalette (u16At data st.2) (u16At data (st.2 + 2)))
        (u32At data (st.2 + 4)) st.1, st.2 + 8) _ (by omega)
      (by show st.2 + 8 = 8 * (by_ * bw + (bx + 1)); omega) hblock
    refine ⟨img2, h1, Painted_mono w h _ _ _ _ h2 (fun x y _ _ ht => ?_)⟩
    rcases ht with ht | ⟨h3, h4, h5⟩
    · exact Or.inl (Or.inl ht)
    · by_cases h6 : x / 4 = bx
      · exact Or.inl (Or.inr ⟨h6, h3⟩)
      · exact Or.inr ⟨h3, by omega, h5⟩

/-- The loop over `by` of `decodeDXT1` paints the pixels of all block rows. -/
theorem dxt1Rows_painted (w h : Nat) (data : List Nat) (bw bh : Nat) (hbw : bw = (w + 3) / 4)
    (hlen : 8 * (bh * bw) ≤ data.length) (n : Nat) :
    ∀ (by_ : Nat) (st : blp.RGBA × Nat) (S : Nat → Nat → Prop), by_ + n = bh →
      st.2 = 8 * (by_ * bw) → blp.Painted w h (blp.dxt1PixelSpec w data) S st.1 →
      ∃ st2, blp.dxt1Rows w h data bw n by_ st = .ok st2 ∧
        blp.Painted w h (blp.dxt1PixelSpec w data)
          (fun x y => S x y ∨ (by_ ≤ y / 4 ∧ y / 4 < bh ∧ x / 4 < bw)) st2.1 := by
  induction n with
  | zero =>
    intro by_ st S hn hst hP
    refine ⟨st, rfl, Painted_mono w h _ _ _ _ hP (fun x y _ _ ht => ?_)⟩
    rcases ht with ht | ht
    · exact ht
    · omega
  | succ n ih =>
    intro by_ st S hn hst hP
    have hle : (by_ + 1) * bw ≤ bh * bw := Nat.mul_le_mul_right bw (by omega)
    rw [Nat.add_mul, Nat.one_mul] at hle
    obtain ⟨img2, h1, h2⟩ := dxt1Row_painted w h data bw by_ hbw (by omega) bw 0 st S
      (by omega) (by rw [hst]; rfl) hP
    rw [blp.dxt1Rows, h1, bind_ok]
    obtain ⟨st2, h3, h4⟩ := ih (by_ + 1) (img2, 8 * (by_ * bw + bw)) _ (by omega)
      (by show 8 * (by_ * bw + bw) = 8 * ((by_ + 1) * bw); rw [Nat.add_mul, Nat.one_mul]) h2
    refine ⟨st2, h3, Painted_mono w h _ _ _ _ h4 (fun x y _ _ ht => ?_)⟩
    rcases ht with ht | ⟨h5, h6, h7⟩
    · exact Or.inl (Or.inl ht)
    · by_cases h8 : y / 4 = by_
      · exact Or.inl (Or.inr ⟨h8, by omega, h7⟩)
      · exact Or.inr ⟨by omega, h6, h7⟩

/-- The new image is a buffer of `w` x `h` pixels. -/
theorem NewRGBA_painted (w h : Nat) (F : Nat → Nat → List Nat) :
    blp.Painted w h F (fun _ _ => False) (blp.NewRGBA w h) :=
  ⟨rfl, List.length_replicate _ _, rfl, rfl, fun _ _ _ _ hf => hf.elim⟩

/-- C18. DXT1 pixel mapping: for every `w`, `h`, every `data` of at least
`8 * ceil(w/4) * ceil(h/4)` bytes, `decodeDXT1` returns an image of `w` x `h` pixels in which
every pixel `(x, y)` with `x < w` and `y < h` has the colour
`colorPalette(c0, c1)[(idx >> 2*(4*(y mod 4) + (x mod 4))) & 3]` and alpha 255, where `c0`,
`c1` and `idx` are read at +0, +2 and +4 of the 8-byte block at the byte offset
`8 * ((y div 4) * ceil(w/4) + (x div 4))`; the palette does not depend on the order of `c0`
and `c1`, so alpha is 255 also for a block with `c0 <= c1` and index 3. -/
theorem decodeDXT1_pixel_mapping (w h : Nat) (data : List Nat)
    (hlen : 8 * ((w + 3) / 4) * ((h + 3) / 4) ≤ data.length) :
    ∃ img, blp.decodeDXT1 w h data = .ok img ∧ img.Width = w ∧ img.Height = h ∧
      img.Stride = 4 * w ∧ img.Pix.length = 4 * w * h ∧
      ∀ x y, x < w → y < h →
        blp.RGBAAt img x y = blp.dxt1PixelSpec w data x y ∧
        (blp.RGBAAt img x y).getD 3 0 = 255 := by
  have hlen2 : 8 * ((h + 3) / 4 * ((w + 3) / 4)) ≤ data.length := by
    rw [Nat.mul_comm ((h + 3) / 4), ← Nat.mul_assoc]; exact hlen
  obtain ⟨st2, h1, h2⟩ := dxt1Rows_painted w h data ((w + 3) / 4) ((h + 3) / 4) rfl hlen2
    ((h + 3) / 4) 0 (blp.NewRGBA w h, 0) _ (by omega) (by simp) (NewRGBA_painted w h _)
  refine ⟨st2.1, ?_, h2.2.2.1, h2.2.2.2.1, h2.1, h2.2.1, fun x y hx hy => ?_⟩
  · unfold blp.decodeDXT1
    rw [h1, bind_ok]
  · have := h2.2.2.2.2 x y hx hy (Or.inr ⟨by omega, by omega, by omega⟩)
    refine ⟨this, ?_⟩
    rw [this]
    rfl

/-- Witness of C18: a block of 4 x 4 pixels with `c0 = 0x001F <= c1 = 0xF800` and all indices
3 decodes to the slot-3 colour `(170, 0, 85)` with alpha 255 in every pixel. -/
theorem decodeDXT1_pixel_mapping_witness :
    8 * ((4 + 3) / 4) * ((4 + 3) / 4) ≤ [0x1F, 0x00, 0x00, 0xF8, 0xFF, 0xFF, 0xFF, 0xFF].length ∧
    blp.dxt1PixelSpec 4 [0x1F, 0x00, 0x00, 0xF8, 0xFF, 0xFF, 0xFF, 0xFF] 3 2
      = [170, 0, 85, 255] ∧
    ∃ img, blp.decodeDXT1 4 4 [0x1F, 0x00, 0x00, 0xF8, 0xFF, 0xFF, 0xFF, 0xFF] = .ok img ∧
      img.Width = 4 ∧ img.Height = 4 ∧ img.Stride = 4 * 4 ∧ img.Pix.length = 4 * 4 * 4 ∧
      ∀ x y, x < 4 → y < 4 →
        blp.RGBAAt img x y
          = blp.dxt1PixelSpec 4 [0x1F, 0x00, 0x00, 0xF8, 0xFF, 0xFF, 0xFF, 0xFF] x y ∧
        (blp.RGBAAt img x y).getD 3 0 = 255 :=
  ⟨by decide, by decide,
    decodeDXT1_pixel_mapping 4 4 [0x1F, 0x00, 0x00, 0xF8, 0xFF, 0xFF, 0xFF, 0xFF] (by decide)⟩

/-! ## Sector reconstruction -/

/-- A sector size that is not zero is `512 * 2 ^ shift` with a shift of at most 22. -/
theorem sectorSize_ge (m : MPQ) (hS : m.sectorSize ≠ 0) :
    512 ≤ m.sectorSize ∧ m.sectorSize = 512 * 2 ^ m.header.SectorSizeShift ∧
      m.header.SectorSizeShift ≤ 22 := by
  unfold MPQ.sectorSize at hS ⊢
  rw [Nat.shiftLeft_eq] at hS ⊢
  by_cases hk : m.header.SectorSizeShift ≤ 22
  · have h1 : 2 ^ m.header.SectorSizeShift ≤ 2 ^ 22 := Nat.pow_le_pow_right (by decide) hk
    have h2 : 0 < 2 ^ m.header.SectorSizeShift := Nat.pow_pos (by decide)
    rw [Nat.mod_eq_of_lt (by omega)]
    exact ⟨by omega, rfl, hk⟩
  · exfalso
    apply hS
    have h3 : m.header.SectorSizeShift = 23 + (m.header.SectorSizeShift - 23) := by omega
    rw [h3, Nat.pow_add, ← Nat.mul_assoc]
    exact Nat.mul_mod_right _ _

/-- The four bytes of `putLe32 v` decode to `v` modulo `2 ^ 32`. -/
theorem le32_putLe32_mod (v : Nat) :
    le32 (v % 256) ((v >>> 8) % 256) ((v >>> 16) % 256) ((v >>> 24) % 256) = v % 2 ^ 32 := by
  rw [le32_eq_sum _ _ _ _ (Nat.mod_lt _ (by decide)) (Nat.mod_lt _ (by decide))
    (Nat.mod_lt _ (by decide))]
  simp only [Nat.shiftRight_eq_div_pow]
  omega

/-- Word `i` of a table written with `PutUint32` decodes to the word written. -/
theorem u32At_flatMap_putLe32 (ws : List Nat) (i : Nat) (v : Nat) (hi : ws[i]? = some v) :
    u32At (ws.flatMap putLe32) (i * 4) = v % 2 ^ 32 := by
  induction ws generalizing i with
  | nil => simp at hi
  | cons a ws ih =>
    rw [List.flatMap_cons]
    cases i with
    | zero =>
      simp only [List.getElem?_cons_zero, Option.some.injEq] at hi
      subst hi
      rw [← le32_putLe32_mod a]
      simp [u32At, putLe32]
    | succ i =>
      rw [List.getElem?_cons_succ] at hi
      rw [← ih i hi]
      have e : ∀ k, (putLe32 a ++ ws.flatMap putLe32).getD ((i + 1) * 4 + k) 0
          = (ws.flatMap putLe32).getD (i * 4 + k) 0 := by
        intro k
        rw [List.getD_eq_getElem?_getD, List.getD_eq_getElem?_getD,
          List.getElem?_append_right (by simp [putLe32]; omega)]
        congr 2
        simp [putLe32]
        omega
      unfold u32At
      rw [← Nat.add_zero ((i + 1) * 4), e 0, Nat.add_assoc, Nat.add_assoc, Nat.add_assoc]
      simp only [Nat.zero_add]
      rw [e 1, e 2, e 3, Nat.add_zero]

/-- The length of a table written with `PutUint32`. -/
theorem length_flatMap_putLe32 (ws : List Nat) : (ws.flatMap putLe32).length = 4 * ws.length := by
  induction ws with
  | nil => rfl
  | cons a ws ih => rw [List.flatMap_cons, List.length_append, ih, List.length_cons]; simp [putLe32]; omega

/-- One iteration of the sector loop on a sector that is stored verbatim or as the byte 0x02
followed by a stream that inflates to the chunk: the iteration yields the chunk. -/
theorem sectorStep_chunk (lib : Lib) (m : MPQ) (offset : Int) (block : BlockEntry) (key : Nat)
    (L : List Nat) (i start stop : Nat) (stored chunk : List Nat)
    (h1 : L[i]? = some start) (h2 : L[i + 1]? = some stop) (hstart : start < 2 ^ 31)
    (hstop : stop = start + stored.length) (hlt : stop < 2 ^ 32)
    (hread : readAt m.f stored.length (offset + (start : Int)) = some stored)
    (henc : block.Flags &&& MPQ_FILE_ENCRYPTED = 0)
    (hexp : sectorExpected block m.sectorSize i = chunk.length)
    (hc : stored = chunk ∨
      (stored.length ≠ chunk.length ∧ ∃ z, stored = 0x02 :: z ∧ lib.inflate z = some chunk)) :
    m.sectorStep lib offset block key L i = .ok chunk := by
  have hsize : (stop + 2 ^ 32 - start) % 2 ^ 32 = stored.length := by omega
  have hti : toInt32 start = (start : Int) := by unfold toInt32; rw [if_pos hstart]
  unfold MPQ.sectorStep
  rw [h1, h2]
  simp only [hsize, hti, hread, henc, hexp, ne_eq, not_true_eq_false, if_false]
  rcases hc with hc | ⟨hne, z, hz, hinf⟩
  · rw [hc, if_pos rfl]
  · rw [if_neg hne, hz]
    simp only [MPQ_COMPRESSION_ZLIB, if_true, hinf]

/-- The value `expected` of sector `i` is the length of chunk `i`. -/
theorem sectorExpected_eq (block : BlockEntry) (S i : Nat) (D : List Nat)
    (hU : D.length = block.UncompressedSize) (hlt : block.UncompressedSize < 2 ^ 32)
    (hi : i * S ≤ block.UncompressedSize) :
    sectorExpected block S i = ((D.drop (i * S)).take S).length := by
  have hr : (block.UncompressedSize + 2 ^ 32 - (i * S) % 2 ^ 32) % 2 ^ 32
      = block.UncompressedSize - i * S := by
    rw [Nat.mod_eq_of_lt (a := i * S) (by omega)]
    omega
  unfold sectorExpected
  simp only [hr]
  rw [List.length_take, List.length_drop, hU]
  split <;> omega

/-- The sector loop on sectors that yield the chunks of `D`: the loop appends the rest of
`D`. -/
theorem sectorLoop_chunks (lib : Lib) (m : MPQ) (offset : Int) (block : BlockEntry) (key : Nat)
    (L : List Nat) (D : List Nat) (S n : Nat) (hn : D.length ≤ n * S)
    (hstep : ∀ i, i < n →
      m.sectorStep lib offset block key L i = .ok ((D.drop (i * S)).take S)) (k : Nat) :
    ∀ (i : Nat) (out : List Nat), i + k = n →
      MPQ.sectorLoop lib m offset block key L k i out = .ok (out ++ D.drop (i * S)) := by
  induction k with
  | zero =>
    intro i out hi
    have : i = n := by omega
    subst this
    rw [MPQ.sectorLoop, List.drop_eq_nil_of_le hn, List.append_nil]
  | succ k ih =>
    intro i out hi
    rw [MPQ.sectorLoop, hstep i (by omega)]
    simp only []
    rw [ih (i + 1) _ (by omega), List.append_assoc]
    congr 2
    have : (i + 1) * S = i * S + S := by rw [Nat.add_mul, Nat.one_mul]
    rw [this, ← List.drop_drop, List.take_append_drop]

/-- C11 (for sector arithmetic within 32 bits and offsets below `2 ^ 31`). Sector
reconstruction: let `D` be a byte sequence of length `uncompressedSize`, split into the
consecutive chunks `D[i*sectorSize : (i+1)*sectorSize]` (the last chunk shorter), for a sector
size that is not zero and with `uncompressedSize + sectorSize <= 2^32`; let the file be stored
unencrypted, with the offset table `offs` at `offset` (one entry per chunk, one more for the
end, and one more when the file has sector checksums), sector `i` stored at `offset + offs i`
with `offs (i+1) = offs i + stored size` and every offset below `2^31`; and let every chunk be
stored either verbatim or, with a stored size differing from the size of the chunk, as the
byte 0x02 followed by data that inflates to the chunk. Then `readSectorCompressedFile`
returns exactly `D`. -/
theorem readSectorCompressedFile_reconstructs (lib : Lib) (m : MPQ) (offset : Int)
    (block : BlockEntry) (name : List Nat) (D : List Nat) (stored : Nat → List Nat)
    (offs : Nat → Nat)
    (hS : m.sectorSize ≠ 0)
    (hU : D.length = block.UncompressedSize)
    (hwrap : block.UncompressedSize + m.sectorSize ≤ 2 ^ 32)
    (henc : block.Flags &&& MPQ_FILE_ENCRYPTED = 0)
    (htable : readAt m.f
        (4 * ((block.UncompressedSize + m.sectorSize - 1) / m.sectorSize + 1 +
          if block.Flags &&& MPQ_FILE_SECTOR_CRC ≠ 0 then 1 else 0)) offset =
      some (((List.range ((block.UncompressedSize + m.sectorSize - 1) / m.sectorSize + 1 +
          if block.Flags &&& MPQ_FILE_SECTOR_CRC ≠ 0 then 1 else 0)).map offs).flatMap putLe32))
    (hoffs_lt : ∀ i, i ≤ (block.UncompressedSize + m.sectorSize - 1) / m.sectorSize →
      offs i < 2 ^ 31)
    (hoffs : ∀ i, i < (block.UncompressedSize + m.sectorSize - 1) / m.sectorSize →
      offs (i + 1) = offs i + (stored i).length)
    (hdata : ∀ i, i < (block.UncompressedSize + m.sectorSize - 1) / m.sectorSize →
      readAt m.f (stored i).length (offset + (offs i : Int)) = some (stored i))
    (hchunk : ∀ i, i < (block.UncompressedSize + m.sectorSize - 1) / m.sectorSize →
      stored i = (D.drop (i * m.sectorSize)).take m.sectorSize ∨
      ((stored i).length ≠ ((D.drop (i * m.sectorSize)).take m.sectorSize).length ∧
        ∃ z, stored i = 0x02 :: z ∧
          lib.inflate z = some ((D.drop (i * m.sectorSize)).take m.sectorSize))) :
    m.readSectorCompressedFile lib offset block name = .ok D := by
  obtain ⟨hS512, -, -⟩ := sectorSize_ge m hS
  generalize hSdef : m.sectorSize = S at *
  generalize hUdef : block.UncompressedSize = U at *
  generalize hndef : (U + S - 1) / S = n at *
  -- the number of chunks
  have hn1 : U ≤ n * S := by
    have := Nat.lt_div_mul_add (a := U + S - 1) (b := S) (by omega)
    rw [hndef] at this
    omega
  have hn2 : ∀ i, i < n → i * S < U := by
    intro i hi
    have h1 : (i + 1) * S ≤ n * S := Nat.mul_le_mul_right S hi
    have h2 : n * S ≤ U + S - 1 := by rw [← hndef]; exact Nat.div_mul_le_self _ _
    rw [Nat.add_mul, Nat.one_mul] at h1
    omega
  have hn3 : n < 2 ^ 23 := by
    rw [← hndef]
    apply Nat.div_lt_of_lt_mul
    have : 512 * 2 ^ 23 ≤ S * 2 ^ 23 := Nat.mul_le_mul_right _ hS512
    omega
  have hcount : m.sectorCount block = n := by
    have e : (U + S + 2 ^ 32 - 1) % 2 ^ 32 = U + S - 1 := by omega
    unfold MPQ.sectorCount
    rw [hSdef, hUdef, ← hndef, e]
  generalize hTdef : (n + 1 + if block.Flags &&& MPQ_FILE_SECTOR_CRC ≠ 0 then 1 else 0) = T
    at *
  have hT : m.tableDWORDs block = T := by
    unfold MPQ.tableDWORDs
    rw [hcount, ← hTdef]
    simp only []
    split <;> omega
  have hTn : n + 1 ≤ T := by rw [← hTdef]; omega
  have hTlt : T ≤ n + 2 := by rw [← hTdef]; split <;> omega
  -- the offset table
  have hoffsets : m.sectorOffsets lib offset block name =
      .ok ((List.range T).map
        (fun i => u32At (((List.range T).map offs).flatMap putLe32) (i * 4))) := by
    unfold MPQ.sectorOffsets
    rw [hT, Nat.mul_comm T 4, Nat.mod_eq_of_lt (by omega), htable]
    simp only [henc, ne_eq, not_true_eq_false, if_false]
    rw [if_neg (by rw [length_flatMap_putLe32, List.length_map, List.length_range]; omega)]
  have hget : ∀ i, i ≤ n →
      ((List.range T).map
        (fun i => u32At (((List.range T).map offs).flatMap putLe32) (i * 4)))[i]? =
        some (offs i) := by
    intro i hi
    rw [List.getElem?_map, List.getElem?_range (by omega), Option.map_some']
    rw [u32At_flatMap_putLe32 _ i (offs i)
      (by rw [List.getElem?_map, List.getElem?_range (by omega), Option.map_some']),
      Nat.mod_eq_of_lt (by have := hoffs_lt i hi; omega)]
  -- the sectors
  have hstep : ∀ i, i < n →
      m.sectorStep lib offset block (m.fileKey lib name block offset)
        ((List.range T).map
          (fun i => u32At (((List.range T).map offs).flatMap putLe32) (i * 4))) i
        = .ok ((D.drop (i * S)).take S) := by
    intro i hi
    have := hoffs_lt (i + 1) (by omega)
    refine sectorStep_chunk lib m offset block _ _ i (offs i) (offs (i + 1)) (stored i) _
      (hget i (by omega)) (hget (i + 1) (by omega)) (hoffs_lt i (by omega)) (hoffs i hi)
      (by omega) (hdata i hi) henc ?_ (hchunk i hi)
    rw [hSdef]
    exact sectorExpected_eq block S i D (by rw [hU, hUdef]) (by omega)
      (by have := hn2 i hi; omega)
  have hloop := sectorLoop_chunks lib m offset block (m.fileKey lib name block offset) _ D S n
    (by omega) hstep n 0 [] (by omega)
  unfold MPQ.readSectorCompressedFile
  rw [if_neg (by rw [hSdef]; exact hS), hoffsets, bind_ok, hcount, hloop, bind_ok]
  rw [Nat.zero_mul, List.drop_zero, List.nil_append, hUdef, ← hU]
  unfold resliceTo
  rw [Nat.sub_self, List.replicate_zero, List.append_nil, List.take_length]

/-- A file without sectors (a sector count of zero) is read as `uncompressedSize` zero
bytes. -/
theorem readSectorCompressedFile_no_sectors (lib : Lib) (m : MPQ) (offset : Int)
    (block : BlockEntry) (name : List Nat) (L : List Nat) (hS : m.sectorSize ≠ 0)
    (hoffs : m.sectorOffsets lib offset block name = .ok L) (hcount : m.sectorCount block = 0) :
    m.readSectorCompressedFile lib offset block name
      = .ok (resliceTo [] block.UncompressedSize) := by
  unfold MPQ.readSectorCompressedFile
  rw [if_neg hS, hoffs, bind_ok, hcount, MPQ.sectorLoop, bind_ok]

/-- The slice `out[:n]` of an empty `out` starts with a zero byte. -/
theorem resliceTo_nil_head? (n : Nat) (hn : 0 < n) : (resliceTo [] n).head? = some 0 := by
  cases n with
  | zero => omega
  | succ n => simp [resliceTo, List.replicate_succ]

/-- The first byte of `n > 0` copies of `a` followed by `l`. -/
theorem head?_replicate_append (n a : Nat) (l : List Nat) (hn : 0 < n) :
    (List.replicate n a ++ l).head? = some a := by
  cases n with
  | zero => omega
  | succ n => simp [List.replicate_succ]

/-- A file of `U > 0` bytes that starts with a byte other than zero is not what a read without
sectors returns. -/
theorem readSectorCompressedFile_no_sectors_ne (lib : Lib) (m : MPQ) (offset : Int)
    (block : BlockEntry) (name : List Nat) (L : List Nat) (n a : Nat) (tail : List Nat)
    (hS : m.sectorSize ≠ 0)
    (hoffs : m.sectorOffsets lib offset block name = .ok L) (hcount : m.sectorCount block = 0)
    (hU : 0 < block.UncompressedSize) (hn : 0 < n) (ha : a ≠ 0) :
    m.readSectorCompressedFile lib offset block name ≠ .ok (List.replicate n a ++ tail) := by
  rw [readSectorCompressedFile_no_sectors lib m offset block name L hS hoffs hcount]
  intro hc
  have hc2 := congrArg List.head? (Except.ok.inj hc)
  rw [resliceTo_nil_head? _ hU, head?_replicate_append _ _ _ hn] at hc2
  exact ha (Option.some.inj hc2).symm

/-- A sector whose table entry is read as a position before the start of the file is not
read: `ReadAt` returns an error. -/
theorem sectorStep_negative (lib : Lib) (m : MPQ) (offset : Int) (block : BlockEntry)
    (key : Nat) (L : List Nat) (i start stop : Nat) (h1 : L[i]? = some start)
    (h2 : L[i + 1]? = some stop) (hneg : offset + toInt32 start < 0) :
    m.sectorStep lib offset block key L i = .error (.error .io) := by
  unfold MPQ.sectorStep
  rw [h1, h2]
  simp only [readAt, if_pos hneg]

/-- A file whose offset table holds `2^31` and `2^31 + 1` for its only sector is not read:
the first offset is taken as `-2^31`. -/
theorem readSectorCompressedFile_far (lib : Lib) (m : MPQ) (block : BlockEntry)
    (name rest : List Nat) (hf : m.f = [0, 0, 0, 128, 1, 0, 0, 128] ++ rest)
    (hS : m.sectorSize ≠ 0) (hT : m.tableDWORDs block = 2) (hcount : m.sectorCount block = 1)
    (henc : block.Flags &&& MPQ_FILE_ENCRYPTED = 0) :
    m.readSectorCompressedFile lib 0 block name = .error (.error .io) := by
  have hr : readAt m.f 8 0 = some [0, 0, 0, 128, 1, 0, 0, 128] := by
    rw [hf]; simp [readAt]
  have hoffs : m.sectorOffsets lib 0 block name = .ok [2 ^ 31, 2 ^ 31 + 1] := by
    unfold MPQ.sectorOffsets
    rw [hT, show (2 * 4) % 2 ^ 32 = 8 by decide, hr]
    simp only [henc, ne_eq, not_true_eq_false, if_false]
    decide!
  unfold MPQ.readSectorCompressedFile
  rw [if_neg hS, hoffs, bind_ok, hcount, MPQ.sectorLoop,
    sectorStep_negative lib m 0 block _ _ 0 (2 ^ 31) (2 ^ 31 + 1) rfl rfl (by decide)]
  rfl

/-- The byte after a prefix of `n` bytes is read at position `n`. -/
theorem readAt_after (pre : List Nat) (n b : Nat) (h : pre.length = n) :
    readAt (pre ++ [b]) 1 (n : Int) = some [b] := by
  unfold readAt
  rw [if_neg (by omega), if_neg (by decide), List.length_append, h, Int.toNat_ofNat,
    if_pos (by simp), ← h, List.drop_left]
  rfl

/-- The example archive `sectorFile` opens. -/
theorem Open_sectorFile : Open sectorLib sectorFile = .ok sectorArchive := by decide!

/-- Witness of C11: the file `data\big.bin` of the example archive, whose sectors are stored
compressed, verbatim, compressed, reassembles to its 1025 bytes. -/
theorem readSectorCompressedFile_reconstructs_witness :
    sectorArchive.sectorSize = 512 ∧ sectorData.length = 1025 ∧
    sectorBlock.UncompressedSize = 1025 ∧
    (sectorStored 0).length ≠ 512 ∧ (sectorStored 1).length = 512 ∧
    (sectorStored 2).length ≠ 1 ∧
    sectorArchive.readSectorCompressedFile sectorLib 32 sectorBlock (ascii "data\\big.bin")
      = .ok sectorData := by
  have hn : (sectorBlock.UncompressedSize + sectorArchive.sectorSize - 1)
      / sectorArchive.sectorSize = 3 := by decide!
  have h0 : sectorArchive.sectorSize = 512 := by decide!
  have h1 : sectorData.length = 1025 := by decide!
  have h2 : (sectorStored 0).length ≠ 512 := by decide!
  have h3 : (sectorStored 1).length = 512 := by decide!
  have h4 : (sectorStored 2).length ≠ 1 := by decide!
  refine ⟨h0, h1, rfl, h2, h3, h4, ?_⟩
  apply readSectorCompressedFile_reconstructs sectorLib sectorArchive 32 sectorBlock
    (ascii "data\\big.bin") sectorData sectorStored sectorOffs
  · decide!
  · decide!
  · decide!
  · decide!
  · decide!
  · intro i hi
    rw [hn] at hi
    interval_cases i <;> decide
  · intro i hi
    rw [hn] at hi
    interval_cases i <;> decide!
  · intro i hi
    rw [hn] at hi
    interval_cases i <;> decide!
  · intro i hi
    rw [hn] at hi
    interval_cases i
    · exact Or.inr ⟨by decide!, zlibA, by decide!, by decide!⟩
    · exact Or.inl (by decide!)
    · exact Or.inr ⟨by decide!, zlibC, by decide!, by decide!⟩

/-- The offset table of eight bytes at the start of a file is read at position 0. -/
theorem readAt_table8 (rest : List Nat) :
    readAt ([0, 0, 0, 128, 1, 0, 0, 128] ++ rest) 8 0 = some [0, 0, 0, 128, 1, 0, 0, 128] := by
  simp [readAt]

/-- Counterexample to C11 as stated, in the three cases that the bounds of the amended claim
exclude.

* Sector size shift 23: the file of one byte `0x07` is one chunk, stored verbatim at position
  8 with the offset table `8, 9`; `512 << 23` is zero in 32 bits and the division by the
  sector size panics.
* `uncompressedSize + sectorSize - 1` wraps: with sectors of `2^31` bytes the file
  `wrapSectorData` of `2^31 + 1` bytes has two chunks, stored compressed and verbatim with the
  offset table `12, 14, 15`; the sector count is computed as 0 and the result is not the
  file.
* An offset of `2^31`: the only sector of a file of one byte is stored verbatim at position
  `2^31`, as the offset table `2^31, 2^31 + 1` says; the offset is read as the negative number
  `-2^31` and the read fails. -/
theorem readSectorCompressedFile_reconstructs_counterexample :
    (zeroSectorArchive.header.SectorSizeShift = 23 ∧
      readAt zeroSectorArchive.f 8 0 = some (putLe32 8 ++ putLe32 9) ∧
      readAt zeroSectorArchive.f 1 8 = some [7] ∧
      zeroSectorBlock.UncompressedSize = 1 ∧
      zeroSectorArchive.readSectorCompressedFile exampleLib 0 zeroSectorBlock (ascii "z")
        = .error .fault) ∧
    (wrapSectorArchive.sectorSize = 2 ^ 31 ∧
      wrapSectorBlock.UncompressedSize = 2 ^ 31 + 1 ∧
      readAt wrapSectorArchive.f 12 0 = some (putLe32 12 ++ putLe32 14 ++ putLe32 15) ∧
      readAt wrapSectorArchive.f 2 12 = some [0x02, 0x00] ∧
      bigLib.inflate [0x00] = some (List.replicate (2 ^ 31) 0x41) ∧
      readAt wrapSectorArchive.f 1 14 = some [0x43] ∧
      wrapSectorArchive.readSectorCompressedFile bigLib 0 wrapSectorBlock (ascii "w")
        ≠ .ok wrapSectorData) ∧
    (farSectorArchive.sectorSize = 512 ∧ farSectorBlock.UncompressedSize = 1 ∧
      readAt farSectorArchive.f 8 0 = some (putLe32 (2 ^ 31) ++ putLe32 (2 ^ 31 + 1)) ∧
      readAt farSectorArchive.f 1 ((2 ^ 31 : Nat) : Int) = some [7] ∧
      farSectorArchive.readSectorCompressedFile exampleLib 0 farSectorBlock (ascii "f")
        = .error (.error .io)) := by
  have a1 : readAt zeroSectorArchive.f 8 0 = some (putLe32 8 ++ putLe32 9) := by decide!
  have a2 : readAt zeroSectorArchive.f 1 8 = some [7] := by decide!
  have a3 : zeroSectorArchive.readSectorCompressedFile exampleLib 0 zeroSectorBlock (ascii "z")
      = .error .fault := by decide!
  have b1 : wrapSectorArchive.sectorSize = 2 ^ 31 := by decide!
  have b2 : readAt wrapSectorArchive.f 12 0 = some (putLe32 12 ++ putLe32 14 ++ putLe32 15) := by
    decide!
  have b3 : readAt wrapSectorArchive.f 2 12 = some [0x02, 0x00] := by decide!
  have b4 : bigLib.inflate [0x00] = some (List.replicate (2 ^ 31) 0x41) := by
    show (if [0x00] = [0] then some (List.replicate (2 ^ 31) 0x41) else none) = _
    exact if_pos rfl
  have b5 : readAt wrapSectorArchive.f 1 14 = some [0x43] := by decide!
  have b6 : wrapSectorArchive.readSectorCompressedFile bigLib 0 wrapSectorBlock (ascii "w")
      ≠ .ok wrapSectorData :=
    readSectorCompressedFile_no_sectors_ne bigLib wrapSectorArchive 0 wrapSectorBlock (ascii "w")
      [12] (2 ^ 31) 0x41 [0x43] (by decide!) (by decide!) (by decide!) (by decide!)
      (Nat.pow_pos (by decide)) (by decide)
  have c1 : farSectorArchive.sectorSize = 512 := by decide!
  have hf : farSectorArchive.f =
      [0, 0, 0, 128, 1, 0, 0, 128] ++ (List.replicate (2 ^ 31 - 8) 0 ++ [7]) := rfl
  have c2 : readAt farSectorArchive.f 8 0 = some (putLe32 (2 ^ 31) ++ putLe32 (2 ^ 31 + 1)) := by
    have : putLe32 (2 ^ 31) ++ putLe32 (2 ^ 31 + 1) = [0, 0, 0, 128, 1, 0, 0, 128] := by decide
    rw [hf, this]
    exact readAt_table8 _
  have c3 : readAt farSectorArchive.f 1 ((2 ^ 31 : Nat) : Int) = some [7] := by
    rw [hf, ← List.append_assoc]
    exact readAt_after _ _ 7
      (by rw [List.length_append, List.length_replicate]; decide)
  have c4 : farSectorArchive.readSectorCompressedFile exampleLib 0 farSectorBlock (ascii "f")
      = .error (.error .io) :=
    readSectorCompressedFile_far exampleLib farSectorArchive farSectorBlock (ascii "f")
      (List.replicate (2 ^ 31 - 8) 0 ++ [7]) rfl (by decide!) (by decide!) (by decide!)
      (by decide)
  exact ⟨⟨rfl, a1, a2, rfl, a3⟩, ⟨b1, rfl, b2, b3, b4, b5, b6⟩, ⟨c1, rfl, c2, c3, c4⟩⟩

/-! ## Claims on the filesystem adapter -/

/-- Replacing the slashes twice is replacing them once. -/
theorem replaceSlash_idem (s : List Nat) : replaceSlash (replaceSlash s) = replaceSlash s := by
  unfold replaceSlash
  rw [List.map_map]
  apply List.map_congr_left
  intro c _
  simp only [Function.comp]
  split <;> simp

/-- One leading slash is trimmed. -/
theorem trimPrefixSlash_cons (p : List Nat) : trimPrefixSlash (0x2F :: p) = p := rfl

/-- A name that does not start with a slash is not trimmed. -/
theorem trimPrefixSlash_of_head (p : List Nat) (hp : p.head? ≠ some 0x2F) :
    trimPrefixSlash p = p := by
  unfold trimPrefixSlash
  split
  · simp at hp
  · rfl

/-- Two reads in a row return a prefix of what is left. -/
theorem take_append_take_drop (d : List Nat) (n k : Nat) :
    d.take n ++ (d.drop (d.take n).length).take k = d.take (n + k) := by
  rw [List.length_take]
  by_cases h : n ≤ d.length
  · rw [Nat.min_eq_left h, List.take_add]
  · rw [Nat.min_eq_right (by omega), List.drop_length, List.take_nil, List.append_nil,
      List.take_of_length_le (by omega), List.take_of_length_le (by omega)]

/-- A sequence of reads returns the next bytes of the file, as many as the buffers hold, and
leaves the position behind them. -/
theorem readSeq_eq (ns : List Nat) : ∀ f : memFile,
    (f.readSeq ns).1 = (f.r.s.drop f.r.i).take ns.sum ∧
    (f.readSeq ns).2.r.s = f.r.s ∧
    (f.readSeq ns).2.r.i = f.r.i + ((f.r.s.drop f.r.i).take ns.sum).length := by
  induction ns with
  | nil => intro f; simp [memFile.readSeq]
  | cons n ns ih =>
    intro f
    rw [memFile.readSeq, List.sum_cons]
    by_cases hend : f.r.i ≥ f.r.s.length
    · have hread : f.Read n = (([], some .eof), f) := by
        unfold memFile.Read Reader.Read
        rw [if_pos hend]
      have hdrop : f.r.s.drop f.r.i = [] := List.drop_eq_nil_of_le hend
      obtain ⟨h1, h2, h3⟩ := ih f
      rw [hread]
      simp only [h1, h2, h3, hdrop, List.take_nil, List.nil_append, List.length_nil, Nat.add_zero,
        and_self]
    · have hread : f.Read n = ((((f.r.s.drop f.r.i).take n), none),
          { f with r := { f.r with i := f.r.i + ((f.r.s.drop f.r.i).take n).length } }) := by
        unfold memFile.Read Reader.Read
        rw [if_neg hend]
      obtain ⟨h1, h2, h3⟩ := ih { f with r := { f.r with
        i := f.r.i + ((f.r.s.drop f.r.i).take n).length } }
      rw [hread]
      simp only [h1, h2, h3]
      simp only [← List.drop_drop, take_append_take_drop, true_and]
      rw [← take_append_take_drop (f.r.s.drop f.r.i) n ns.sum, List.length_append]
      omega

/-- The handle that `FS.Open` returns for the bytes `data`: its size is their length, a
sequence of reads yields them in order, and once they are all read the next read is at end of
file. -/
theorem memFile_reads (data name : List Nat) :
    (({ r := { s := data, i := 0 }, size := data.length, name := name } : memFile).Stat.Size
      = data.length) ∧
    (∀ ns : List Nat,
      (({ r := { s := data, i := 0 }, size := data.length, name := name } : memFile).readSeq
        ns).1 = data.take ns.sum) ∧
    (∀ ns : List Nat, data.length ≤ ns.sum →
      (({ r := { s := data, i := 0 }, size := data.length, name := name } : memFile).readSeq
        ns).1 = data ∧
      ∀ n, ((({ r := { s := data, i := 0 }, size := data.length, name := name } :
        memFile).readSeq ns).2.Read n).1 = ([], some .eof)) := by
  refine ⟨rfl, fun ns => ?_, fun ns hns => ?_⟩
  · exact (readSeq_eq ns _).1
  · obtain ⟨h1, h2, h3⟩ := readSeq_eq ns
      ({ r := { s := data, i := 0 }, size := data.length, name := name } : memFile)
    simp only [List.drop_zero, Nat.zero_add] at h1 h2 h3
    rw [List.take_of_length_le hns] at h1 h3
    refine ⟨h1, fun n => ?_⟩
    unfold memFile.Read Reader.Read
    rw [if_pos (by rw [h2, h3])]

/-- The result of `FS.Open` in terms of the result of `MPQStack.ReadFile`. -/
theorem FS_Open_eq (lib : Lib) (s : MPQStack) (p : List Nat) (hp : p.head? ≠ some 0x2F) :
    FS.Open lib (NewFS s) p =
      match s.ReadFile lib (replaceSlash p) with
      | .ok data =>
        .ok { r := { s := data, i := 0 }, size := data.length, name := pathBase (replaceSlash p) }
      | .error (.error _) => .error (.error .notExist)
      | .error .fault => .error .fault := by
  unfold FS.Open NewFS
  rw [trimPrefixSlash_of_head p hp]

/-- The newest archive of a stack answers `MPQStack.ReadFile` when it holds the name. -/
theorem ReadFile_newest (lib : Lib) (older : List MPQ) (m : MPQ) (name d : List Nat)
    (hd : m.ReadFile lib (replaceSlash name) = .ok d) :
    (buildStack (older ++ [m])).ReadFile lib name = .ok d := by
  unfold MPQStack.ReadFile
  rw [buildStack_archives, if_neg (by simp), List.length_append, List.length_singleton]
  exact readLoop_hit lib _ _ older.length m d
    (by rw [buildStack_archives]; exact getElem?_append_cons_length older [] m) hd

/-- C12. Path normalization end to end: for every stack and every path `p` that does not
start with '/', `FS.Open(p)` and `FS.Open("/" + p)` have the same result; they succeed exactly
when `MPQStack.ReadFile` succeeds on `p` with every '/' replaced by '\'; the handle then has
`Size` equal to the length of those bytes and yields exactly those bytes when read
sequentially, followed by end of file. In particular a single-unit, uncompressed, unencrypted
file stored under `a\b.txt` in the newest archive is returned byte-for-byte for `a/b.txt`. -/
theorem FS_Open_path_normalization (lib : Lib) :
    (∀ (s : MPQStack) (p : List Nat), p.head? ≠ some 0x2F →
      FS.Open lib (NewFS s) (0x2F :: p) = FS.Open lib (NewFS s) p ∧
      ((∃ f, FS.Open lib (NewFS s) p = .ok f) ↔
        ∃ data, s.ReadFile lib (replaceSlash p) = .ok data) ∧
      (∀ data, s.ReadFile lib (replaceSlash p) = .ok data →
        ∃ f, FS.Open lib (NewFS s) p = .ok f ∧ FS.Open lib (NewFS s) (0x2F :: p) = .ok f ∧
          f.Stat.Size = data.length ∧
          (∀ ns : List Nat, (f.readSeq ns).1 = data.take ns.sum) ∧
          (∀ ns : List Nat, data.length ≤ ns.sum →
            (f.readSeq ns).1 = data ∧ ∀ n, ((f.readSeq ns).2.Read n).1 = ([], some .eof)))) ∧
    (∀ (older : List MPQ) (m : MPQ) (c : HashEntry) (cs : List HashEntry) (block : BlockEntry)
      (raw : List Nat),
      m.findHashEntries lib (ascii "a\\b.txt") = .ok (c :: cs) →
      m.blockTable[(selectEntry c cs).BlockIdx]? = some block →
      block.Flags &&& MPQ_FILE_SINGLE_UNIT ≠ 0 →
      block.Flags &&& MPQ_FILE_ENCRYPTED = 0 →
      block.Flags &&& MPQ_FILE_COMPRESS_MASK = 0 →
      readAt m.f block.CompressedSize (block.Offset : Int) = some raw →
      ∃ f, FS.Open lib (NewFS (buildStack (older ++ [m]))) (ascii "a/b.txt") = .ok f ∧
        f.Stat.Size = raw.length ∧ ∀ ns : List Nat, raw.length ≤ ns.sum →
          (f.readSeq ns).1 = raw) := by
  constructor
  · intro s p hp
    have hsame : FS.Open lib (NewFS s) (0x2F :: p) = FS.Open lib (NewFS s) p := by
      unfold FS.Open
      rw [trimPrefixSlash_cons, trimPrefixSlash_of_head p hp]
    refine ⟨hsame, ?_, ?_⟩
    · rw [FS_Open_eq lib s p hp]
      constructor
      · rintro ⟨f, hf⟩
        cases hr : s.ReadFile lib (replaceSlash p) with
        | ok data => exact ⟨data, rfl⟩
        | error e =>
          rw [hr] at hf
          cases e with
          | error e2 => cases hf
          | fault => cases hf
      · rintro ⟨data, hd⟩
        rw [hd]
        exact ⟨_, rfl⟩
    · intro data hd
      have ho : FS.Open lib (NewFS s) p = .ok
          { r := { s := data, i := 0 }, size := data.length,
            name := pathBase (replaceSlash p) } := by
        rw [FS_Open_eq lib s p hp, hd]
      obtain ⟨h1, h2, h3⟩ := memFile_reads data (pathBase (replaceSlash p))
      exact ⟨_, ho, hsame.trans ho, h1, h2, h3⟩
  · intro older m c cs block raw hfind hblock hsu henc hmask hread
    have hname : replaceSlash (replaceSlash (ascii "a/b.txt")) = ascii "a\\b.txt" := by decide
    have hm : m.ReadFile lib (replaceSlash (replaceSlash (ascii "a/b.txt"))) = .ok raw := by
      rw [hname]
      unfold MPQ.ReadFile
      rw [hfind]
      simp only [hblock]
      unfold MPQ.readBlock
      simp only [hsu, ne_eq, not_false_eq_true, if_true, hread, henc, not_true_eq_false,
        if_false, hmask]
    have hs := ReadFile_newest lib older m (replaceSlash (ascii "a/b.txt")) raw hm
    have ho := FS_Open_eq lib (buildStack (older ++ [m])) (ascii "a/b.txt") (by decide)
    rw [hs] at ho
    obtain ⟨h1, -, h3⟩ := memFile_reads raw (pathBase (replaceSlash (ascii "a/b.txt")))
    exact ⟨_, ho, h1, fun ns hns => (h3 ns hns).1⟩

/-- The example archive `pathFile` opens. -/
theorem Open_pathFile : Open exampleLib pathFile = .ok pathArchive := by decide!

/-- Witness of C12: with the example archive that holds `"hi"` under `a\b.txt`, both
`a/b.txt` and `/a/b.txt` open a handle of size 2 that yields `"hi"`, and a name that is not in
the archive does not open. -/
theorem FS_Open_path_normalization_witness :
    (ascii "a/b.txt").head? ≠ some 0x2F ∧
    (buildStack [pathArchive]).ReadFile exampleLib (replaceSlash (ascii "a/b.txt"))
      = .ok (ascii "hi") ∧
    FS.Open exampleLib (NewFS (buildStack [pathArchive])) (ascii "/a/b.txt")
      = FS.Open exampleLib (NewFS (buildStack [pathArchive])) (ascii "a/b.txt") ∧
    FS.Open exampleLib (NewFS (buildStack [pathArchive])) (ascii "a/b.txt")
      = .ok { r := { s := ascii "hi", i := 0 }, size := 2, name := ascii "a\\b.txt" } ∧
    FS.Open exampleLib (NewFS (buildStack [pathArchive])) (ascii "a/c.txt")
      = .error (.error .notExist) := by
  have h0 : (ascii "a/b.txt").head? ≠ some 0x2F := by decide
  have h1 : (buildStack [pathArchive]).ReadFile exampleLib (replaceSlash (ascii "a/b.txt"))
      = .ok (ascii "hi") := by decide!
  have h2 : FS.Open exampleLib (NewFS (buildStack [pathArchive])) (ascii "a/b.txt")
      = .ok { r := { s := ascii "hi", i := 0 }, size := 2, name := ascii "a\\b.txt" } := by
    decide!
  have h3 : FS.Open exampleLib (NewFS (buildStack [pathArchive])) (ascii "a/c.txt")
      = .error (.error .notExist) := by decide!
  exact ⟨h0, h1,
    ((FS_Open_path_normalization exampleLib).1 (buildStack [pathArchive]) (ascii "a/b.txt")
      h0).1, h2, h3⟩

/-! ## Claims on the frame of the cipher -/

/-- The first `4 * j` bytes of the output of the decryption loop are the output of the loop on
the first `4 * j` bytes of the buffer. -/
theorem decryptLoop_take (j : Nat) : ∀ (p : List Nat) (key seed : Nat),
    (decryptLoop p key seed).take (4 * j) = decryptLoop (p.take (4 * j)) key seed := by
  induction j with
  | zero => intro p key seed; simp [decryptLoop]
  | succ j ih =>
    intro p key seed
    have short : ∀ l : List Nat, l.length < 4 →
        (decryptLoop l key seed).take (4 * (j + 1))
          = decryptLoop (l.take (4 * (j + 1))) key seed := by
      intro l hl
      rw [List.take_of_length_le (l := l) (by omega), decryptLoop_short l key seed hl,
        List.take_of_length_le (by omega)]
    match p with
    | b0 :: b1 :: b2 :: b3 :: rest =>
      have e : 4 * (j + 1) = 4 * j + 1 + 1 + 1 + 1 := by omega
      rw [e, List.take_succ_cons, List.take_succ_cons, List.take_succ_cons,
        List.take_succ_cons, decryptLoop_cons4, decryptLoop_cons4, ← ih]
      simp [putLe32]
    | [] => exact short _ (by decide)
    | [_] => exact short _ (by simp)
    | [_, _] => exact short _ (by simp)
    | [_, _, _] => exact short _ (by simp)

/-- The bytes after the last whole word are left as they are. -/
theorem decryptLoop_drop : ∀ (n : Nat) (p : List Nat), p.length = n → ∀ key seed,
    (decryptLoop p key seed).drop (4 * (p.length / 4)) = p.drop (4 * (p.length / 4)) := by
  intro n
  induction n using Nat.strong_induction_on with
  | _ n ih =>
    intro p hn key seed
    match p, hn with
    | b0 :: b1 :: b2 :: b3 :: rest, hn =>
      have e : 4 * ((b0 :: b1 :: b2 :: b3 :: rest).length / 4)
          = 4 * (rest.length / 4) + 1 + 1 + 1 + 1 := by
        simp only [List.length_cons]; omega
      rw [e, decryptLoop_cons4]
      simp only [putLe32, List.cons_append, List.nil_append, List.drop_succ_cons]
      exact ih rest.length (by simp at hn; omega) rest rfl _ _
    | [], _ => simp [decryptLoop]
    | [_], _ => simp [decryptLoop]
    | [_, _], _ => simp [decryptLoop]
    | [_, _, _], _ => simp [decryptLoop]

/-- C29. `mpqDecrypt` never changes the length of the buffer and touches only whole 32-bit
words: for every key and every buffer `p` of length `n`, the bytes from `4 * floor(n/4)` on
(the last `n mod 4` bytes) are unchanged; the first `4 * floor(n/4)` bytes are the result of
decrypting that prefix alone with the same key; for every `i` the first `i + 1` output words
are the result of decrypting the first `i + 1` input words alone, so two buffers that agree on
the words `0..i` give the same output words `0..i`; a buffer shorter than 4 bytes is returned
untouched. -/
theorem mpqDecrypt_frame (key : Nat) (p : List Nat) :
    (mpqDecrypt p key).length = p.length ∧
    (mpqDecrypt p key).drop (4 * (p.length / 4)) = p.drop (4 * (p.length / 4)) ∧
    (p.drop (4 * (p.length / 4))).length = p.length % 4 ∧
    (mpqDecrypt p key).take (4 * (p.length / 4)) = mpqDecrypt (p.take (4 * (p.length / 4))) key ∧
    (∀ i, (mpqDecrypt p key).take (4 * (i + 1)) = mpqDecrypt (p.take (4 * (i + 1))) key) ∧
    (∀ (q : List Nat) (i : Nat), p.take (4 * (i + 1)) = q.take (4 * (i + 1)) →
      (mpqDecrypt p key).take (4 * (i + 1)) = (mpqDecrypt q key).take (4 * (i + 1))) ∧
    (p.length < 4 → mpqDecrypt p key = p) := by
  refine ⟨decryptLoop_length _ p rfl key _, decryptLoop_drop _ p rfl key _, ?_,
    decryptLoop_take _ p key _, fun i => decryptLoop_take _ p key _, fun q i h => ?_,
    fun h => decryptLoop_short p key _ h⟩
  · rw [List.length_drop]; omega
  · unfold mpqDecrypt
    rw [decryptLoop_take, decryptLoop_take, h]

/-- Witness of C29: a buffer of six bytes keeps its last two bytes, its first four bytes are
the decryption of the first word alone, and a buffer of three bytes is untouched. -/
theorem mpqDecrypt_frame_witness :
    (mpqDecrypt [1, 2, 3, 4, 5, 6] 7).drop 4 = [5, 6] ∧
    (mpqDecrypt [1, 2, 3, 4, 5, 6] 7).take 4 = mpqDecrypt [1, 2, 3, 4] 7 ∧
    (mpqDecrypt [1, 2, 3, 4, 5, 6, 7, 8] 7).take 4
      = (mpqDecrypt [1, 2, 3, 4, 9, 9, 9, 9] 7).take 4 ∧
    mpqDecrypt [1, 2, 3] 7 = [1, 2, 3] :=
  ⟨(mpqDecrypt_frame 7 [1, 2, 3, 4, 5, 6]).2.1, (mpqDecrypt_frame 7 [1, 2, 3, 4, 5, 6]).2.2.2.1,
    (mpqDecrypt_frame 7 [1, 2, 3, 4, 5, 6, 7, 8]).2.2.2.2.2.1 [1, 2, 3, 4, 9, 9, 9, 9] 0 rfl,
    (mpqDecrypt_frame 7 [1, 2, 3]).2.2.2.2.2.2 (by decide)⟩

/-! ## Claims on keys, plain files and malformed tables -/

/-- A string without '/' is not changed by the replacement of the slashes. -/
theorem replaceSlash_of_no_slash (s : List Nat) (h : ∀ c ∈ s, c ≠ 0x2F) :
    replaceSlash s = s := by
  unfold replaceSlash
  conv => rhs; rw [← List.map_id s]
  apply List.map_congr_left
  intro c hc
  rw [if_neg (h c hc)]; rfl

/-- The first backslash of a reversed name is behind the reversed base name. -/
theorem indexOf?_reverse_base (base pre : List Nat) (h : ∀ c ∈ base, c ≠ 0x5C) :
    (base.reverse ++ 0x5C :: pre).indexOf? 0x5C = some base.length := by
  unfold List.indexOf?
  rw [List.findIdx?_append]
  have : base.reverse.findIdx? (fun x => x == 0x5C) = none := by
    rw [List.findIdx?_eq_none_iff]
    intro x hx
    simp
    exact h x (List.mem_reverse.mp hx)
  rw [this]
  simp [List.findIdx?_cons]

/-- The base name of `dir`, a separator and `base` is `base`, when `base` holds no
separator. -/
theorem baseNameForKey_dir (dir base : List Nat) (sep : Nat)
    (hsep : sep = 0x2F ∨ sep = 0x5C) (h : ∀ c ∈ base, c ≠ 0x2F ∧ c ≠ 0x5C) :
    baseNameForKey (dir ++ sep :: base) = base := by
  have e : replaceSlash (dir ++ sep :: base) = replaceSlash dir ++ 0x5C :: base := by
    have hb := replaceSlash_of_no_slash base (fun c hc => (h c hc).1)
    unfold replaceSlash at hb ⊢
    rw [List.map_append, List.map_cons, hb]
    rcases hsep with rfl | rfl <;> simp
  unfold baseNameForKey
  simp only [e, List.reverse_append, List.reverse_cons, List.append_assoc, List.singleton_append]
  rw [indexOf?_reverse_base base _ (fun c hc => (h c hc).2)]
  simp only [List.length_append, List.length_cons]
  have hl : (replaceSlash dir).length + (base.length + 1) - base.length
      = (replaceSlash dir ++ [0x5C]).length := by
    rw [List.length_append, List.length_singleton]; omega
  have ha : replaceSlash dir ++ 0x5C :: base = (replaceSlash dir ++ [0x5C]) ++ base := by
    rw [List.append_assoc]; rfl
  rw [hl, ha, List.drop_left]

/-- The base name of a name without a separator is the name. -/
theorem baseNameForKey_base (base : List Nat) (h : ∀ c ∈ base, c ≠ 0x2F ∧ c ≠ 0x5C) :
    baseNameForKey base = base := by
  have e := replaceSlash_of_no_slash base (fun c hc => (h c hc).1)
  unfold baseNameForKey
  simp only [e]
  have : base.reverse.indexOf? 0x5C = none := by
    unfold List.indexOf?
    rw [List.findIdx?_eq_none_iff]
    intro x hx
    simp
    exact (h x (List.mem_reverse.mp hx)).2
  rw [this]

/-- The archive position that `Open` records is 32, the number of header bytes it has read,
minus the header size that the header declares. -/
theorem Open_archivePos (lib : Lib) (file : List Nat) (m : MPQ) (h : Open lib file = .ok m) :
    m.archivePos = 32 - (m.header.HeaderSize : Int) := by
  unfold Open at h
  cases h1 : readAt file 32 0 with
  | none => rewrite [h1] at h; cases h
  | some hb =>
    rewrite [h1] at h
    simp only [] at h
    by_cases hid : (parseHeader hb).ID ≠ 0x1A51504D
    · rewrite [if_pos hid] at h; cases h
    · rewrite [if_neg hid] at h
      cases h2 : readEncryptedTable file (parseHeader hb).HashTableOffset
          (parseHeader hb).HashTableEntries
          (mpqHashString lib (ascii "(hash table)") MPQ_HASH_FILE_KEY) with
      | error e => rewrite [h2] at h; cases h
      | ok hbuf =>
        rewrite [h2] at h
        simp only [] at h
        cases h3 : readEncryptedTable file (parseHeader hb).BlockTableOffset
            (parseHeader hb).BlockTableEntries
            (mpqHashString lib (ascii "(block table)") MPQ_HASH_FILE_KEY) with
        | error e => rewrite [h3] at h; cases h
        | ok bbuf =>
          rewrite [h3] at h
          cases h
          rfl

/-- The example archive `v2File` opens. -/
theorem Open_v2File : Open exampleLib v2File = .ok v2Archive := by decide!

/-- C25 (failure of the code). For every opened archive the key of a file without the fix-key
flag is `Hash(baseName(name), file-key kind)`, where the base name is the part after the last
'/' or '\'; with the fix-key flag the key is
`(Hash(baseName(name), file-key kind) + offset + headerSize - 32) XOR uncompressedSize` in
32-bit arithmetic, `offset` being the stored offset of the block: this is the key of the
description when the header declares the size 32 and differs from it otherwise. The example
archive with the header size 44 opens, and the key of its file `dir\x.txt` at the offset 44 is
`(Hash + 56) XOR 4`, not `(Hash + 44) XOR 4`. -/
theorem fileKey_header_size (lib : Lib) :
    (∀ (file : List Nat) (m : MPQ) (name : List Nat) (block : BlockEntry),
      Open lib file = .ok m →
      (block.Flags &&& MPQ_FILE_FIX_KEY = 0 →
        m.fileKey lib name block (block.Offset : Int)
          = mpqHashString lib (baseNameForKey name) MPQ_HASH_FILE_KEY) ∧
      (block.Flags &&& MPQ_FILE_FIX_KEY ≠ 0 →
        m.fileKey lib name block (block.Offset : Int)
          = ((mpqHashString lib (baseNameForKey name) MPQ_HASH_FILE_KEY +
              (block.Offset + m.header.HeaderSize + 2 ^ 32 - 32) % 2 ^ 32) % 2 ^ 32)
            ^^^ block.UncompressedSize) ∧
      (block.Flags &&& MPQ_FILE_FIX_KEY ≠ 0 → m.header.HeaderSize = 32 →
        block.Offset < 2 ^ 32 →
        m.fileKey lib name block (block.Offset : Int)
          = ((mpqHashString lib (baseNameForKey name) MPQ_HASH_FILE_KEY + block.Offset)
              % 2 ^ 32) ^^^ block.UncompressedSize)) ∧
    (∀ (dir base : List Nat) (sep : Nat), sep = 0x2F ∨ sep = 0x5C →
      (∀ c ∈ base, c ≠ 0x2F ∧ c ≠ 0x5C) →
      baseNameForKey (dir ++ sep :: base) = base ∧ baseNameForKey base = base) ∧
    (Open exampleLib v2File = .ok v2Archive ∧ v2Archive.header.HeaderSize = 44 ∧
      v2Archive.blockTable = [v2Block] ∧ v2Block.Flags &&& MPQ_FILE_FIX_KEY ≠ 0 ∧
      v2Block.Offset = 44 ∧ v2Block.UncompressedSize = 4 ∧
      mpqHashString exampleLib (baseNameForKey (ascii "dir\\x.txt")) MPQ_HASH_FILE_KEY
        = 927827393 ∧
      v2Archive.fileKey exampleLib (ascii "dir\\x.txt") v2Block (v2Block.Offset : Int)
        = ((927827393 + 56) % 2 ^ 32) ^^^ 4 ∧
      v2Archive.fileKey exampleLib (ascii "dir\\x.txt") v2Block (v2Block.Offset : Int)
        ≠ ((927827393 + 44) % 2 ^ 32) ^^^ 4) := by
  refine ⟨fun file m name block hopen => ?_, fun dir base sep hsep hbase =>
    ⟨baseNameForKey_dir dir base sep hsep hbase, baseNameForKey_base base hbase⟩, ?_⟩
  · have hpos := Open_archivePos lib file m hopen
    have hoff : (((block.Offset : Int) - m.archivePos) % 2 ^ 32).toNat
        = (block.Offset + m.header.HeaderSize + 2 ^ 32 - 32) % 2 ^ 32 := by
      rw [hpos]; omega
    refine ⟨fun h0 => ?_, fun h1 => ?_, fun h1 h32 hlt => ?_⟩
    · unfold MPQ.fileKey
      simp only [h0, ne_eq, not_true_eq_false, if_false]
    · unfold MPQ.fileKey
      simp only [h1, ne_eq, not_false_eq_true, if_true, hoff]
    · unfold MPQ.fileKey
      have e2 : (block.Offset + 32 + 2 ^ 32 - 32) % 2 ^ 32 = block.Offset := by omega
      simp only [h1, ne_eq, not_false_eq_true, if_true, hoff, h32, e2]
  · have h1 : Open exampleLib v2File = .ok v2Archive := Open_v2File
    have h2 : mpqHashString exampleLib (baseNameForKey (ascii "dir\\x.txt")) MPQ_HASH_FILE_KEY
        = 927827393 := by decide!
    have h3 : v2Archive.fileKey exampleLib (ascii "dir\\x.txt") v2Block (v2Block.Offset : Int)
        = ((927827393 + 56) % 2 ^ 32) ^^^ 4 := by decide!
    have h4 : v2Archive.fileKey exampleLib (ascii "dir\\x.txt") v2Block (v2Block.Offset : Int)
        ≠ ((927827393 + 44) % 2 ^ 32) ^^^ 4 := by decide!
    exact ⟨h1, rfl, rfl, by decide, rfl, rfl, h2, h3, h4⟩

/-- C26. Plain storage mode: for every block entry with neither the single-unit flag nor any
compression-mask bit set, whatever its other flags (in particular the encrypted flag),
`MPQ.ReadFile` is the read of `uncompressedSize` bytes of the archive file at the block's
offset and nothing else: when the file holds these bytes it returns exactly them, unmodified,
and otherwise it returns the read error. -/
theorem ReadFile_plain (lib : Lib) (m : MPQ) (name : List Nat) (c : HashEntry)
    (cs : List HashEntry) (block : BlockEntry)
    (hfind : m.findHashEntries lib name = .ok (c :: cs))
    (hblock : m.blockTable[(selectEntry c cs).BlockIdx]? = some block)
    (hsu : block.Flags &&& MPQ_FILE_SINGLE_UNIT = 0)
    (hmask : block.Flags &&& MPQ_FILE_COMPRESS_MASK = 0) :
    (block.Offset + block.UncompressedSize ≤ m.f.length →
      m.ReadFile lib name = .ok ((m.f.drop block.Offset).take block.UncompressedSize) ∧
      ((m.f.drop block.Offset).take block.UncompressedSize).length
        = block.UncompressedSize) ∧
    (m.f.length < block.Offset + block.UncompressedSize → 0 < block.UncompressedSize →
      m.ReadFile lib name = .error (.error .io)) := by
  have hr : m.ReadFile lib name =
      match readAt m.f block.UncompressedSize (block.Offset : Int) with
      | none => .error (.error .io)
      | some out => .ok out := by
    unfold MPQ.ReadFile
    rw [hfind]
    simp only [hblock]
    unfold MPQ.readBlock
    simp only [hsu, hmask, ne_eq, not_true_eq_false, if_false]
  constructor
  · intro hfile
    have hread : readAt m.f block.UncompressedSize (block.Offset : Int)
        = some ((m.f.drop block.Offset).take block.UncompressedSize) := by
      unfold readAt
      rw [if_neg (by omega)]
      by_cases h0 : block.UncompressedSize = 0
      · rw [if_pos h0, h0, List.take_zero]
      · rw [if_neg h0, Int.toNat_ofNat, if_pos hfile]
    rw [hr, hread]
    refine ⟨rfl, ?_⟩
    rw [List.length_take, List.length_drop]
    omega
  · intro hshort hpos
    have hread : readAt m.f block.UncompressedSize (block.Offset : Int) = none := by
      unfold readAt
      rw [if_neg (by omega), if_neg (by omega), Int.toNat_ofNat, if_neg (by omega)]
    rw [hr, hread]

/-- Witness of C26: the plain file `plain.bin` of the example archive is read as its three
bytes `"abc"` at position 62, also when its block entry has the encrypted flag. -/
theorem ReadFile_plain_witness :
    (sampleArchive.f.drop 62).take 3 = ascii "abc" ∧
    sampleArchive.ReadFile exampleLib (ascii "plain.bin")
      = .ok ((sampleArchive.f.drop 62).take 3) ∧
    plainEncryptedArchive.ReadFile exampleLib (ascii "plain.bin")
      = .ok ((plainEncryptedArchive.f.drop 62).take 3) := by
  have h0 : (sampleArchive.f.drop 62).take 3 = ascii "abc" := by decide!
  have f1 : sampleArchive.findHashEntries exampleLib (ascii "plain.bin")
      = .ok [{ NameA := 2249760497, NameB := 3306447759, Locale := 0, Platform := 0,
               BlockIdx := 5 }] := by decide!
  have f2 : plainEncryptedArchive.findHashEntries exampleLib (ascii "plain.bin")
      = .ok [{ NameA := 2249760497, NameB := 3306447759, Locale := 0, Platform := 0,
               BlockIdx := 5 }] := by decide!
  have b1 : sampleArchive.blockTable[(selectEntry
      { NameA := 2249760497, NameB := 3306447759, Locale := 0, Platform := 0, BlockIdx := 5 }
      []).BlockIdx]? = some
      { Offset := 62, CompressedSize := 3, UncompressedSize := 3, Flags := 0x80000000 } := by
    decide!
  have b2 : plainEncryptedArchive.blockTable[(selectEntry
      { NameA := 2249760497, NameB := 3306447759, Locale := 0, Platform := 0, BlockIdx := 5 }
      []).BlockIdx]? = some
      { Offset := 62, CompressedSize := 3, UncompressedSize := 3, Flags := 0x80010000 } := by
    decide!
  have l1 : 62 + 3 ≤ sampleArchive.f.length := by decide!
  have l2 : 62 + 3 ≤ plainEncryptedArchive.f.length := by decide!
  have h1 := (ReadFile_plain exampleLib sampleArchive (ascii "plain.bin") _ _ _ f1 b1
    (by decide) (by decide)).1 l1
  have h2 := (ReadFile_plain exampleLib plainEncryptedArchive (ascii "plain.bin") _ _ _ f2 b2
    (by decide) (by decide)).1 l2
  exact ⟨h0, h1.1, h2.1⟩

/-- The example archive `badIndexFile` opens. -/
theorem Open_badIndexFile : Open exampleLib badIndexFile = .ok badIndexArchive := by decide!

/-- C28 (failure of the code). For every archive and every name whose selected hash entry has
a block index that is not smaller than the number of block-table entries, `MPQ.ReadFile`
indexes the block table out of range, a run-time panic, instead of returning an error. The
example archive, whose only hash entry has the block index 5 with a block table of one entry,
opens, and reading its file `x.txt` panics. -/
theorem ReadFile_block_index_fault (lib : Lib) :
    (∀ (m : MPQ) (name : List Nat) (c : HashEntry) (cs : List HashEntry),
      m.findHashEntries lib name = .ok (c :: cs) →
      m.blockTable.length ≤ (selectEntry c cs).BlockIdx →
      m.ReadFile lib name = .error .fault) ∧
    (Open exampleLib badIndexFile = .ok badIndexArchive ∧
      badIndexArchive.blockTable.length = 1 ∧
      badIndexArchive.findHashEntries exampleLib (ascii "x.txt")
        = .ok [{ NameA := 1987855327, NameB := 2922248539, Locale := 0, Platform := 0,
                 BlockIdx := 5 }] ∧
      badIndexArchive.ReadFile exampleLib (ascii "x.txt") = .error .fault) := by
  constructor
  · intro m name c cs hfind hidx
    unfold MPQ.ReadFile
    rw [hfind]
    simp only [List.getElem?_eq_none hidx]
  · have h1 : badIndexArchive.findHashEntries exampleLib (ascii "x.txt")
        = .ok [{ NameA := 1987855327, NameB := 2922248539, Locale := 0, Platform := 0,
                 BlockIdx := 5 }] := by decide!
    have h2 : badIndexArchive.ReadFile exampleLib (ascii "x.txt") = .error .fault := by decide!
    exact ⟨Open_badIndexFile, rfl, h1, h2⟩

/-- Within 32 bits the sector count is `ceil(uncompressedSize / sectorSize)` and the offset
table has one more entry, and one more with sector checksums. -/
theorem tableDWORDs_eq (m : MPQ) (block : BlockEntry) (hS : m.sectorSize ≠ 0)
    (hwrap : block.UncompressedSize + m.sectorSize ≤ 2 ^ 32) :
    m.sectorCount block = (block.UncompressedSize + m.sectorSize - 1) / m.sectorSize ∧
    m.tableDWORDs block = (block.UncompressedSize + m.sectorSize - 1) / m.sectorSize + 1 +
      (if block.Flags &&& MPQ_FILE_SECTOR_CRC ≠ 0 then 1 else 0) ∧
    m.tableDWORDs block * 4 < 2 ^ 32 := by
  obtain ⟨hS512, -, -⟩ := sectorSize_ge m hS
  generalize hSdef : m.sectorSize = S at *
  generalize hUdef : block.UncompressedSize = U at *
  have hn3 : (U + S - 1) / S < 2 ^ 23 := by
    apply Nat.div_lt_of_lt_mul
    have : 512 * 2 ^ 23 ≤ S * 2 ^ 23 := Nat.mul_le_mul_right _ hS512
    omega
  have hcount : m.sectorCount block = (U + S - 1) / S := by
    have e : (U + S + 2 ^ 32 - 1) % 2 ^ 32 = U + S - 1 := by omega
    unfold MPQ.sectorCount
    rw [hSdef, hUdef, e]
  have hT : m.tableDWORDs block = (U + S - 1) / S + 1 +
      (if block.Flags &&& MPQ_FILE_SECTOR_CRC ≠ 0 then 1 else 0) := by
    unfold MPQ.tableDWORDs
    rw [hcount]
    simp only []
    split <;> omega
  refine ⟨hcount, hT, ?_⟩
  rw [hT]
  split <;> omega

/-- C27 (failure of the code). With a sector size shift of 23 or more the 32-bit value
`512 << shift` is zero and `readSectorCompressedFile` panics with a division by zero, whatever
the file; with sectors of `2^31` bytes and a file of `2^31 + 1` bytes the sum
`uncompressedSize + sectorSize - 1` wraps and the offset table is read with 1 entry instead of
3. For a shift of at most 22 and `uncompressedSize + sectorSize <= 2^32` the sector size is
`512 * 2^shift` and the offset table that is read has exactly
`ceil(uncompressedSize / sectorSize) + 1` entries, plus one if the sector-checksum flag is
set. -/
theorem readSectorCompressedFile_table_size (lib : Lib) :
    (∀ (m : MPQ) (offset : Int) (block : BlockEntry) (name : List Nat),
      23 ≤ m.header.SectorSizeShift →
      m.sectorSize = 0 ∧ m.readSectorCompressedFile lib offset block name = .error .fault) ∧
    (wrapSectorArchive.sectorSize = 2 ^ 31 ∧ wrapSectorBlock.UncompressedSize = 2 ^ 31 + 1 ∧
      (2 ^ 31 + 1 + 2 ^ 31 - 1) / 2 ^ 31 + 1 = 3 ∧
      wrapSectorArchive.tableDWORDs wrapSectorBlock = 1) ∧
    (∀ (m : MPQ) (offset : Int) (block : BlockEntry) (name : List Nat),
      m.header.SectorSizeShift ≤ 22 →
      block.UncompressedSize + 512 * 2 ^ m.header.SectorSizeShift ≤ 2 ^ 32 →
      m.sectorSize = 512 * 2 ^ m.header.SectorSizeShift ∧
      m.tableDWORDs block = (block.UncompressedSize + m.sectorSize - 1) / m.sectorSize + 1 +
        (if block.Flags &&& MPQ_FILE_SECTOR_CRC ≠ 0 then 1 else 0) ∧
      (∀ L, m.sectorOffsets lib offset block name = .ok L →
        L.length = (block.UncompressedSize + m.sectorSize - 1) / m.sectorSize + 1 +
          (if block.Flags &&& MPQ_FILE_SECTOR_CRC ≠ 0 then 1 else 0)) ∧
      (readAt m.f (4 * ((block.UncompressedSize + m.sectorSize - 1) / m.sectorSize + 1 +
          (if block.Flags &&& MPQ_FILE_SECTOR_CRC ≠ 0 then 1 else 0))) offset = none →
        m.readSectorCompressedFile lib offset block name = .error (.error .io))) := by
  refine ⟨fun m offset block name h23 => ?_, ?_, fun m offset block name h22 hwrap => ?_⟩
  · have h0 : m.sectorSize = 0 := by
      by_contra hne
      have := (sectorSize_ge m hne).2.2
      omega
    refine ⟨h0, ?_⟩
    unfold MPQ.readSectorCompressedFile
    rw [if_pos h0]
  · have h1 : wrapSectorArchive.sectorSize = 2 ^ 31 := by decide!
    have h2 : wrapSectorArchive.tableDWORDs wrapSectorBlock = 1 := by decide!
    exact ⟨h1, rfl, by decide, h2⟩
  · have hpow : 2 ^ m.header.SectorSizeShift ≤ 2 ^ 22 := Nat.pow_le_pow_right (by decide) h22
    have hpos : 0 < 2 ^ m.header.SectorSizeShift := Nat.pow_pos (by decide)
    have hS : m.sectorSize = 512 * 2 ^ m.header.SectorSizeShift := by
      unfold MPQ.sectorSize
      rw [Nat.shiftLeft_eq, Nat.mod_eq_of_lt (by omega)]
    have hne : m.sectorSize ≠ 0 := by rw [hS]; omega
    obtain ⟨-, hT, hlt⟩ := tableDWORDs_eq m block hne (by rw [hS]; exact hwrap)
    refine ⟨hS, hT, fun L hL => ?_, fun hnone => ?_⟩
    · rw [← hT]
      unfold MPQ.sectorOffsets at hL
      split at hL
      · cases hL
      · split at hL <;> simp only [] at hL <;> split at hL <;>
          first
          | (cases hL; done)
          | (cases hL; rw [List.length_map, List.length_range])
    · have hoffs : m.sectorOffsets lib offset block name = .error (.error .io) := by
        unfold MPQ.sectorOffsets
        rw [Nat.mod_eq_of_lt hlt, Nat.mul_comm, hT, hnone]
      unfold MPQ.readSectorCompressedFile
      rw [if_neg hne, hoffs, bind_error]

/-! ## Claims on the cipher table -/

/-- A loop over `0, ..., k - 1` keeps an invariant that each iteration keeps. -/
theorem foldl_range_inv {σ : Type} (P : Nat → σ → Prop) (f : σ → Nat → σ) (k : Nat) (s0 : σ)
    (h0 : P 0 s0) (hstep : ∀ i s, i < k → P i s → P (i + 1) (f s i)) :
    P k ((List.range k).foldl f s0) := by
  induction k with
  | zero => exact h0
  | succ k ih =>
    rw [List.range_succ, List.foldl_append]
    exact hstep k _ (Nat.lt_succ_self k)
      (ih (fun i s hi hp => hstep i s (Nat.lt_succ_of_lt hi) hp))

/-- Every seed of the sequence is below `2^22`. -/
theorem cryptSeedSpec_lt (k : Nat) : cryptSeedSpec k < 2 ^ 22 := by
  cases k with
  | zero => decide
  | succ k =>
    rw [cryptSeedSpec]
    have : (125 * cryptSeedSpec k + 3) % 0x2AAAAB < 0x2AAAAB := Nat.mod_lt _ (by decide)
    omega

/-- On a seed below `2^22` the 32-bit update is the update over the unbounded integers. -/
theorem cryptStep_eq (s : Nat) (hs : s < 2 ^ 22) : cryptStep s = (125 * s + 3) % 0x2AAAAB := by
  have h : (s * 125 + 3) % 2 ^ 32 = s * 125 + 3 := Nat.mod_eq_of_lt (by omega)
  unfold cryptStep
  rw [h, Nat.mul_comm]

/-- The state of `init` after `n` iterations of the inner loop body: the seed is `s_(2n)` and
the entries assigned so far are those of the description. -/
theorem initBody_inv (i j : Nat) (hi : i < 256) (hj : j < 5) (st : Nat × (Nat → Nat))
    (hseed : st.1 = cryptSeedSpec (2 * (5 * i + j)))
    (htab : ∀ i2 j2, i2 < 256 → j2 < 5 → 5 * i2 + j2 < 5 * i + j →
      st.2 (i2 + 256 * j2) = cryptEntrySpec i2 j2) :
    (initBody i j st).1 = cryptSeedSpec (2 * (5 * i + j + 1)) ∧
    ∀ i2 j2, i2 < 256 → j2 < 5 → 5 * i2 + j2 < 5 * i + j + 1 →
      (initBody i j st).2 (i2 + 256 * j2) = cryptEntrySpec i2 j2 := by
  have h1 : cryptStep st.1 = cryptSeedSpec (2 * (5 * i + j) + 1) := by
    rw [hseed, cryptStep_eq _ (cryptSeedSpec_lt _), cryptSeedSpec]
  have h2 : cryptStep (cryptStep st.1) = cryptSeedSpec (2 * (5 * i + j) + 2) := by
    rw [h1, cryptStep_eq _ (cryptSeedSpec_lt _)]
    conv => rhs; rw [cryptSeedSpec]
  have hv : ((cryptStep st.1 &&& 0xFFFF) <<< 16) % 2 ^ 32 ||| (cryptStep (cryptStep st.1) &&& 0xFFFF)
      = cryptEntrySpec i j := by
    have a1 : ∀ x : Nat, x &&& 0xFFFF = x % 2 ^ 16 := fun x =>
      Nat.and_pow_two_sub_one_eq_mod x 16
    have a2 : ∀ x : Nat, ((x % 2 ^ 16) <<< 16) % 2 ^ 32 = (x % 2 ^ 16) <<< 16 := by
      intro x
      have : x % 2 ^ 16 < 2 ^ 16 := Nat.mod_lt _ (by decide)
      rw [Nat.shiftLeft_eq]
      exact Nat.mod_eq_of_lt (by omega)
    rw [h2, h1, a1, a1, a2]
    rfl
  refine ⟨?_, fun i2 j2 hi2 hj2 hlt => ?_⟩
  · show cryptStep (cryptStep st.1) = _
    rw [h2, show 2 * (5 * i + j + 1) = 2 * (5 * i + j) + 2 by omega]
  · show Function.update st.2 (i + j * 0x100)
      (((cryptStep st.1 &&& 0xFFFF) <<< 16) % 2 ^ 32 ||| (cryptStep (cryptStep st.1) &&& 0xFFFF))
      (i2 + 256 * j2) = _
    by_cases he : 5 * i2 + j2 = 5 * i + j
    · have e1 : i2 = i := by omega
      have e2 : j2 = j := by omega
      subst e1 e2
      have : i2 + 256 * j2 = i2 + j2 * 0x100 := by omega
      rw [this, Function.update_same, hv]
    · have : i2 + 256 * j2 ≠ i + j * 0x100 := by omega
      rw [Function.update_noteq this]
      exact htab i2 j2 hi2 hj2 (by omega)

/-- The state of `init` after both loops. -/
theorem cryptInit_inv :
    cryptInit.1 = cryptSeedSpec (2 * (5 * 256)) ∧
    ∀ i2 j2, i2 < 256 → j2 < 5 → 5 * i2 + j2 < 5 * 256 →
      cryptInit.2 (i2 + 256 * j2) = cryptEntrySpec i2 j2 := by
  unfold cryptInit
  exact foldl_range_inv
    (fun i st => st.1 = cryptSeedSpec (2 * (5 * i)) ∧
      ∀ i2 j2, i2 < 256 → j2 < 5 → 5 * i2 + j2 < 5 * i →
        st.2 (i2 + 256 * j2) = cryptEntrySpec i2 j2)
    (fun st i => (List.range 5).foldl (fun st j => initBody i j st) st) 0x100
    (0x00100001, fun _ => 0) ⟨rfl, fun i2 j2 _ _ h => by omega⟩
    (fun i st hi hinv =>
      have inner := foldl_range_inv
        (fun j st => st.1 = cryptSeedSpec (2 * (5 * i + j)) ∧
          ∀ i2 j2, i2 < 256 → j2 < 5 → 5 * i2 + j2 < 5 * i + j →
            st.2 (i2 + 256 * j2) = cryptEntrySpec i2 j2)
        (fun st j => initBody i j st) 5 st hinv
        (fun j st hj hst => initBody_inv i j hi hj st hst.1 hst.2)
      inner)

/-- C24. The cipher table has 1280 entries, each assigned exactly once by `init`: the entry at
`i + 256 * j` (`0 <= i < 256`, `0 <= j < 5`) is
`((s_(2n+1) mod 2^16) << 16) | (s_(2n+2) mod 2^16)` with `n = 5 * i + j`, where
`s_0 = 0x00100001` and `s_(k+1) = (125 * s_k + 3) mod 0x2AAAAB` over the unbounded integers;
every index below 1280 is `i + 256 * j` for exactly one such pair; every intermediate
`125 * s + 3` is below `2^32`, so the 32-bit update of the code is this update; and entry 0 is
`0x55C636E2`. -/
theorem cryptTable_entries :
    cryptTableLen = 1280 ∧
    (∀ i j, i < 256 → j < 5 → cryptTable (i + 256 * j) = cryptEntrySpec i j) ∧
    (∀ k, k < 1280 → ∃ i j, i < 256 ∧ j < 5 ∧ k = i + 256 * j ∧
      ∀ i2 j2, i2 < 256 → j2 < 5 → k = i2 + 256 * j2 → i2 = i ∧ j2 = j) ∧
    (∀ k, 125 * cryptSeedSpec k + 3 < 2 ^ 32 ∧
      cryptStep (cryptSeedSpec k) = cryptSeedSpec (k + 1)) ∧
    cryptTable 0 = 0x55C636E2 := by
  refine ⟨rfl, fun i j hi hj => cryptInit_inv.2 i j hi hj (by omega), fun k hk => ?_,
    fun k => ?_, ?_⟩
  · exact ⟨k % 256, k / 256, Nat.mod_lt _ (by decide), by omega, by omega,
      fun i2 j2 h1 h2 h3 => by omega⟩
  · have := cryptSeedSpec_lt k
    refine ⟨by omega, ?_⟩
    rw [cryptStep_eq _ this, cryptSeedSpec]
  · have := cryptInit_inv.2 0 0 (by decide) (by decide) (by decide)
    show cryptInit.2 0 = _
    rw [show (0 : Nat) = 0 + 256 * 0 from rfl, this]
    decide

/-- Witness of C24: the entries 0, 1 and 256 of the table and the first seeds. -/
theorem cryptTable_entries_witness :
    cryptSeedSpec 1 = 0x2555C6 ∧ cryptSeedSpec 2 = 0x1036E2 ∧
    cryptTable (0 + 256 * 0) = cryptEntrySpec 0 0 ∧ cryptEntrySpec 0 0 = 0x55C636E2 ∧
    cryptTable (0 + 256 * 1) = cryptEntrySpec 0 1 ∧
    cryptTable (1 + 256 * 0) = cryptEntrySpec 1 0 :=
  ⟨by decide, by decide, cryptTable_entries.2.1 0 0 (by decide) (by decide), by decide,
    cryptTable_entries.2.1 0 1 (by decide) (by decide),
    cryptTable_entries.2.1 1 0 (by decide) (by decide)⟩

/-! ## Claims on the raw decoder -/

/-- Two image buffers of `w` x `h` pixels with the same value in every pixel are equal. -/
theorem Painted_ext (w h : Nat) (F : Nat → Nat → List Nat) (img1 img2 : blp.RGBA)
    (h1 : blp.Painted w h F (fun _ _ => True) img1)
    (h2 : blp.Painted w h F (fun _ _ => True) img2) : img1 = img2 := by
  obtain ⟨s1, l1, w1, e1, p1⟩ := h1
  obtain ⟨s2, l2, w2, e2, p2⟩ := h2
  have hpix : img1.Pix = img2.Pix := by
    apply List.ext_getElem (by rw [l1, l2])
    intro j hj1 hj2
    have hj : j < 4 * w * h := by rw [← l1]; exact hj1
    have hp : j / 4 < w * h := by
      rw [Nat.mul_assoc] at hj; omega
    have hw : 0 < w := by
      rcases Nat.eq_zero_or_pos w with h0 | h0
      · rw [h0] at hp; simp at hp
      · exact h0
    have hx : (j / 4) % w < w := Nat.mod_lt _ hw
    have hy : (j / 4) / w < h := by
      rw [Nat.div_lt_iff_lt_mul hw, Nat.mul_comm]; exact hp
    have hidx : (j / 4) / w * (4 * w) + (j / 4) % w * 4 = 4 * (j / 4) := by
      have := Nat.div_add_mod (j / 4) w
      calc (j / 4) / w * (4 * w) + (j / 4) % w * 4
          = 4 * (w * ((j / 4) / w) + (j / 4) % w) := by ring
        _ = 4 * (j / 4) := by rw [this]
    have heq := (p1 _ _ hx hy trivial).trans (p2 _ _ hx hy trivial).symm
    unfold blp.RGBAAt at heq
    rw [s1, s2, hidx] at heq
    simp only [List.cons.injEq, and_true] at heq
    obtain ⟨q0, q1, q2, q3⟩ := heq
    have hg : ∀ k, k < 4 → 4 * (j / 4) + k = j →
        img1.Pix.getD (4 * (j / 4) + k) 0 = img2.Pix.getD (4 * (j / 4) + k) 0 →
        img1.Pix[j] = img2.Pix[j] := by
      intro k _ hk hq
      rw [hk, List.getD_eq_getElem _ _ hj1, List.getD_eq_getElem _ _ hj2] at hq
      exact hq
    have hk : j % 4 = 0 ∨ j % 4 = 1 ∨ j % 4 = 2 ∨ j % 4 = 3 := by omega
    rcases hk with hk | hk | hk | hk
    · exact hg 0 (by omega) (by omega) q0
    · exact hg 1 (by omega) (by omega) q1
    · exact hg 2 (by omega) (by omega) q2
    · exact hg 3 (by omega) (by omega) q3
  cases img1
  cases img2
  simp only [blp.RGBA.mk.injEq]
  exact ⟨hpix, s1.trans s2.symm, w1.trans w2.symm, e1.trans e2.symm⟩

/-- The loop of `decodeARGB` paints the pixels in row-major order. -/
theorem argbLoop_painted (w h : Nat) (data : List Nat) (hlen : 4 * (w * h) ≤ data.length)
    (n : Nat) : ∀ (i : Nat) (img : blp.RGBA), i + n = w * h →
      blp.Painted w h (blp.argbPixelSpec w data) (fun x y => y * w + x < i) img →
      ∃ img2, blp.argbLoop w data n i img = .ok img2 ∧
        blp.Painted w h (blp.argbPixelSpec w data) (fun _ _ => True) img2 := by
  induction n with
  | zero =>
    intro i img hi hP
    refine ⟨img, rfl, Painted_mono w h _ _ _ img hP (fun x y hx hy _ => ?_)⟩
    have := pixel_index_lt w h x y hx hy
    omega
  | succ n ih =>
    intro i img hi hP
    have hiwh : i < w * h := by omega
    have hw : 0 < w := by
      rcases Nat.eq_zero_or_pos w with h0 | h0
      · rw [h0] at hiwh; simp at hiwh
      · exact h0
    have hx : i % w < w := Nat.mod_lt _ hw
    have hy : i / w < h := by
      rw [Nat.div_lt_iff_lt_mul hw, Nat.mul_comm]; exact hiwh
    have hidx : i / w * w + i % w = i := by
      rw [Nat.mul_comm]; exact Nat.div_add_mod i w
    rw [blp.argbLoop, if_pos (by omega)]
    have hset := Painted_set w h (blp.argbPixelSpec w data) _ img hP (i % w) (i / w)
      (data.getD (i * 4 + 1) 0) (data.getD (i * 4 + 2) 0) (data.getD (i * 4 + 3) 0)
      (data.getD (i * 4 + 0) 0) hx hy
      (by unfold blp.argbPixelSpec; rw [hidx, Nat.mul_comm 4 i]; rfl)
    refine ih (i + 1) _ (by omega) (Painted_mono w h _ _ _ _ hset (fun x y hx2 hy2 ht => ?_))
    by_cases he : y * w + x = i
    · right
      have := pixel_index_inj w x y (i % w) (i / w) hx2 hx (by rw [hidx]; exact he)
      exact this
    · left; omega

/-- C23. Raw ARGB decoding: for every `w`, `h` and `data` of at least `4 * w * h` bytes,
`decodeARGB` yields an image of `w` x `h` pixels whose pixel `(x, y)`, with `i = y * w + x`,
has red `data[4i+1]`, green `data[4i+2]`, blue `data[4i+3]` and alpha `data[4i]`; iteration
`i` of the loop writes the pixel `(i mod w, i div w)`, and every pixel of the image is the
pixel of exactly one iteration `i < w * h`. -/
theorem decodeARGB_pixel_mapping (w h : Nat) (data : List Nat)
    (hlen : 4 * w * h ≤ data.length) :
    ∃ img, blp.decodeARGB w h data = .ok img ∧ img.Width = w ∧ img.Height = h ∧
      img.Stride = 4 * w ∧ img.Pix.length = 4 * w * h ∧
      (∀ x y, x < w → y < h →
        blp.RGBAAt img x y =
          [data.getD (4 * (y * w + x) + 1) 0, data.getD (4 * (y * w + x) + 2) 0,
            data.getD (4 * (y * w + x) + 3) 0, data.getD (4 * (y * w + x)) 0]) ∧
      (∀ x y, x < w → y < h →
        ∃ i, (i < w * h ∧ i % w = x ∧ i / w = y) ∧
          ∀ i2, i2 < w * h ∧ i2 % w = x ∧ i2 / w = y → i2 = i) := by
  obtain ⟨img, h1, h2⟩ := argbLoop_painted w h data (by rw [← Nat.mul_assoc]; exact hlen)
    (w * h) 0 (blp.NewRGBA w h) (by omega)
    (Painted_mono w h _ _ _ _ (NewRGBA_painted w h _) (fun x y _ _ ht => by omega))
  refine ⟨img, h1, h2.2.2.1, h2.2.2.2.1, h2.1, h2.2.1,
    fun x y hx hy => h2.2.2.2.2 x y hx hy trivial, fun x y hx hy => ?_⟩
  have hmod : (y * w + x) % w = x := by
    rw [Nat.mul_comm, Nat.mul_add_mod]; exact Nat.mod_eq_of_lt hx
  have hdiv : (y * w + x) / w = y := by
    rw [Nat.mul_comm, Nat.mul_add_div (by omega), Nat.div_eq_of_lt hx, Nat.add_zero]
  refine ⟨y * w + x, ⟨pixel_index_lt w h x y hx hy, hmod, hdiv⟩, fun i2 ⟨_, h3, h4⟩ => ?_⟩
  have := Nat.div_add_mod i2 w
  rw [h3, h4, Nat.mul_comm] at this
  exact this.symm

/-- Witness of C23: the raw data of the example texture of 2 x 1 pixels. -/
theorem decodeARGB_pixel_mapping_witness :
    4 * 2 * 1 ≤ [0xFF, 1, 2, 3, 0x80, 4, 5, 6].length ∧
    blp.decodeARGB 2 1 [0xFF, 1, 2, 3, 0x80, 4, 5, 6]
      = .ok { Pix := [1, 2, 3, 0xFF, 4, 5, 6, 0x80], Stride := 8, Width := 2, Height := 1 } ∧
    ∃ img, blp.decodeARGB 2 1 [0xFF, 1, 2, 3, 0x80, 4, 5, 6] = .ok img ∧
      blp.RGBAAt img 1 0 = [4, 5, 6, 0x80] := by
  obtain ⟨img, h1, -, -, -, -, h2, -⟩ :=
    decodeARGB_pixel_mapping 2 1 [0xFF, 1, 2, 3, 0x80, 4, 5, 6] (by decide)
  exact ⟨by decide, by decide, img, h1, h2 1 0 (by decide) (by decide)⟩

/-! ## Claims on the DXT5 decoder -/

/-- An element of a buffer of bytes, read with the default 0, is a byte. -/
theorem getD_byte (data : List Nat) (hb : ∀ b ∈ data, b < 256) (i : Nat) :
    data.getD i 0 < 256 := by
  by_cases hi : i < data.length
  · rw [List.getD_eq_getElem _ _ hi]
    exact hb _ (List.getElem_mem _)
  · rw [List.getD_eq_default _ _ (by omega)]
    decide

/-- The six-byte accumulation of `decodeDXT5` on bytes. -/
theorem alphaBits_sum (b0 b1 b2 b3 b4 b5 : Nat) (h0 : b0 < 256) (h1 : b1 < 256)
    (h2 : b2 < 256) (h3 : b3 < 256) (h4 : b4 < 256) (h5 : b5 < 256) :
    (((((((0 ||| (b0 <<< (8 * 0)) % 2 ^ 64) ||| (b1 <<< (8 * 1)) % 2 ^ 64) |||
      (b2 <<< (8 * 2)) % 2 ^ 64) ||| (b3 <<< (8 * 3)) % 2 ^ 64) |||
      (b4 <<< (8 * 4)) % 2 ^ 64) ||| (b5 <<< (8 * 5)) % 2 ^ 64)) =
      b0 + 2 ^ 8 * b1 + 2 ^ 16 * b2 + 2 ^ 24 * b3 + 2 ^ 32 * b4 + 2 ^ 40 * b5 := by
  have m : ∀ b k, b < 256 → k ≤ 40 → (b <<< k) % 2 ^ 64 = b <<< k := by
    intro b k hb hk
    apply Nat.mod_eq_of_lt
    rw [Nat.shiftLeft_eq]
    calc b * 2 ^ k < 2 ^ 8 * 2 ^ k := Nat.mul_lt_mul_of_pos_right hb (Nat.pow_pos (by decide))
      _ = 2 ^ (8 + k) := (Nat.pow_add 2 8 k).symm
      _ ≤ 2 ^ 64 := Nat.pow_le_pow_right (by decide) (by omega)
  rw [m b0 _ h0 (by omega), m b1 _ h1 (by omega), m b2 _ h2 (by omega), m b3 _ h3 (by omega),
    m b4 _ h4 (by omega), m b5 _ h5 (by omega)]
  have z : 0 ||| b0 <<< (8 * 0) = b0 := by simp
  rw [z, lor_shiftLeft_eq b0 b1 (8 * 1) (by omega), lor_shiftLeft_eq _ b2 (8 * 2) (by omega),
    lor_shiftLeft_eq _ b3 (8 * 3) (by omega), lor_shiftLeft_eq _ b4 (8 * 4) (by omega),
    lor_shiftLeft_eq _ b5 (8 * 5) (by omega)]
  omega

/-- The value `alphaBits` of `decodeDXT5` is the 48-bit little-endian value of the bytes 2..8
of the block. -/
theorem alphaBitsAt_eq (data : List Nat) (hb : ∀ b ∈ data, b < 256) (o : Nat) :
    blp.alphaBitsAt data o = blp.le48At data (o + 2) := by
  have := alphaBits_sum (data.getD (o + 2 + 0) 0) (data.getD (o + 2 + 1) 0)
    (data.getD (o + 2 + 2) 0) (data.getD (o + 2 + 3) 0) (data.getD (o + 2 + 4) 0)
    (data.getD (o + 2 + 5) 0) (getD_byte data hb _) (getD_byte data hb _) (getD_byte data hb _)
    (getD_byte data hb _) (getD_byte data hb _) (getD_byte data hb _)
  unfold blp.alphaBitsAt blp.le48At
  exact this

/-- The colour halves of `n` whole blocks are `8 * n` bytes. -/
theorem colourHalves_length (data : List Nat) (n : Nat) (hlen : 16 * n ≤ data.length) :
    (blp.colourHalves data n).length = 8 * n := by
  induction n with
  | zero => rfl
  | succ n ih =>
    unfold blp.colourHalves at ih ⊢
    rw [List.range_succ, List.flatMap_append, List.length_append, ih (by omega)]
    simp only [List.flatMap_cons, List.flatMap_nil, List.append_nil, List.length_take,
      List.length_drop]
    omega

/-- The byte `j` of the colour half of the block `k` is the byte `8 + j` of that block. -/
theorem colourHalves_getD (data : List Nat) (n : Nat) (hlen : 16 * n ≤ data.length)
    (k j : Nat) (hk : k < n) (hj : j < 8) :
    (blp.colourHalves data n).getD (8 * k + j) 0 = data.getD (16 * k + 8 + j) 0 := by
  induction n with
  | zero => omega
  | succ n ih =>
    have hl := colourHalves_length data n (by omega)
    have hs : blp.colourHalves data (n + 1)
        = blp.colourHalves data n ++ (data.drop (16 * n + 8)).take 8 := by
      unfold blp.colourHalves
      rw [List.range_succ, List.flatMap_append]
      simp only [List.flatMap_cons, List.flatMap_nil, List.append_nil]
    rw [hs]
    by_cases hkn : k < n
    · rw [List.getD_append _ _ _ _ (by omega)]
      exact ih (by omega) hkn
    · have hkn2 : k = n := by omega
      subst hkn2
      rw [List.getD_append_right _ _ _ _ (by omega), hl,
        show 8 * k + j - 8 * k = j by omega]
      rw [List.getD_eq_getElem?_getD, List.getD_eq_getElem?_getD, List.getElem?_take_of_lt hj,
        List.getElem?_drop]

/-- The inner loop of `decodeDXT5` paints the pixels of one row of a block. -/
theorem dxt5_px_painted (w h bx by_ py : Nat) (alpha : List Nat) (alphaBits : Nat)
    (colors : List (List Nat)) (indices : Nat)
    (F : Nat → Nat → List Nat) (L : List Nat) (S : Nat → Nat → Prop) (img : blp.RGBA)
    (hF : ∀ px ∈ L, bx * 4 + px < w → by_ * 4 + py < h →
      F (bx * 4 + px) (by_ * 4 + py) =
        [(colors.getD ((indices >>> (2 * (py * 4 + px))) &&& 0x03) []).getD 0 0,
          (colors.getD ((indices >>> (2 * (py * 4 + px))) &&& 0x03) []).getD 1 0,
          (colors.getD ((indices >>> (2 * (py * 4 + px))) &&& 0x03) []).getD 2 0,
          alpha.getD ((alphaBits >>> (3 * (py * 4 + px))) &&& 0x07) 0])
    (hP : blp.Painted w h F S img) :
    blp.Painted w h F (fun x y => S x y ∨ (y = by_ * 4 + py ∧ ∃ px ∈ L, x = bx * 4 + px))
      (L.foldl
        (fun img px =>
          if bx * 4 + px ≥ w ∨ by_ * 4 + py ≥ h then img
          else
            let p := py * 4 + px
            let a := alpha.getD ((alphaBits >>> (3 * p)) &&& 0x07) 0
            let c := colors.getD ((indices >>> (2 * p)) &&& 0x03) []
            blp.set img (bx * 4 + px) (by_ * 4 + py) (c.getD 0 0) (c.getD 1 0) (c.getD 2 0) a)
        img) := by
  induction L generalizing S img with
  | nil =>
    exact Painted_mono w h F _ _ img hP (fun x y _ _ ht => by simpa using ht)
  | cons px L ih =>
    rw [List.foldl_cons]
    have hstep : blp.Painted w h F (fun x y => S x y ∨ (x = bx * 4 + px ∧ y = by_ * 4 + py))
        (if bx * 4 + px ≥ w ∨ by_ * 4 + py ≥ h then img
          else
            let p := py * 4 + px
            let a := alpha.getD ((alphaBits >>> (3 * p)) &&& 0x07) 0
            let c := colors.getD ((indices >>> (2 * p)) &&& 0x03) []
            blp.set img (bx * 4 + px) (by_ * 4 + py) (c.getD 0 0) (c.getD 1 0) (c.getD 2 0)
              a) := by
      by_cases hg : bx * 4 + px ≥ w ∨ by_ * 4 + py ≥ h
      · rw [if_pos hg]
        refine Painted_mono w h F _ _ img hP (fun x y hx hy ht => ?_)
        rcases ht with ht | ⟨h1, h2⟩
        · exact ht
        · omega
      · rw [if_neg hg]
        exact Painted_set w h F S img hP _ _ _ _ _ _ (by omega) (by omega)
          (hF px (List.mem_cons_self _ _) (by omega) (by omega))
    have := ih _ _ (fun px2 hpx2 => hF px2 (List.mem_cons_of_mem _ hpx2)) hstep
    refine Painted_mono w h F _ _ _ this (fun x y _ _ ht => ?_)
    rcases ht with ht | ⟨h1, px2, hpx2, h2⟩
    · exact Or.inl (Or.inl ht)
    · rcases List.mem_cons.mp hpx2 with rfl | hmem
      · exact Or.inl (Or.inr ⟨h2, h1⟩)
      · exact Or.inr ⟨h1, px2, hmem, h2⟩

/-- The two inner loops of `decodeDXT5` paint the pixels of one block. -/
theorem dxt5Pixels_painted (w h bx by_ : Nat) (alpha : List Nat) (alphaBits : Nat)
    (colors : List (List Nat)) (indices : Nat)
    (F : Nat → Nat → List Nat) (S : Nat → Nat → Prop) (img : blp.RGBA)
    (hF : ∀ px py, px < 4 → py < 4 → bx * 4 + px < w → by_ * 4 + py < h →
      F (bx * 4 + px) (by_ * 4 + py) =
        [(colors.getD ((indices >>> (2 * (py * 4 + px))) &&& 0x03) []).getD 0 0,
          (colors.getD ((indices >>> (2 * (py * 4 + px))) &&& 0x03) []).getD 1 0,
          (colors.getD ((indices >>> (2 * (py * 4 + px))) &&& 0x03) []).getD 2 0,
          alpha.getD ((alphaBits >>> (3 * (py * 4 + px))) &&& 0x07) 0])
    (hP : blp.Painted w h F S img) :
    blp.Painted w h F (fun x y => S x y ∨ (x / 4 = bx ∧ y / 4 = by_))
      (blp.dxt5Pixels w h bx by_ alpha alphaBits colors indices img) := by
  have outer : ∀ (L : List Nat) (S : Nat → Nat → Prop) (img : blp.RGBA),
      (∀ py ∈ L, py < 4) → blp.Painted w h F S img →
      blp.Painted w h F
        (fun x y => S x y ∨ ((∃ py ∈ L, y = by_ * 4 + py) ∧ ∃ px ∈ List.range 4, x = bx * 4 + px))
        (L.foldl
          (fun img py =>
            (List.range 4).foldl
              (fun img px =>
                if bx * 4 + px ≥ w ∨ by_ * 4 + py ≥ h then img
                else
                  let p := py * 4 + px
                  let a := alpha.getD ((alphaBits >>> (3 * p)) &&& 0x07) 0
                  let c := colors.getD ((indices >>> (2 * p)) &&& 0x03) []
                  blp.set img (bx * 4 + px) (by_ * 4 + py) (c.getD 0 0) (c.getD 1 0)
                    (c.getD 2 0) a)
              img)
          img) := by
    intro L
    induction L with
    | nil =>
      intro S img _ hP
      exact Painted_mono w h F _ _ img hP (fun x y _ _ ht => by simpa using ht)
    | cons py L ih =>
      intro S img hL hP
      rw [List.foldl_cons]
      have h1 := dxt5_px_painted w h bx by_ py alpha alphaBits colors indices F (List.range 4)
        S img
        (fun px hpx hx hy => hF px py (List.mem_range.mp hpx) (hL py (List.mem_cons_self _ _))
          hx hy) hP
      have h2 := ih _ _ (fun py2 hpy2 => hL py2 (List.mem_cons_of_mem _ hpy2)) h1
      refine Painted_mono w h F _ _ _ h2 (fun x y _ _ ht => ?_)
      rcases ht with ht | ⟨⟨py2, hpy2, h3⟩, hpx⟩
      · exact Or.inl (Or.inl ht)
      · rcases List.mem_cons.mp hpy2 with rfl | hmem
        · exact Or.inl (Or.inr ⟨h3, hpx⟩)
        · exact Or.inr ⟨⟨py2, hmem, h3⟩, hpx⟩
  have := outer (List.range 4) S img (fun py hpy => List.mem_range.mp hpy) hP
  unfold blp.dxt5Pixels
  refine Painted_mono w h F _ _ _ this (fun x y _ _ ht => ?_)
  rcases ht with ht | ⟨h1, h2⟩
  · exact Or.inl ht
  · exact Or.inr ⟨⟨y % 4, List.mem_range.mpr (Nat.mod_lt _ (by decide)), by omega⟩,
      ⟨x % 4, List.mem_range.mpr (Nat.mod_lt _ (by decide)), by omega⟩⟩

/-- The value that `decodeDXT5` writes for the pixel `(px, py)` of the block `(bx, by)` read
at the offset `16 * (by * bw + bx)` is the value of the description. -/
theorem dxt5PixelSpec_block (w : Nat) (data : List Nat) (hb : ∀ b ∈ data, b < 256)
    (bw bx by_ px py : Nat) (hbw : bw = (w + 3) / 4) (hpx : px < 4) (hpy : py < 4) :
    blp.dxt5PixelSpec w data (bx * 4 + px) (by_ * 4 + py) =
      [((blp.colorPalette (u16At data (16 * (by_ * bw + bx) + 8))
            (u16At data (16 * (by_ * bw + bx) + 10))).getD
          ((u32At data (16 * (by_ * bw + bx) + 12) >>> (2 * (py * 4 + px))) &&& 0x03) []).getD
            0 0,
        ((blp.colorPalette (u16At data (16 * (by_ * bw + bx) + 8))
            (u16At data (16 * (by_ * bw + bx) + 10))).getD
          ((u32At data (16 * (by_ * bw + bx) + 12) >>> (2 * (py * 4 + px))) &&& 0x03) []).getD
            1 0,
        ((blp.colorPalette (u16At data (16 * (by_ * bw + bx) + 8))
            (u16At data (16 * (by_ * bw + bx) + 10))).getD
          ((u32At data (16 * (by_ * bw + bx) + 12) >>> (2 * (py * 4 + px))) &&& 0x03) []).getD
            2 0,
        (blp.alphaPalette (data.getD (16 * (by_ * bw + bx)) 0)
            (data.getD (16 * (by_ * bw + bx) + 1) 0)).getD
          ((blp.alphaBitsAt data (16 * (by_ * bw + bx)) >>> (3 * (py * 4 + px))) &&& 0x07) 0]
      := by
  have e1 : (by_ * 4 + py) / 4 = by_ := by omega
  have e2 : (bx * 4 + px) / 4 = bx := by omega
  have e3 : (by_ * 4 + py) % 4 = py := by omega
  have e4 : (bx * 4 + px) % 4 = px := by omega
  have e5 : 4 * py + px = py * 4 + px := by omega
  unfold blp.dxt5PixelSpec
  simp only [e1, e2, e3, e4, e5, ← hbw, alphaBitsAt_eq data hb]

/-- The loop over `bx` of `decodeDXT5` reads the blocks of one block row in order and paints
their pixels; it ends at the offset of the next block row. -/
theorem dxt5Row_painted (w h : Nat) (data : List Nat) (hb : ∀ b ∈ data, b < 256)
    (bw by_ : Nat) (hbw : bw = (w + 3) / 4)
    (hlen : 16 * (by_ * bw + bw) ≤ data.length) (n : Nat) :
    ∀ (bx : Nat) (st : blp.RGBA × Nat) (S : Nat → Nat → Prop), bx + n = bw →
      st.2 = 16 * (by_ * bw + bx) → blp.Painted w h (blp.dxt5PixelSpec w data) S st.1 →
      ∃ img2, blp.dxt5Row w h data by_ n bx st = .ok (img2, 16 * (by_ * bw + bw)) ∧
        blp.Painted w h (blp.dxt5PixelSpec w data)
          (fun x y => S x y ∨ (y / 4 = by_ ∧ bx ≤ x / 4 ∧ x / 4 < bw)) img2 := by
  induction n with
  | zero =>
    intro bx st S hn hst hP
    have hbx : bx = bw := by omega
    subst hbx
    refine ⟨st.1, ?_, Painted_mono w h _ _ _ _ hP (fun x y _ _ ht => ?_)⟩
    · rw [blp.dxt5Row, ← hst]
    · rcases ht with ht | ht
      · exact ht
      · omega
  | succ n ih =>
    intro bx st S hn hst hP
    rw [blp.dxt5Row, if_pos (by omega)]
    have hblock := dxt5Pixels_painted w h bx by_
      (blp.alphaPalette (data.getD st.2 0) (data.getD (st.2 + 1) 0)) (blp.alphaBitsAt data st.2)
      (blp.colorPalette (u16At data (st.2 + 8)) (u16At data (st.2 + 10)))
      (u32At data (st.2 + 12))
      (blp.dxt5PixelSpec w data) S st.1
      (fun px py hpx hpy _ _ => by
        rw [hst]; exact dxt5PixelSpec_block w data hb bw bx by_ px py hbw hpx hpy) hP
    obtain ⟨img2, h1, h2⟩ := ih (bx + 1)
      (blp.dxt5Pixels w h bx by_ (blp.alphaPalette (data.getD st.2 0) (data.getD (st.2 + 1) 0))
        (blp.alphaBitsAt data st.2)
        (blp.colorPalette (u16At data (st.2 + 8)) (u16At data (st.2 + 10)))
        (u32At data (st.2 + 12)) st.1, st.2 + 16) _ (by omega)
      (by show st.2 + 16 = 16 * (by_ * bw + (bx + 1)); omega) hblock
    refine ⟨img2, h1, Painted_mono w h _ _ _ _ h2 (fun x y _ _ ht => ?_)⟩
    rcases ht with ht | ⟨h3, h4, h5⟩
    · exact Or.inl (Or.inl ht)
    · by_cases h6 : x / 4 = bx
      · exact Or.inl (Or.inr ⟨h6, h3⟩)
      · exact Or.inr ⟨h3, by omega, h5⟩

/-- The loop over `by` of `decodeDXT5` paints the pixels of all block rows and ends at the
offset `16 * bh * bw`. -/
theorem dxt5Rows_painted (w h : Nat) (data : List Nat) (hb : ∀ b ∈ data, b < 256)
    (bw bh : Nat) (hbw : bw = (w + 3) / 4)
    (hlen : 16 * (bh * bw) ≤ data.length) (n : Nat) :
    ∀ (by_ : Nat) (st : blp.RGBA × Nat) (S : Nat → Nat → Prop), by_ + n = bh →
      st.2 = 16 * (by_ * bw) → blp.Painted w h (blp.dxt5PixelSpec w data) S st.1 →
      ∃ img2, blp.dxt5Rows w h data bw n by_ st = .ok (img2, 16 * (bh * bw)) ∧
        blp.Painted w h (blp.dxt5PixelSpec w data)
          (fun x y => S x y ∨ (by_ ≤ y / 4 ∧ y / 4 < bh ∧ x / 4 < bw)) img2 := by
  induction n with
  | zero =>
    intro by_ st S hn hst hP
    have hby : by_ = bh := by omega
    subst hby
    refine ⟨st.1, ?_, Painted_mono w h _ _ _ _ hP (fun x y _ _ ht => ?_)⟩
    · rw [blp.dxt5Rows, ← hst]
    · rcases ht with ht | ht
      · exact ht
      · omega
  | succ n ih =>
    intro by_ st S hn hst hP
    have hle : (by_ + 1) * bw ≤ bh * bw := Nat.mul_le_mul_right bw (by omega)
    rw [Nat.add_mul, Nat.one_mul] at hle
    obtain ⟨img2, h1, h2⟩ := dxt5Row_painted w h data hb bw by_ hbw (by omega) bw 0 st S
      (by omega) (by rw [hst]; rfl) hP
    rw [blp.dxt5Rows, h1, bind_ok]
    obtain ⟨img3, h3, h4⟩ := ih (by_ + 1) (img2, 16 * (by_ * bw + bw)) _ (by omega)
      (by show 16 * (by_ * bw + bw) = 16 * ((by_ + 1) * bw); rw [Nat.add_mul, Nat.one_mul]) h2
    refine ⟨img3, h3, Painted_mono w h _ _ _ _ h4 (fun x y _ _ ht => ?_)⟩
    rcases ht with ht | ⟨h5, h6, h7⟩
    · exact Or.inl (Or.inl ht)
    · by_cases h8 : y / 4 = by_
      · exact Or.inl (Or.inr ⟨h8, by omega, h7⟩)
      · exact Or.inr ⟨by omega, h6, h7⟩

/-- The loop over `by` of `decodeDXT1` paints the pixels of all block rows and ends at the
offset `8 * bh * bw`. -/
theorem dxt1Rows_run (w h : Nat) (data : List Nat) (bw bh : Nat) (hbw : bw = (w + 3) / 4)
    (hlen : 8 * (bh * bw) ≤ data.length) (n : Nat) :
    ∀ (by_ : Nat) (st : blp.RGBA × Nat) (S : Nat → Nat → Prop), by_ + n = bh →
      st.2 = 8 * (by_ * bw) → blp.Painted w h (blp.dxt1PixelSpec w data) S st.1 →
      ∃ img2, blp.dxt1Rows w h data bw n by_ st = .ok (img2, 8 * (bh * bw)) ∧
        blp.Painted w h (blp.dxt1PixelSpec w data)
          (fun x y => S x y ∨ (by_ ≤ y / 4 ∧ y / 4 < bh ∧ x / 4 < bw)) img2 := by
  induction n with
  | zero =>
    intro by_ st S hn hst hP
    have hby : by_ = bh := by omega
    subst hby
    refine ⟨st.1, ?_, Painted_mono w h _ _ _ _ hP (fun x y _ _ ht => ?_)⟩
    · rw [blp.dxt1Rows, ← hst]
    · rcases ht with ht | ht
      · exact ht
      · omega
  | succ n ih =>
    intro by_ st S hn hst hP
    have hle : (by_ + 1) * bw ≤ bh * bw := Nat.mul_le_mul_right bw (by omega)
    rw [Nat.add_mul, Nat.one_mul] at hle
    obtain ⟨img2, h1, h2⟩ := dxt1Row_painted w h data bw by_ hbw (by omega) bw 0 st S
      (by omega) (by rw [hst]; rfl) hP
    rw [blp.dxt1Rows, h1, bind_ok]
    obtain ⟨img3, h3, h4⟩ := ih (by_ + 1) (img2, 8 * (by_ * bw + bw)) _ (by omega)
      (by show 8 * (by_ * bw + bw) = 8 * ((by_ + 1) * bw); rw [Nat.add_mul, Nat.one_mul]) h2
    refine ⟨img3, h3, Painted_mono w h _ _ _ _ h4 (fun x y _ _ ht => ?_)⟩
    rcases ht with ht | ⟨h5, h6, h7⟩
    · exact Or.inl (Or.inl ht)
    · by_cases h8 : y / 4 = by_
      · exact Or.inl (Or.inr ⟨h8, by omega, h7⟩)
      · exact Or.inr ⟨by omega, h6, h7⟩

/-- The run of `decodeDXT1` on enough data: the image of the description, and the final
read offset. -/
theorem decodeDXT1_run (w h : Nat) (data : List Nat)
    (hlen : 8 * (((h + 3) / 4) * ((w + 3) / 4)) ≤ data.length) :
    ∃ img, blp.decodeDXT1 w h data = .ok img ∧
      blp.dxt1Rows w h data ((w + 3) / 4) ((h + 3) / 4) 0 (blp.NewRGBA w h, 0)
        = .ok (img, 8 * (((h + 3) / 4) * ((w + 3) / 4))) ∧
      blp.Painted w h (blp.dxt1PixelSpec w data) (fun _ _ => True) img := by
  obtain ⟨img, h1, h2⟩ := dxt1Rows_run w h data ((w + 3) / 4) ((h + 3) / 4) rfl hlen
    ((h + 3) / 4) 0 (blp.NewRGBA w h, 0) _ (by omega) (by simp) (NewRGBA_painted w h _)
  refine ⟨img, ?_, h1, Painted_mono w h _ _ _ _ h2 (fun x y hx hy _ => ?_)⟩
  · unfold blp.decodeDXT1
    rw [h1, bind_ok]
  · exact Or.inr ⟨by omega, by omega, by omega⟩

/-- The run of `decodeDXT5` on enough data: the image of the description, and the final
read offset. -/
theorem decodeDXT5_run (w h : Nat) (data : List Nat) (hb : ∀ b ∈ data, b < 256)
    (hlen : 16 * (((h + 3) / 4) * ((w + 3) / 4)) ≤ data.length) :
    ∃ img, blp.decodeDXT5 w h data = .ok img ∧
      blp.dxt5Rows w h data ((w + 3) / 4) ((h + 3) / 4) 0 (blp.NewRGBA w h, 0)
        = .ok (img, 16 * (((h + 3) / 4) * ((w + 3) / 4))) ∧
      blp.Painted w h (blp.dxt5PixelSpec w data) (fun _ _ => True) img := by
  obtain ⟨img, h1, h2⟩ := dxt5Rows_painted w h data hb ((w + 3) / 4) ((h + 3) / 4) rfl hlen
    ((h + 3) / 4) 0 (blp.NewRGBA w h, 0) _ (by omega) (by simp) (NewRGBA_painted w h _)
  refine ⟨img, ?_, h1, Painted_mono w h _ _ _ _ h2 (fun x y hx hy _ => ?_)⟩
  · unfold blp.decodeDXT5
    rw [h1, bind_ok]
  · exact Or.inr ⟨by omega, by omega, by omega⟩

/-- The index of the block of an in-bounds pixel is below the number of blocks. -/
theorem block_index_lt (w h x y : Nat) (hx : x < w) (hy : y < h) :
    (y / 4) * ((w + 3) / 4) + x / 4 < ((h + 3) / 4) * ((w + 3) / 4) := by
  have h1 : (y / 4 + 1) * ((w + 3) / 4) ≤ ((h + 3) / 4) * ((w + 3) / 4) :=
    Nat.mul_le_mul_right _ (by omega)
  rw [Nat.add_mul, Nat.one_mul] at h1
  have h2 : x / 4 < (w + 3) / 4 := by omega
  omega

/-- The colour of a DXT5 pixel is the colour of the DXT1 pixel of the colour halves. -/
theorem dxt5PixelSpec_colour (w h : Nat) (data : List Nat)
    (hlen : 16 * (((h + 3) / 4) * ((w + 3) / 4)) ≤ data.length) (x y : Nat) (hx : x < w)
    (hy : y < h) :
    (blp.dxt5PixelSpec w data x y).take 3 =
      (blp.dxt1PixelSpec w (blp.colourHalves data (((h + 3) / 4) * ((w + 3) / 4))) x y).take 3
    := by
  have hk := block_index_lt w h x y hx hy
  have g : ∀ j, j < 8 →
      (blp.colourHalves data (((h + 3) / 4) * ((w + 3) / 4))).getD
        (8 * ((y / 4) * ((w + 3) / 4) + x / 4) + j) 0
      = data.getD (16 * ((y / 4) * ((w + 3) / 4) + x / 4) + (8 + j)) 0 := by
    intro j hj
    rw [← Nat.add_assoc]
    exact colourHalves_getD data _ hlen _ j hk hj
  have g0 : (blp.colourHalves data (((h + 3) / 4) * ((w + 3) / 4))).getD
        (8 * ((y / 4) * ((w + 3) / 4) + x / 4)) 0
      = data.getD (16 * ((y / 4) * ((w + 3) / 4) + x / 4) + 8) 0 := g 0 (by omega)
  simp only [blp.dxt5PixelSpec, blp.dxt1PixelSpec, u16At, u32At, Nat.add_assoc, Nat.reduceAdd,
    g0, g 1 (by omega), g 2 (by omega), g 3 (by omega), g 4 (by omega), g 5 (by omega),
    g 6 (by omega), g 7 (by omega), List.take_succ_cons, List.take_zero]

/-- C21. DXT5 pixel mapping: for every `w`, `h`, every `data` of at least
`16 * ceil(w/4) * ceil(h/4)` bytes, `decodeDXT5` returns an image of `w` x `h` pixels in which
every pixel `(x, y)` in bounds, with `p = 4 * (y mod 4) + (x mod 4)` and `B` the 16-byte block
at offset `16 * ((y div 4) * ceil(w/4) + (x div 4))`, has alpha
`alphaPalette(B[0], B[1])[(bits >> 3p) & 7]`, with `bits` the 48-bit little-endian value of
`B[2..8]` (the value that the decoder accumulates), and the colour
`colorPalette(LE16 B[8..10], LE16 B[10..12])[(LE32 B[12..16] >> 2p) & 3]`; the red, green and
blue channels equal those of `decodeDXT1` applied to the concatenation of the colour halves
(bytes 8..16) of the blocks. -/
theorem decodeDXT5_pixel_mapping (w h : Nat) (data : List Nat) (hb : ∀ b ∈ data, b < 256)
    (hlen : 16 * ((w + 3) / 4) * ((h + 3) / 4) ≤ data.length) :
    ∃ img, blp.decodeDXT5 w h data = .ok img ∧ img.Width = w ∧ img.Height = h ∧
      img.Stride = 4 * w ∧ img.Pix.length = 4 * w * h ∧
      (∀ o, blp.alphaBitsAt data o = blp.le48At data (o + 2)) ∧
      (∀ x y, x < w → y < h →
        blp.RGBAAt img x y = blp.dxt5PixelSpec w data x y ∧
        (blp.RGBAAt img x y).getD 3 0 =
          (blp.alphaPalette (data.getD (16 * ((y / 4) * ((w + 3) / 4) + x / 4)) 0)
              (data.getD (16 * ((y / 4) * ((w + 3) / 4) + x / 4) + 1) 0)).getD
            ((blp.le48At data (16 * ((y / 4) * ((w + 3) / 4) + x / 4) + 2)
              >>> (3 * (4 * (y % 4) + x % 4))) &&& 7) 0) ∧
      ∃ img1, blp.decodeDXT1 w h (blp.colourHalves data (((w + 3) / 4) * ((h + 3) / 4)))
          = .ok img1 ∧
        ∀ x y, x < w → y < h → (blp.RGBAAt img x y).take 3 = (blp.RGBAAt img1 x y).take 3 := by
  have hlen2 : 16 * (((h + 3) / 4) * ((w + 3) / 4)) ≤ data.length := by
    rw [Nat.mul_comm ((h + 3) / 4), ← Nat.mul_assoc]; exact hlen
  obtain ⟨img, h1, -, h2⟩ := decodeDXT5_run w h data hb hlen2
  have hl1 := colourHalves_length data (((h + 3) / 4) * ((w + 3) / 4)) hlen2
  obtain ⟨img1, h3, -, h4⟩ := decodeDXT1_run w h
    (blp.colourHalves data (((h + 3) / 4) * ((w + 3) / 4))) (by rw [hl1])
  refine ⟨img, h1, h2.2.2.1, h2.2.2.2.1, h2.1, h2.2.1, alphaBitsAt_eq data hb,
    fun x y hx hy => ?_, img1, ?_, fun x y hx hy => ?_⟩
  · have := h2.2.2.2.2 x y hx hy trivial
    refine ⟨this, ?_⟩
    rw [this]
    rfl
  · rw [Nat.mul_comm ((w + 3) / 4)]
    exact h3
  · rw [h2.2.2.2.2 x y hx hy trivial, h4.2.2.2.2 x y hx hy trivial]
    exact dxt5PixelSpec_colour w h data hlen2 x y hx hy

/-- Witness of C21: one block of 4 x 4 pixels; the pixel `(3, 2)`, `p = 11`, has the colour
of slot 2 and the alpha of slot 3 of the palettes. -/
theorem decodeDXT5_pixel_mapping_witness :
    (∀ b ∈ blp.dxt5Block, b < 256) ∧
    16 * ((4 + 3) / 4) * ((4 + 3) / 4) ≤ blp.dxt5Block.length ∧
    blp.dxt5PixelSpec 4 blp.dxt5Block 3 2 = [170, 0, 85, 182] ∧
    blp.le48At blp.dxt5Block 2 = 0xFAC688FAC688 ∧
    ∃ img, blp.decodeDXT5 4 4 blp.dxt5Block = .ok img ∧
      blp.RGBAAt img 3 2 = blp.dxt5PixelSpec 4 blp.dxt5Block 3 2 ∧
      ∃ img1, blp.decodeDXT1 4 4 (blp.colourHalves blp.dxt5Block (((4 + 3) / 4) * ((4 + 3) / 4)))
          = .ok img1 ∧
        (blp.RGBAAt img 3 2).take 3 = (blp.RGBAAt img1 3 2).take 3 := by
  have hb : ∀ b ∈ blp.dxt5Block, b < 256 := by decide
  have hs : blp.dxt5PixelSpec 4 blp.dxt5Block 3 2 = [170, 0, 85, 182] := by decide
  have hv : blp.le48At blp.dxt5Block 2 = 0xFAC688FAC688 := by decide
  obtain ⟨img, h1, -, -, -, -, -, h2, img1, h3, h4⟩ :=
    decodeDXT5_pixel_mapping 4 4 blp.dxt5Block hb (by decide)
  exact ⟨hb, by decide, hs, hv, img, h1, (h2 3 2 (by decide) (by decide)).1, img1, h3,
    h4 3 2 (by decide) (by decide)⟩

/-! ## Claims on edge clipping -/

/-- Buffers with the same first `n` bytes have the same byte at every position below `n`. -/
theorem getD_of_take_eq (a b : List Nat) (n i : Nat) (h : a.take n = b.take n) (hi : i < n) :
    a.getD i 0 = b.getD i 0 := by
  have ha : a[i]? = (a.take n)[i]? := (List.getElem?_take_of_lt hi).symm
  have hb : b[i]? = (b.take n)[i]? := (List.getElem?_take_of_lt hi).symm
  rw [List.getD_eq_getElem?_getD, List.getD_eq_getElem?_getD, ha, hb, h]

/-- A buffer with the same first `n` bytes as a buffer of at least `n` bytes has at least `n`
bytes. -/
theorem length_of_take_eq (a b : List Nat) (n : Nat) (h : a.take n = b.take n)
    (hb : n ≤ b.length) : n ≤ a.length := by
  have := congrArg List.length h
  rw [List.length_take, List.length_take] at this
  omega

/-- The invariant of a decoder for a pixel function with the same values in bounds. -/
theorem Painted_congr (w h : Nat) (F G : Nat → Nat → List Nat) (S : Nat → Nat → Prop)
    (img : blp.RGBA) (hP : blp.Painted w h F S img)
    (hFG : ∀ x y, x < w → y < h → F x y = G x y) : blp.Painted w h G S img :=
  ⟨hP.1, hP.2.1, hP.2.2.1, hP.2.2.2.1,
    fun x y hx hy hs => (hP.2.2.2.2 x y hx hy hs).trans (hFG x y hx hy)⟩

/-- The DXT1 pixel depends on the width only through the number of blocks in a row. -/
theorem dxt1PixelSpec_width (w : Nat) (data : List Nat) (x y : Nat) :
    blp.dxt1PixelSpec (4 * ((w + 3) / 4)) data x y = blp.dxt1PixelSpec w data x y := by
  have e : (4 * ((w + 3) / 4) + 3) / 4 = (w + 3) / 4 := by omega
  unfold blp.dxt1PixelSpec
  simp only [e]

/-- The DXT5 pixel depends on the width only through the number of blocks in a row. -/
theorem dxt5PixelSpec_width (w : Nat) (data : List Nat) (x y : Nat) :
    blp.dxt5PixelSpec (4 * ((w + 3) / 4)) data x y = blp.dxt5PixelSpec w data x y := by
  have e : (4 * ((w + 3) / 4) + 3) / 4 = (w + 3) / 4 := by omega
  unfold blp.dxt5PixelSpec
  simp only [e]

/-- The DXT1 pixels in bounds depend only on the bytes of the blocks of the image. -/
theorem dxt1PixelSpec_data (w h : Nat) (data data2 : List Nat)
    (ht : data2.take (8 * (((h + 3) / 4) * ((w + 3) / 4)))
      = data.take (8 * (((h + 3) / 4) * ((w + 3) / 4))))
    (x y : Nat) (hx : x < w) (hy : y < h) :
    blp.dxt1PixelSpec w data2 x y = blp.dxt1PixelSpec w data x y := by
  have hk := block_index_lt w h x y hx hy
  have g : ∀ j, j < 8 →
      data2.getD (8 * ((y / 4) * ((w + 3) / 4) + x / 4) + j) 0
        = data.getD (8 * ((y / 4) * ((w + 3) / 4) + x / 4) + j) 0 :=
    fun j hj => getD_of_take_eq _ _ _ _ ht (by omega)
  have g0 : data2.getD (8 * ((y / 4) * ((w + 3) / 4) + x / 4)) 0
      = data.getD (8 * ((y / 4) * ((w + 3) / 4) + x / 4)) 0 := g 0 (by omega)
  simp only [blp.dxt1PixelSpec, u16At, u32At, Nat.add_assoc, Nat.reduceAdd,
    g0, g 1 (by omega), g 2 (by omega), g 3 (by omega), g 4 (by omega), g 5 (by omega),
    g 6 (by omega), g 7 (by omega)]

/-- The DXT5 pixels in bounds depend only on the bytes of the blocks of the image. -/
theorem dxt5PixelSpec_data (w h : Nat) (data data2 : List Nat)
    (ht : data2.take (16 * (((h + 3) / 4) * ((w + 3) / 4)))
      = data.take (16 * (((h + 3) / 4) * ((w + 3) / 4))))
    (x y : Nat) (hx : x < w) (hy : y < h) :
    blp.dxt5PixelSpec w data2 x y = blp.dxt5PixelSpec w data x y := by
  have hk := block_index_lt w h x y hx hy
  have g : ∀ j, j < 16 →
      data2.getD (16 * ((y / 4) * ((w + 3) / 4) + x / 4) + j) 0
        = data.getD (16 * ((y / 4) * ((w + 3) / 4) + x / 4) + j) 0 :=
    fun j hj => getD_of_take_eq _ _ _ _ ht (by omega)
  have g0 : data2.getD (16 * ((y / 4) * ((w + 3) / 4) + x / 4)) 0
      = data.getD (16 * ((y / 4) * ((w + 3) / 4) + x / 4)) 0 := g 0 (by omega)
  simp only [blp.dxt5PixelSpec, blp.le48At, u16At, u32At, Nat.add_assoc, Nat.reduceAdd,
    g0, g 1 (by omega), g 2 (by omega), g 3 (by omega), g 4 (by omega), g 5 (by omega),
    g 6 (by omega), g 7 (by omega), g 8 (by omega), g 9 (by omega), g 10 (by omega),
    g 11 (by omega), g 12 (by omega), g 13 (by omega), g 14 (by omega), g 15 (by omega)]

/-- C22. Edge clipping: for all `w`, `h` and `data` of at least `8 * ceil(w/4) * ceil(h/4)`
bytes, `decodeDXT1 w h data` yields an image of exactly `w * h` pixels whose pixels are those
of the top-left `w` x `h` crop of `decodeDXT1 (4 * ceil(w/4)) (4 * ceil(h/4)) data`; its loops
end at the read offset `8 * ceil(w/4) * ceil(h/4)`, and every `data2` with the same first
`8 * ceil(w/4) * ceil(h/4)` bytes decodes to the same image; the same holds for `decodeDXT5`
with 16 in place of 8. -/
theorem decode_edge_clipping (w h : Nat) (data : List Nat) :
    (8 * ((w + 3) / 4) * ((h + 3) / 4) ≤ data.length →
      ∃ img big, blp.decodeDXT1 w h data = .ok img ∧
        blp.decodeDXT1 (4 * ((w + 3) / 4)) (4 * ((h + 3) / 4)) data = .ok big ∧
        img.Width = w ∧ img.Height = h ∧ img.Pix.length = 4 * (w * h) ∧
        (∀ x y, x < w → y < h → blp.RGBAAt img x y = blp.RGBAAt big x y) ∧
        blp.dxt1Rows w h data ((w + 3) / 4) ((h + 3) / 4) 0 (blp.NewRGBA w h, 0)
          = .ok (img, 8 * ((w + 3) / 4) * ((h + 3) / 4)) ∧
        ∀ data2, data2.take (8 * ((w + 3) / 4) * ((h + 3) / 4))
            = data.take (8 * ((w + 3) / 4) * ((h + 3) / 4)) →
          blp.decodeDXT1 w h data2 = .ok img) ∧
    ((∀ b ∈ data, b < 256) → 16 * ((w + 3) / 4) * ((h + 3) / 4) ≤ data.length →
      ∃ img big, blp.decodeDXT5 w h data = .ok img ∧
        blp.decodeDXT5 (4 * ((w + 3) / 4)) (4 * ((h + 3) / 4)) data = .ok big ∧
        img.Width = w ∧ img.Height = h ∧ img.Pix.length = 4 * (w * h) ∧
        (∀ x y, x < w → y < h → blp.RGBAAt img x y = blp.RGBAAt big x y) ∧
        blp.dxt5Rows w h data ((w + 3) / 4) ((h + 3) / 4) 0 (blp.NewRGBA w h, 0)
          = .ok (img, 16 * ((w + 3) / 4) * ((h + 3) / 4)) ∧
        ∀ data2, (∀ b ∈ data2, b < 256) →
          data2.take (16 * ((w + 3) / 4) * ((h + 3) / 4))
            = data.take (16 * ((w + 3) / 4) * ((h + 3) / 4)) →
          blp.decodeDXT5 w h data2 = .ok img) := by
  have ew : (4 * ((w + 3) / 4) + 3) / 4 = (w + 3) / 4 := by omega
  have eh : (4 * ((h + 3) / 4) + 3) / 4 = (h + 3) / 4 := by omega
  have en : ∀ c, c * ((w + 3) / 4) * ((h + 3) / 4) = c * (((h + 3) / 4) * ((w + 3) / 4)) := by
    intro c
    rw [Nat.mul_comm ((h + 3) / 4), Nat.mul_assoc]
  have hxw : ∀ x, x < w → x < 4 * ((w + 3) / 4) := fun x hx => by omega
  have hyh : ∀ y, y < h → y < 4 * ((h + 3) / 4) := fun y hy => by omega
  rw [en 8, en 16]
  constructor
  · intro hlen
    obtain ⟨img, h1, h2, h3⟩ := decodeDXT1_run w h data hlen
    obtain ⟨big, h4, -, h5⟩ := decodeDXT1_run (4 * ((w + 3) / 4)) (4 * ((h + 3) / 4)) data
      (by rw [ew, eh]; exact hlen)
    refine ⟨img, big, h1, h4, h3.2.2.1, h3.2.2.2.1, by rw [h3.2.1, Nat.mul_assoc],
      fun x y hx hy => ?_, h2, fun data2 ht => ?_⟩
    · rw [h3.2.2.2.2 x y hx hy trivial, h5.2.2.2.2 x y (hxw x hx) (hyh y hy) trivial,
        dxt1PixelSpec_width]
    · obtain ⟨img2, h6, -, h7⟩ := decodeDXT1_run w h data2
        (length_of_take_eq _ _ _ ht hlen)
      rw [h6, Painted_ext w h _ img2 img
        (Painted_congr w h _ _ _ _ h7 (dxt1PixelSpec_data w h data data2 ht)) h3]
  · intro hb hlen
    obtain ⟨img, h1, h2, h3⟩ := decodeDXT5_run w h data hb hlen
    obtain ⟨big, h4, -, h5⟩ := decodeDXT5_run (4 * ((w + 3) / 4)) (4 * ((h + 3) / 4)) data hb
      (by rw [ew, eh]; exact hlen)
    refine ⟨img, big, h1, h4, h3.2.2.1, h3.2.2.2.1, by rw [h3.2.1, Nat.mul_assoc],
      fun x y hx hy => ?_, h2, fun data2 hb2 ht => ?_⟩
    · rw [h3.2.2.2.2 x y hx hy trivial, h5.2.2.2.2 x y (hxw x hx) (hyh y hy) trivial,
        dxt5PixelSpec_width]
    · obtain ⟨img2, h6, -, h7⟩ := decodeDXT5_run w h data2 hb2
        (length_of_take_eq _ _ _ ht hlen)
      rw [h6, Painted_ext w h _ img2 img
        (Painted_congr w h _ _ _ _ h7 (dxt5PixelSpec_data w h data data2 ht)) h3]

/-- Witness of C22: an image of 5 x 5 pixels consumes exactly 4 blocks, 32 bytes of DXT1 data
and 64 bytes of DXT5 data, yields 5 x 5 pixels, and the bytes after the blocks do not matter.
-/
theorem decode_edge_clipping_witness :
    8 * ((5 + 3) / 4) * ((5 + 3) / 4) ≤ blp.dxt1EdgeData.length ∧
    (∀ b ∈ blp.dxt5EdgeData, b < 256) ∧
    16 * ((5 + 3) / 4) * ((5 + 3) / 4) ≤ blp.dxt5EdgeData.length ∧
    (∃ img, blp.decodeDXT1 5 5 blp.dxt1EdgeData = .ok img ∧ img.Width = 5 ∧ img.Height = 5 ∧
      img.Pix.length = 4 * (5 * 5) ∧
      blp.dxt1Rows 5 5 blp.dxt1EdgeData 2 2 0 (blp.NewRGBA 5 5, 0) = .ok (img, 32) ∧
      blp.decodeDXT1 5 5 (blp.dxt1EdgeData.take 32) = .ok img) ∧
    (∃ img, blp.decodeDXT5 5 5 blp.dxt5EdgeData = .ok img ∧ img.Width = 5 ∧ img.Height = 5 ∧
      img.Pix.length = 4 * (5 * 5) ∧
      blp.dxt5Rows 5 5 blp.dxt5EdgeData 2 2 0 (blp.NewRGBA 5 5, 0) = .ok (img, 64) ∧
      blp.decodeDXT5 5 5 (blp.dxt5EdgeData.take 64) = .ok img) := by
  have l1 : 8 * ((5 + 3) / 4) * ((5 + 3) / 4) ≤ blp.dxt1EdgeData.length := by decide
  have hb : ∀ b ∈ blp.dxt5EdgeData, b < 256 := by decide
  have hb2 : ∀ b ∈ blp.dxt5EdgeData.take 64, b < 256 := by decide
  have l2 : 16 * ((5 + 3) / 4) * ((5 + 3) / 4) ≤ blp.dxt5EdgeData.length := by decide
  obtain ⟨img, -, a1, -, a2, a3, a4, -, a5, a6⟩ :=
    (decode_edge_clipping 5 5 blp.dxt1EdgeData).1 l1
  obtain ⟨img5, -, b1, -, b2, b3, b4, -, b5, b6⟩ :=
    (decode_edge_clipping 5 5 blp.dxt5EdgeData).2 hb l2
  exact ⟨l1, hb, l2,
    ⟨img, a1, a2, a3, a4, a5, a6 (blp.dxt1EdgeData.take 32) (List.take_take 32 32 _)⟩,
    ⟨img5, b1, b2, b3, b4, b5, b6 (blp.dxt5EdgeData.take 64) hb2 (List.take_take 64 64 _)⟩⟩
end GoMapViewer
